import Mathlib

/-!
# Day 5 crate stacks (`src/day5/day5.cpp`)

A shallow embedding of the crate-stack engine: the diagram loader `loadStacks`,
the directive reader `readInstruction`, the two executors
`parseSequentialInstruction` and `parseBatchedInstruction`, the drivers
`partOne` and `partTwo` and the loop that prints the tops.

Conventions of the embedding.

* A `Stack*` is an `Option Nat`: `none` is `NULL`, `some a` is the address `a`.
  The heap maps an address to the node stored there, `none` when nothing was
  allocated at it. The `Stack**` array is a list of pointers.
* `int` is 32 bits wide: every `int` operation of `readInstruction` is wrapped
  with `wrapInt`. Offsets into the input text are natural numbers; a text held
  in memory is shorter than `2^31` characters, so they never wrap.
* The input is the list of characters before the terminating NUL. Offset
  `input.length` holds the NUL; any other offset outside the text is not part
  of the object.
* Behaviour the C++ standard leaves undefined (a read outside an object, a
  dereference of `NULL` or of an unallocated address) is a `Fault`.
* `loadStacks` asks `malloc` for `sizeof(Stack_t*)` bytes per node, the size of
  a pointer and not of a node. The embedding has no byte layout: every
  allocation holds one node, at a fresh address.
* Storage that the source leaves unset is a parameter: `junk` for the cells of
  the array returned by `malloc`, `init` for the local record of
  `readInstruction`.
-/

namespace Day5

/-- The ways a run can leave defined behaviour. -/
inductive Fault where
  /-- `strchr` found no line break; `loadStacks` returns `-1` and leaves
  `*stacks` and `*numberOfColumns` unset. -/
  | noLineBreak
  /-- A read of the input text outside `0 .. length` (length is the NUL). -/
  | textBounds
  /-- An access to `builders[column]` or `(*stacks)[column]` with
  `column >= numberOfColumns`, or to `stacks[i]` outside the array. -/
  | arrayBounds
  /-- A dereference of `NULL`. -/
  | nullDeref
  /-- A dereference of an address that holds no node. -/
  | wildDeref
  /-- The iteration budget of a loop ran out. -/
  | fuel
deriving DecidableEq, Repr

deriving instance DecidableEq for Except

/-- `struct Stack_t { char value; Stack_t* below; }`. -/
structure Stack where
  value : Char
  below : Option Nat
deriving DecidableEq, Repr

/-- `struct { int count, from, to; }`. -/
structure Instruction where
  count : Int
  from_ : Int
  to_ : Int
deriving DecidableEq, Repr

/-- `enum ReadLineState { TO, FROM, COUNT }`. -/
inductive ReadLineState where
  | TO
  | FROM
  | COUNT
deriving DecidableEq, Repr

/-- The node store. -/
abbrev Heap := Nat → Option Stack

/-- The heap together with the `Stack**` array. -/
structure Forest where
  heap : Heap
  stackArray : List (Option Nat)

/-- Two's-complement wrap of a mathematical integer to a 32-bit `int`. -/
def wrapInt (x : Int) : Int := (x + 2147483648) % 4294967296 - 2147483648

/-- Conversion of an `int` to the 32-bit `size_t` it is compared with in
`i < count`. -/
def toSizeT (x : Int) : Nat := (x % 4294967296).toNat

/-- The node a pointer refers to. -/
def deref (h : Heap) (p : Option Nat) : Except Fault (Nat × Stack) :=
  match p with
  | none => .error .nullDeref
  | some a =>
    match h a with
    | none => .error .wildDeref
    | some node => .ok (a, node)

/-- The read `stacks[i]`. -/
def readStack (stackArray : List (Option Nat)) (i : Int) : Except Fault (Option Nat) :=
  if 0 ≤ i then
    match stackArray[i.toNat]? with
    | some p => .ok p
    | none => .error .arrayBounds
  else .error .arrayBounds

/-- The write `stacks[i] = p`. -/
def writeStack (stackArray : List (Option Nat)) (i : Int) (p : Option Nat) :
    Except Fault (List (Option Nat)) :=
  if 0 ≤ i ∧ i.toNat < stackArray.length then .ok (stackArray.set i.toNat p)
  else .error .arrayBounds

/-- The loop of `parseSequentialInstruction`, `n` iterations left:
`temp = from->below; from->below = to; to = from;`. The value read into
`temp` is not used, and `from` is never reassigned. Returns the heap and the
final `to`. -/
def sequentialLoop : Nat → Heap → Option Nat → Option Nat → Except Fault (Heap × Option Nat)
  | 0, h, to_, _ => .ok (h, to_)
  | n + 1, h, to_, from_ => do
    let (a, node) ← deref h from_
    sequentialLoop n (Function.update h a (some { node with below := to_ })) from_ from_

/-- `parseSequentialInstruction(instruction, stacks)`. -/
def parseSequentialInstruction (instruction : Instruction) (m : Forest) :
    Except Fault Forest := do
  let to_ ← readStack m.stackArray instruction.to_
  let from_ ← readStack m.stackArray instruction.from_
  let (h, to_) ← sequentialLoop (toSizeT instruction.count) m.heap to_ from_
  let arr ← writeStack m.stackArray instruction.to_ to_
  let arr ← writeStack arr instruction.from_ from_
  pure ⟨h, arr⟩

/-- The loop of `parseBatchedInstruction`, `n` iterations left:
`bottom = bottom == NULL ? top : bottom->below;`. -/
def batchedLoop : Nat → Heap → Option Nat → Option Nat → Except Fault (Option Nat)
  | 0, _, _, bottom => .ok bottom
  | n + 1, h, top, bottom =>
    match bottom with
    | none => batchedLoop n h top top
    | some _ => do
      let (_, node) ← deref h bottom
      batchedLoop n h top node.below

/-- `parseBatchedInstruction(instruction, stacks)`. -/
def parseBatchedInstruction (instruction : Instruction) (m : Forest) :
    Except Fault Forest := do
  let top ← readStack m.stackArray instruction.from_
  let bottom ← batchedLoop (toSizeT instruction.count) m.heap top none
  -- stacks[instruction.from] = bottom->below;
  let (b, node) ← deref m.heap bottom
  let arr ← writeStack m.stackArray instruction.from_ node.below
  -- bottom->below = stacks[instruction.to];
  let target ← readStack arr instruction.to_
  let h := Function.update m.heap b (some { node with below := target })
  -- stacks[instruction.to] = top;
  let arr ← writeStack arr instruction.to_ top
  pure ⟨h, arr⟩

/-! ## The input text -/

/-- The character at an offset of the text; the NUL sits at `input.length`. -/
def charAt (input : List Char) (i : Nat) : Except Fault Char :=
  match input[i]? with
  | some c => .ok c
  | none => if i = input.length then .ok (Char.ofNat 0) else .error .textBounds

/-- `strchr(input + start, c)` for `c` other than NUL: the offset of the first
`c` at or after `start`, `none` for `NULL`. -/
def strchr (input : List Char) (start : Nat) (c : Char) : Except Fault (Option Nat) :=
  if input.length < start then .error .textBounds
  else
    let k := (input.drop start).indexOf c
    if k < (input.drop start).length then .ok (some (start + k)) else .ok none

/-! ## The instruction reader -/

/-- The loop of `readInstruction`. `position` is the offset the pointer holds
before `*--position`; `instruction` is the record filled so far. The budget is
never the reason to stop when it starts above `position`, which decreases at
every turn. -/
def readLoop (input : List Char) :
    Nat → Nat → Int → Int → ReadLineState → Instruction → Except Fault Instruction
  | 0, _, _, _, _, _ => .error .fuel
  | fuel + 1, position, radix, current, state, instruction =>
    if position = 0 then .error .textBounds
    else do
      let position := position - 1
      let value ← charAt input position
      if value = '\n' then pure instruction
      else if 48 ≤ value.toNat ∧ value.toNat ≤ 57 then
        -- current += (value - 48) * radix; radix *= 10;
        readLoop input fuel position (wrapInt (radix * 10))
          (wrapInt (current + wrapInt (((value.toNat : Int) - 48) * radix))) state instruction
      else
        match state with
        | .TO =>
          if position < 3 then .error .textBounds
          else readLoop input fuel (position - 3) 1 0 .FROM { instruction with to_ := wrapInt (current - 1) }
        | .FROM =>
          if position < 5 then .error .textBounds
          else readLoop input fuel (position - 5) 1 0 .COUNT { instruction with from_ := wrapInt (current - 1) }
        | .COUNT =>
          if position < 4 then .error .textBounds
          else readLoop input fuel (position - 4) 1 0 .COUNT { instruction with count := current }

/-- `readInstruction(input + position)`; `init` is what the unset local record
happens to hold. -/
def readInstruction (input : List Char) (position : Nat) (init : Instruction) :
    Except Fault Instruction :=
  readLoop input (position + 1) position 1 0 .TO init

/-! ## The diagram loader -/

/-- The first lines of `loadStacks`: `lineEnd` and `*numberOfColumns`, from
the offset of the first line break. -/
def lineHeader (input : List Char) : Except Fault (Nat × Nat) :=
  let endOfLine := input.indexOf '\n'
  if endOfLine < input.length then
    let lineEnd := endOfLine + 1
    .ok (lineEnd, lineEnd >>> 2)
  else .error .noLineBreak

/-- The locals of `loadStacks` that its loops change. `next` is the address
the next `malloc` returns. -/
structure LoadState where
  index : Nat
  column : Nat
  heap : Heap
  next : Nat
  stackArray : List (Option Nat)
  builders : List (Option Nat)

/-- The `for (; index < lineLength;)` loop of `loadStacks`. -/
def rowLoop (input : List Char) (lineLength : Nat) : Nat → LoadState → Except Fault LoadState
  | 0, _ => .error .fuel
  | fuel + 1, s =>
    if s.index < lineLength then do
      let c ← charAt input s.index
      if c = '[' then do
        let value ← charAt input (s.index + 1)
        match s.builders[s.column]? with
        | none => .error .arrayBounds
        | some none =>
          -- builders[column] = (*stacks)[column] = malloc(..)
          if s.column < s.stackArray.length then
            rowLoop input lineLength fuel
              { index := s.index + 4, column := s.column + 1,
                heap := Function.update s.heap s.next (some ⟨value, none⟩),
                next := s.next + 1,
                stackArray := s.stackArray.set s.column (some s.next),
                builders := s.builders.set s.column (some s.next) }
          else .error .arrayBounds
        | some (some b) => do
          -- builders[column] = builders[column]->below = malloc(..)
          let (_, node) ← deref s.heap (some b)
          rowLoop input lineLength fuel
            { index := s.index + 4, column := s.column + 1,
              heap := Function.update
                (Function.update s.heap b (some { node with below := some s.next }))
                s.next (some ⟨value, none⟩),
              next := s.next + 1,
              stackArray := s.stackArray,
              builders := s.builders.set s.column (some s.next) }
      else
        rowLoop input lineLength fuel { s with index := s.index + 4, column := s.column + 1 }
    else .ok s

/-- The `while (input[index] != '\n')` loop of `loadStacks`; after each row
`lineLength += (lineEnd + 1)`. -/
def diagramLoop (input : List Char) (lineEnd : Nat) :
    Nat → Nat → LoadState → Except Fault LoadState
  | 0, _, _ => .error .fuel
  | fuel + 1, lineLength, s => do
    let c ← charAt input s.index
    if c = '\n' then pure s
    else do
      let s ← rowLoop input lineLength (input.length + 2) { s with column := 0 }
      diagramLoop input lineEnd fuel (lineLength + (lineEnd + 1)) s

/-- What `loadStacks` hands back: its return value and the two out-parameters,
with the heap the nodes live in. -/
structure Loaded where
  index : Nat
  forest : Forest
  numberOfColumns : Nat

/-- `loadStacks(input, &stacks, &numberOfColumns)`; `junk i` is what cell `i`
of the unset array returned by `malloc` happens to hold. -/
def loadStacks (input : List Char) (junk : Nat → Option Nat) : Except Fault Loaded := do
  let (lineEnd, numberOfColumns) ← lineHeader input
  let s ← diagramLoop input lineEnd (input.length + 2) lineEnd
    { index := 0, column := 0, heap := fun _ => none, next := 0,
      stackArray := (List.range numberOfColumns).map junk,
      builders := List.replicate numberOfColumns none }
  pure { index := s.index + 2, forest := ⟨s.heap, s.stackArray⟩,
         numberOfColumns := numberOfColumns }

/-! ## The reporter and the drivers -/

/-- The printing loop of `partOne` and `partTwo` from column `i` on, with
`remaining` columns to go, then `printf("\n")`. -/
def printTops (m : Forest) : Nat → Nat → Except Fault (List Char)
  | 0, _ => pure ['\n']
  | remaining + 1, i => do
    let p ← readStack m.stackArray i
    let (_, node) ← deref m.heap p
    let rest ← printTops m remaining (i + 1)
    pure (node.value :: rest)

/-- The characters printed for a forest of `numberOfColumns` stacks. -/
def reportTops (m : Forest) (numberOfColumns : Nat) : Except Fault (List Char) :=
  printTops m numberOfColumns 0

/-- The `while ((endOfLine = strchr(endOfLine, '\n')) != NULL)` loop of the
drivers, for the executor `policy`. -/
def instructionLoop (policy : Instruction → Forest → Except Fault Forest)
    (input : List Char) (init : Instruction) : Nat → Nat → Forest → Except Fault Forest
  | 0, _, _ => .error .fuel
  | fuel + 1, endOfLine, m => do
    match ← strchr input endOfLine '\n' with
    | none => pure m
    | some e => do
      let instruction ← readInstruction input e init
      let m ← policy instruction m
      instructionLoop policy input init fuel (e + 1) m

/-- `partOne(input)`: the line it prints. The nodes are released afterwards. -/
def partOne (input : List Char) (junk : Nat → Option Nat) (init : Instruction) :
    Except Fault (List Char) := do
  let loaded ← loadStacks input junk
  let m ← instructionLoop parseSequentialInstruction input init (input.length + 1)
    loaded.index loaded.forest
  let instruction ← readInstruction input input.length init
  let m ← parseSequentialInstruction instruction m
  reportTops m loaded.numberOfColumns

/-- `partTwo(input)`: the line it prints. The nodes are released afterwards. -/
def partTwo (input : List Char) (junk : Nat → Option Nat) (init : Instruction) :
    Except Fault (List Char) := do
  let loaded ← loadStacks input junk
  let m ← instructionLoop parseBatchedInstruction input init (input.length + 1)
    loaded.index loaded.forest
  let instruction ← readInstruction input input.length init
  let m ← parseBatchedInstruction instruction m
  reportTops m loaded.numberOfColumns

/-- The canonical input: the three-row diagram, the label row, the blank line
and the four directives, without a final line break. -/
def canonicalInput : List Char :=
  ("    [D]    \n[N] [C]    \n[Z] [M] [P]\n 1   2   3 \n\n" ++
    "move 1 from 2 to 1\nmove 3 from 1 to 3\nmove 2 from 2 to 1\nmove 1 from 1 to 2").toList

/-! ## Reading a forest -/

/-- The crate values met from `p` downward, following at most `fuel` links;
`none` when the chain is longer than `fuel` or leaves the heap. -/
def contents (h : Heap) : Nat → Option Nat → Option (List Char)
  | _, none => some []
  | 0, some _ => none
  | fuel + 1, some a =>
    match h a with
    | none => none
    | some node => (contents h fuel node.below).map (node.value :: ·)

/-- Pointer `p` heads the null-terminated chain whose nodes sit, top first, at
the addresses `cells`. -/
def isChain (h : Heap) : Option Nat → List Nat → Bool
  | p, [] => p == none
  | p, a :: cells =>
    p == some a &&
      match h a with
      | none => false
      | some node => isChain h node.below cells

/-- The value stored at an address (`'\0'` when nothing is stored). -/
def valueAt (h : Heap) (a : Nat) : Char :=
  match h a with
  | some node => node.value
  | none => Char.ofNat 0

/-- The values stored at a list of addresses. -/
def valuesAt (h : Heap) (cells : List Nat) : List Char := cells.map (valueAt h)

/-- Stacks `i` and `j`, when they are two stacks, share no address. -/
def Apart (cells : List (List Nat)) (i j : Nat) : Prop :=
  i ≠ j → ∀ a ∈ cells.getD i [], a ∉ cells.getD j []

instance (cells : List (List Nat)) (i j : Nat) : Decidable (Apart cells i j) := by
  unfold Apart
  infer_instance

/-- A forest of pairwise-disjoint, null-terminated stacks: stack `i` is the
chain over the addresses `cells[i]`, and no address lies on two stacks. -/
def WellFormed (m : Forest) (cells : List (List Nat)) : Prop :=
  m.stackArray.length = cells.length ∧
  (∀ i, i < cells.length → isChain m.heap (m.stackArray.getD i none) (cells.getD i []) = true) ∧
  (∀ i, i < cells.length → ∀ j, j < cells.length → Apart cells i j)

instance (m : Forest) (cells : List (List Nat)) : Decidable (WellFormed m cells) := by
  unfold WellFormed
  infer_instance

/-- The contents, top first, of stack `i` of a forest laid out over `cells`. -/
def stackValues (m : Forest) (cells : List (List Nat)) (i : Nat) : List Char :=
  valuesAt m.heap (cells.getD i [])

/-- The heap of the canonical example after loading: `N`,`Z` at 0,1; `D`,`C`,`M`
at 2,3,4; `P` at 5. -/
def exampleHeap : Heap := fun a =>
  match a with
  | 0 => some (Stack.mk 'N' (some 1))
  | 1 => some (Stack.mk 'Z' (none))
  | 2 => some (Stack.mk 'D' (some 3))
  | 3 => some (Stack.mk 'C' (some 4))
  | 4 => some (Stack.mk 'M' (none))
  | 5 => some (Stack.mk 'P' (none))
  | _ => none

/-- The forest of the canonical example: stacks `[N,Z]`, `[D,C,M]`, `[P]`. -/
def exampleForest : Forest := ⟨exampleHeap, [some 0, some 2, some 5]⟩

/-- The addresses of the canonical forest. -/
def exampleCells : List (List Nat) := [[0, 1], [2, 3, 4], [5]]

/-- The contents of every stack of a forest, top first. -/
def snapshot (fuel : Nat) (m : Forest) : List (Option (List Char)) :=
  m.stackArray.map (contents m.heap fuel)

/-- The layout after the top `k` addresses of stack `f` were put, in their
order, on top of stack `t`. -/
def batchedCells (cells : List (List Nat)) (f t k : Nat) : List (List Nat) :=
  (cells.set f ((cells.getD f []).drop k)).set t ((cells.getD f []).take k ++ cells.getD t [])

/-- The value of a run of decimal digits read from left to right. -/
def decimal (ds : List Char) : Nat :=
  ds.foldl (fun acc ch => 10 * acc + (ch.toNat - 48)) 0

/-- The directive line `move <dc> from <df> to <dt>`. -/
def directive (dc df dt : List Char) : List Char :=
  "move ".toList ++ dc ++ " from ".toList ++ df ++ " to ".toList ++ dt

/-- A run of one or more decimal digits. -/
def isNumber (ds : List Char) : Bool :=
  !ds.isEmpty && ds.all (fun d => decide (48 ≤ d.toNat ∧ d.toNat ≤ 57))

/-- Follows the spec's words (section 4.2, a forward tokenizing parse): the line
is cut at its blanks into the words `move`, count, `from`, from, `to`, to; the
three numbers are read left to right and the two stack numbers are made
0-based. Any other line gives `none`. -/
def forwardParse (line : List Char) : Option Instruction :=
  match line.splitOn ' ' with
  | [w1, c, w2, f, w3, t] =>
    if w1 = "move".toList ∧ w2 = "from".toList ∧ w3 = "to".toList ∧
        isNumber c = true ∧ isNumber f = true ∧ isNumber t = true then
      some ⟨decimal c, (decimal f : Int) - 1, (decimal t : Int) - 1⟩
    else none
  | _ => none

/-- A well-formed input of one column and two rows. -/
def oneColumnInput : List Char := "[A]\n[B]\n 1 \n\nmove 1 from 1 to 1".toList

/-- A well-formed input of two columns and three rows, every place taken. -/
def threeRowInput : List Char :=
  "[A] [B]\n[C] [D]\n[E] [F]\n 1   2 \n\nmove 1 from 1 to 2".toList

/-- A well-formed input of two columns and six rows: column 1 reads `F`, `H`,
`J` and column 2 reads `B`, `D`, `E`, `G`, `I`, `K`, top first. -/
def sixRowInput : List Char :=
  ("    [B]\n    [D]\n    [E]\n[F] [G]\n[H] [I]\n[J] [K]\n 1   2 \n\n" ++
    "move 1 from 1 to 2").toList

/-- The value of the top crate of stack `i` (`'\0'` for an empty stack). -/
def topValue (m : Forest) (i : Nat) : Char :=
  match m.stackArray.getD i none with
  | some a => valueAt m.heap a
  | none => Char.ofNat 0

/-- A character that ends a number for `readInstruction`: neither a decimal
digit nor a line break. -/
def isSeparator (s : Char) : Bool :=
  decide (s ≠ '\n') && !decide (48 ≤ s.toNat ∧ s.toNat ≤ 57)

/-- A line of the shape `readInstruction` takes for a directive: four
characters, a separator, a number, five characters, a separator, a number,
three characters, a separator, a number. -/
def shapedLine (w1 : List Char) (s1 : Char) (dc w2 : List Char) (s2 : Char) (df w3 : List Char)
    (s3 : Char) (dt : List Char) : List Char :=
  w1 ++ s1 :: dc ++ w2 ++ s2 :: df ++ w3 ++ s3 :: dt

/-- A well-formed input of two columns and three rows followed by two
directive lines. -/
def threeRowTwoMoves : List Char :=
  "[A] [B]\n[C] [D]\n[E] [F]\n 1   2 \n\nmove 1 from 1 to 2\nmove 2 from 2 to 1".toList

/-- The six-row diagram followed by two directive lines. -/
def sixRowTwoMoves : List Char :=
  ("    [B]\n    [D]\n    [E]\n[F] [G]\n[H] [I]\n[J] [K]\n 1   2 \n\n" ++
    "move 1 from 1 to 2\nmove 2 from 2 to 1").toList

/-- A forest whose middle stack is empty: stacks `[N,Z]`, `[]`, `[P]`. -/
def gapForest : Forest := ⟨exampleHeap, [some 0, none, some 5]⟩

/-- The addresses of the forest with an empty middle stack. -/
def gapCells : List (List Nat) := [[0, 1], [], [5]]

/-- All that `loadStacks` can tell of the characters of a text: which of them
are `[`, which are line breaks, and which character follows each `[`. Two
texts agree in these respects when this is `true`. -/
def sameSkeleton : List Char → List Char → Bool
  | [], [] => true
  | x :: xs, y :: ys =>
    (decide (x = '[') == decide (y = '[')) && (decide (x = '\n') == decide (y = '\n')) &&
      (if x = '[' then xs.head? == ys.head? else true) && sameSkeleton xs ys
  | _, _ => false

/-- A one-column diagram with `}` where the closing bracket is expected. -/
def strayBraceInput : List Char := "[A\x7d\n[B]\n 1 \n\nmove 1 from 1 to 1".toList

/-- The `while (stack != NULL)` walk of `freeStacks` down one stack: each node
is read for its `below` link and then released. A released node is no longer
in the heap, so reading it again is a fault. A walk still going after `fuel`
nodes is reported as out of budget. -/
def freeChain : Nat → Heap → Option Nat → Except Fault Heap
  | _, h, none => .ok h
  | 0, _, some _ => .error .fuel
  | fuel + 1, h, some a => do
    let (_, node) ← deref h (some a)
    freeChain fuel (Function.update h a none) node.below

/-- The `for` loop of `freeStacks` from stack `i` on, `remaining` stacks to
go. -/
def freeFrom (stackArray : List (Option Nat)) (fuel : Nat) :
    Nat → Nat → Heap → Except Fault Heap
  | 0, _, h => .ok h
  | remaining + 1, i, h => do
    let stack ← readStack stackArray i
    let h ← freeChain fuel h stack
    freeFrom stackArray fuel remaining (i + 1) h

/-- `freeStacks(stacks, stackCount)`: the heap once every stack was walked and
released. -/
def freeStacks (m : Forest) (stackCount : Nat) (fuel : Nat) : Except Fault Heap :=
  freeFrom m.stackArray fuel stackCount 0 m.heap

/-- A well-formed input of one column, two rows and no crate. -/
def emptyColumnInput : List Char := "   \n   \n 1 \n\nmove 1 from 1 to 1".toList

/-- The canonical forest after the sequential move of one crate from stack 1
to stack 0, as `parseSequentialInstruction` leaves it. -/
def afterSequentialMove : Forest :=
  match parseSequentialInstruction ⟨1, 1, 0⟩ exampleForest with
  | .ok m => m
  | .error _ => exampleForest

/-- One turn of the `for` loop of `loadStacks`: the locals after the body. -/
def rowStep (input : List Char) (s : LoadState) : Except Fault LoadState := do
  let c ← charAt input s.index
  if c = '[' then do
    let value ← charAt input (s.index + 1)
    match s.builders[s.column]? with
    | none => .error .arrayBounds
    | some none =>
      if s.column < s.stackArray.length then
        .ok
          { index := s.index + 4, column := s.column + 1,
            heap := Function.update s.heap s.next (some ⟨value, none⟩),
            next := s.next + 1,
            stackArray := s.stackArray.set s.column (some s.next),
            builders := s.builders.set s.column (some s.next) }
      else .error .arrayBounds
    | some (some b) => do
      let (_, node) ← deref s.heap (some b)
      .ok
        { index := s.index + 4, column := s.column + 1,
          heap := Function.update
            (Function.update s.heap b (some { node with below := some s.next }))
            s.next (some ⟨value, none⟩),
          next := s.next + 1,
          stackArray := s.stackArray,
          builders := s.builders.set s.column (some s.next) }
  else
    .ok { s with index := s.index + 4, column := s.column + 1 }

/-- `loadStacks` returns on the text, and the offset it returns is within the
text. -/
def loadsWithin (input : List Char) (junk : Nat → Option Nat) : Bool :=
  match loadStacks input junk with
  | .ok loaded => decide (loaded.index ≤ input.length)
  | .error _ => false

end Day5

/-!
# Day 4 range overlap (`src/day4/day4.cpp`)

The test `calculatePartialOverlap` on the four bounds of two ranges. It only
compares its arguments, so the `int` bounds are integers.
-/

namespace Day4

/-- `calculatePartialOverlap(firstLower, firstUpper, secondLower, secondUpper)`. -/
def calculatePartialOverlap (firstLower firstUpper secondLower secondUpper : Int) : Bool :=
  (decide (firstLower ≥ secondLower) && decide (firstLower ≤ secondUpper)) ||
    (decide (secondLower ≥ firstLower) && decide (secondLower ≤ firstUpper))

end Day4

/-!
# Day 1 calorie counting (`src/day1/day1.cpp`)

The backward scan of `partOne` and `partTwo` and the update `checkMax` of the
array of the three largest totals. Every `int` operation is wrapped with
`Day5.wrapInt`; the operator `^` acts on the 32-bit patterns of its operands.
-/

namespace Day1

open Day5 (wrapInt toSizeT decimal isNumber)

/-- `enum ParserState { NEXT, END_OF_LINE, READING, IDLE }`. -/
inductive ParserState where
  | NEXT
  | END_OF_LINE
  | READING
  | IDLE
deriving DecidableEq, Repr

/-- `#define TOP_SIZE 3`. -/
def TOP_SIZE : Nat := 3

/-- The operator `^` on two `int`s: the exclusive or of their 32-bit
two's-complement patterns. -/
def xorInt (a b : Int) : Int :=
  wrapInt ((((a % 4294967296).toNat ^^^ (b % 4294967296).toNat : Nat)) : Int)

/-- The first loop of `checkMax`, entered with `i = n - 1`: the value of `i`
after the loop and the `i++` that follows it. -/
def checkMaxFind (value : Int) (maximums : List Int) : Nat → Nat
  | 0 => 0
  | i + 1 => if maximums.getD i 0 > value then i + 1 else checkMaxFind value maximums i

/-- The second loop of `checkMax`, `while (i <= max)`, with its three
exclusive-or assignments. -/
def checkMaxShift : Nat → Nat → Int → List Int → List Int
  | 0, _, _, maximums => maximums
  | fuel + 1, i, value, maximums =>
    if i ≤ TOP_SIZE - 1 then
      let value1 := xorInt value (maximums.getD i 0)
      let cell := xorInt (maximums.getD i 0) value1
      let value2 := xorInt value1 cell
      checkMaxShift fuel (i + 1) value2 (maximums.set i cell)
    else maximums

/-- `checkMax(value, maximums)`: the array afterwards. The array has
`TOP_SIZE` cells. -/
def checkMax (value : Int) (maximums : List Int) : List Int :=
  checkMaxShift TOP_SIZE (checkMaxFind value maximums TOP_SIZE) value maximums

/-- An `int` value. -/
def InInt (x : Int) : Prop := -2147483648 ≤ x ∧ x < 2147483648

instance (x : Int) : Decidable (InInt x) := by
  unfold InInt
  infer_instance

/-- The loop of `partOne`. The first argument is `i + 1`, so the turn reads
`input[i]` and the loop ends when `i` would go below 0; the result is the pair
of `localMax` and `current` after the loop. The index never leaves the text:
it starts below `input.length`. -/
def partOneLoop (input : List Char) : Nat → Int → ParserState → Int → Int → Int × Int
  | 0, _, _, localMax, current => (localMax, current)
  | i + 1, radix, state, localMax, current =>
    let value := input.getD i (Char.ofNat 0)
    let state :=
      if value = '\n' then (if state = .END_OF_LINE then ParserState.NEXT else .END_OF_LINE)
      else .READING
    match state with
    | .NEXT => partOneLoop input i radix state (max localMax current) 0
    | .READING =>
      partOneLoop input i (wrapInt (radix * 10)) state localMax
        (wrapInt (current + wrapInt (((value.toNat : Int) - 48) * radix)))
    | .END_OF_LINE => partOneLoop input i 1 state localMax current
    | .IDLE => partOneLoop input i radix state localMax current

/-- `partOne(input)` of day 1. `inputLength` is the `size_t` value
`strlen(input) - 1` and `i` starts as its conversion to `int`. -/
def partOne (input : List Char) : Int :=
  let inputLength : Nat := toSizeT ((input.length : Int) - 1)
  let i : Int := wrapInt inputLength
  let r := partOneLoop input (i + 1).toNat 1 .IDLE 0 0
  max r.1 r.2

/-- The loop of `partTwo`, read as `partOneLoop`; `localMax` is the array of
`TOP_SIZE` cells. -/
def partTwoLoop (input : List Char) :
    Nat → Int → ParserState → List Int → Int → List Int × Int
  | 0, _, _, localMax, current => (localMax, current)
  | i + 1, radix, state, localMax, current =>
    let value := input.getD i (Char.ofNat 0)
    let state :=
      if value = '\n' then (if state = .END_OF_LINE then ParserState.NEXT else .END_OF_LINE)
      else .READING
    match state with
    | .NEXT => partTwoLoop input i radix state (checkMax current localMax) 0
    | .READING =>
      partTwoLoop input i (wrapInt (radix * 10)) state localMax
        (wrapInt (current + wrapInt (((value.toNat : Int) - 48) * radix)))
    | .END_OF_LINE => partTwoLoop input i 1 state localMax current
    | .IDLE => partTwoLoop input i radix state localMax current

/-- `partTwo(input)` of day 1. The array starts as zeros; the last loop adds
its cells into `result`. -/
def partTwo (input : List Char) : Int :=
  let inputLength : Nat := toSizeT ((input.length : Int) - 1)
  let i : Int := wrapInt inputLength
  let r := partTwoLoop input (i + 1).toNat 1 .IDLE (List.replicate TOP_SIZE 0) 0
  let localMax := checkMax r.2 r.1
  (List.range TOP_SIZE).foldl (fun result i => wrapInt (result + localMax.getD i 0)) 0

/-- The variables of the scanning loop shared by the two parts. -/
structure Scan (α : Type) where
  radix : Int
  state : ParserState
  localMax : α
  current : Int

/-- One turn of the scanning loop on the character `value`; `next` is the
statement under `case NEXT` that takes `current` into `localMax`. -/
def step {α : Type} (next : Int → α → α) (value : Char) (s : Scan α) : Scan α :=
  let state :=
    if value = '\n' then (if s.state = .END_OF_LINE then ParserState.NEXT else .END_OF_LINE)
    else .READING
  match state with
  | .NEXT => ⟨s.radix, state, next s.current s.localMax, 0⟩
  | .READING =>
    ⟨wrapInt (s.radix * 10), state, s.localMax,
      wrapInt (s.current + wrapInt (((value.toNat : Int) - 48) * s.radix))⟩
  | .END_OF_LINE => ⟨1, state, s.localMax, s.current⟩
  | .IDLE => ⟨s.radix, state, s.localMax, s.current⟩

/-- The sum of the numbers of a group. -/
def groupSum (g : List (List Char)) : Nat := (g.map decimal).sum

/-- The text of a list of groups of numbers: one number per line, one blank
line between two groups, no line break at the end. -/
def calorieText (groups : List (List (List Char))) : List Char :=
  List.intercalate ['\n', '\n'] (groups.map (List.intercalate ['\n']))

/-- The groups are well formed: every group has a number and every number is
a run of one or more decimal digits. -/
def WellFormedGroups (groups : List (List (List Char))) : Prop :=
  ∀ g ∈ groups, g ≠ [] ∧ ∀ n ∈ g, isNumber n = true

instance (groups : List (List (List Char))) : Decidable (WellFormedGroups groups) := by
  unfold WellFormedGroups
  infer_instance

/-- The three largest of a list of totals, from largest to smallest, a
missing one counting as 0. -/
def topThree (totals : List Int) : List Int :=
  ((totals ++ [0, 0, 0]).insertionSort (fun x y : Int => x ≥ y)).take 3

/-- Three groups of numbers: `10 20`, `45` and `7 8 9`. -/
def exampleGroups : List (List (List Char)) :=
  [["10".toList, "20".toList], ["45".toList], ["7".toList, "8".toList, "9".toList]]

end Day1

/-!
# Day 3 rucksacks (`src/day3/day3.cpp`)

The bit sets of `calculateBits`, the sum `sumBitPositions`, the two values
`calculateRucksuckDuplicates` and `calculateGroupBadge`, and the driver
`partTwo`. The text is read through `Day5.charAt` and `Day5.strchr`, so a read
outside the text is a `Fault`.
-/

namespace Day3

open Day5 (Fault charAt strchr wrapInt)

/-- The two 32-bit sets of flags of `CharacterBits`. -/
structure CharacterBits where
  upper : Nat
  lower : Nat
deriving DecidableEq, Repr

/-- The shift amount `(value > 64 && value < 91) * (value - 64)`: the truth
value of the range test times the distance from the character before `A`. -/
def upperShift (value : Char) : Nat :=
  ((if 64 < value.toNat ∧ value.toNat < 91 then 1 else 0) * ((value.toNat : Int) - 64)).toNat

/-- The shift amount `(value > 96 && value < 123) * (value - 96)`. -/
def lowerShift (value : Char) : Nat :=
  ((if 96 < value.toNat ∧ value.toNat < 123 then 1 else 0) * ((value.toNat : Int) - 96)).toNat

/-- The loop of `calculateBits`: the first argument is the number of turns
left, `end - start`. Each turn reads `*(start++)` and sets one bit in each of
the two 32-bit sets. -/
def calculateBitsLoop (input : List Char) : Nat → Nat → CharacterBits → Except Fault CharacterBits
  | 0, _, result => .ok result
  | n + 1, start, result => do
    let value ← charAt input start
    calculateBitsLoop input n (start + 1)
      ⟨(result.upper ||| (1 <<< upperShift value)) % 4294967296,
        (result.lower ||| (1 <<< lowerShift value)) % 4294967296⟩

/-- `calculateBits(input + start, input + end_)`. -/
def calculateBits (input : List Char) (start end_ : Nat) : Except Fault CharacterBits :=
  calculateBitsLoop input (end_ - start) start ⟨0, 0⟩

/-- The loop of `sumBitPositions`. A 32-bit value is zero after at most 32
shifts, so a budget of 32 turns is never the reason to stop. -/
def sumBitPositionsLoop : Nat → Nat → Int → Int → Int
  | 0, _, _, result => result
  | fuel + 1, duplicates, base, result =>
    if duplicates > 0 then
      sumBitPositionsLoop fuel (duplicates >>> 1) (base + 1)
        (result + ((duplicates &&& 1 : Nat) : Int) * base)
    else result

/-- `sumBitPositions(duplicates, base)`; `duplicates` is a `uint32_t`. -/
def sumBitPositions (duplicates : Nat) (base : Int) : Int :=
  sumBitPositionsLoop 32 (duplicates % 4294967296) base 0

/-- `calculateRucksuckDuplicates(input + start, input + end_)`, for
`start <= end_`. -/
def calculateRucksuckDuplicates (input : List Char) (start end_ : Nat) : Except Fault Int := do
  let mid := ((end_ - start) >>> 1) + start
  let first ← calculateBits input start mid
  let second ← calculateBits input mid end_
  pure (sumBitPositions ((first.lower &&& second.lower) >>> 1) 1 +
    sumBitPositions ((first.upper &&& second.upper) >>> 1) 27)

/-- `strchr(input + start, 0)`: the offset of the terminator. -/
def strchrNul (input : List Char) (start : Nat) : Except Fault Nat :=
  if input.length < start then .error .textBounds else .ok input.length

/-- `calculateGroupBadge(&start)`: the value returned and the offset left in
`*start`. Adding 1 to a `NULL` result of `strchr` and reading there is a fault. -/
def calculateGroupBadge (input : List Char) (start : Nat) : Except Fault (Int × Nat) := do
  let startOne := start
  match ← strchr input startOne '\n' with
  | none => .error .nullDeref
  | some endOne =>
    let startTwo := endOne + 1
    match ← strchr input startTwo '\n' with
    | none => .error .nullDeref
    | some endTwo =>
      let startThree := endTwo + 1
      let endThree ←
        match ← strchr input startThree '\n' with
        | some e => pure e
        | none => strchrNul input startThree
      let start := endThree + 1
      let first ← calculateBits input startOne endOne
      let second ← calculateBits input startTwo endTwo
      let third ← calculateBits input startThree endThree
      pure (sumBitPositions ((first.lower &&& second.lower &&& third.lower) >>> 1) 1 +
        sumBitPositions ((first.upper &&& second.upper &&& third.upper) >>> 1) 27, start)

/-- The loop of `partTwo`. Every turn moves `start` forward, so a budget above
the length of the text is never the reason to stop. -/
def partTwoLoop (input : List Char) : Nat → Nat → Int → Except Fault Int
  | 0, _, _ => .error .fuel
  | fuel + 1, start, result => do
    match ← strchr input start '\n' with
    | none => pure result
    | some _ =>
      let r ← calculateGroupBadge input start
      partTwoLoop input fuel r.2 (wrapInt (result + r.1))

/-- `partTwo(input)` of day 3. -/
def partTwo (input : List Char) : Except Fault Int :=
  partTwoLoop input (input.length + 2) 0 0

/-- The value of a letter: 1 to 26 for `a` to `z`, 27 to 52 for `A` to `Z`. -/
def priority (c : Char) : Int :=
  if 97 ≤ c.toNat ∧ c.toNat ≤ 122 then (c.toNat : Int) - 96
  else if 65 ≤ c.toNat ∧ c.toNat ≤ 90 then (c.toNat : Int) - 38
  else 0

/-- The small letters. -/
def lowerLetters : List Char := "abcdefghijklmnopqrstuvwxyz".toList

/-- The capital letters. -/
def upperLetters : List Char := "ABCDEFGHIJKLMNOPQRSTUVWXYZ".toList

/-- The letters, each once. -/
def letters : List Char := lowerLetters ++ upperLetters

/-- The first `floor(n/2)` characters of a string of length `n`. -/
def firstHalf (s : List Char) : List Char := s.take (s.length / 2)

/-- The characters after the first `floor(n/2)`. -/
def secondHalf (s : List Char) : List Char := s.drop (s.length / 2)

/-- Follows the claim's words: the sum of the values of the letters that occur
in both halves of the string, each letter counted once. -/
def commonValue (s : List Char) : Int :=
  ((letters.filter (fun c => decide (c ∈ firstHalf s) && decide (c ∈ secondHalf s))).map
    priority).sum

/-- The bit set built from a run of characters by one of the two shifts. -/
def bitsOf (shift : Char → Nat) (s : List Char) (b : Nat) : Nat :=
  s.foldl (fun b c => (b ||| (1 <<< shift c)) % 4294967296) b

/-- A rucksack whose halves share the letter `p` only. -/
def exampleRucksack : List Char := "vJrwpWtwJgWrhcsFMMfFFhFp".toList

/-- Three lines of letters with no line break after the last. -/
def threeLines : List Char := "abc\nabd\naef".toList

/-- Six lines of letters with no line break after the last. -/
def sixLines : List Char := "abc\nabd\naef\nxyZ\nZab\ncdZ".toList

end Day3

namespace Day5

/-! ## Chains and the array of stacks -/

theorem isChain_nil (h : Heap) (p : Option Nat) : isChain h p [] = true ↔ p = none := by
  simp [isChain]

theorem isChain_cons (h : Heap) (p : Option Nat) (a : Nat) (cells : List Nat) :
    isChain h p (a :: cells) = true ↔
      p = some a ∧ ∃ node, h a = some node ∧ isChain h node.below cells = true := by
  cases hh : h a <;> simp [isChain, hh]

theorem isChain_update_of_not_mem (h : Heap) (b : Nat) (v : Option Stack) :
    ∀ (cells : List Nat) (p : Option Nat), b ∉ cells →
      isChain (Function.update h b v) p cells = isChain h p cells := by
  intro cells
  induction cells with
  | nil => intro p _; simp [isChain]
  | cons a cells ih =>
    intro p hb
    have hab : a ≠ b := fun e => hb (by simp [e])
    have hb2 : b ∉ cells := fun e => hb (by simp [e])
    simp only [isChain, Function.update_noteq hab]
    cases h a with
    | none => rfl
    | some node => simp only [ih node.below hb2]

theorem batchedLoop_walk (h : Heap) (top : Option Nat) :
    ∀ (n a : Nat) (rest : List Nat), isChain h (some a) (a :: rest) = true → n ≤ rest.length →
      batchedLoop n h top (some a) = .ok ((a :: rest)[n]?) := by
  intro n
  induction n with
  | zero => intro a rest _ _; simp [batchedLoop]
  | succ n ih =>
    intro a rest hc hn
    cases rest with
    | nil => simp at hn
    | cons a2 rest2 =>
      obtain ⟨-, node, hnode, hrest⟩ := (isChain_cons h _ a _).1 hc
      have hb : node.below = some a2 := ((isChain_cons h _ a2 _).1 hrest).1
      have hn2 : n ≤ rest2.length := by simpa using hn
      have := ih a2 rest2 (hb ▸ hrest) hn2
      simp [batchedLoop, deref, hnode, hb, this, bind, Except.bind]

theorem isChain_split (h : Heap) (b : Nat) (post : List Nat) :
    ∀ (pre : List Nat) (p : Option Nat), isChain h p (pre ++ b :: post) = true →
      ∃ node, h b = some node ∧ isChain h node.below post = true := by
  intro pre
  induction pre with
  | nil =>
    intro p hc
    obtain ⟨-, node, hnode, hrest⟩ := (isChain_cons h p b post).1 hc
    exact ⟨node, hnode, hrest⟩
  | cons a pre ih =>
    intro p hc
    obtain ⟨-, node, -, hrest⟩ := (isChain_cons h p a _).1 hc
    exact ih node.below hrest

theorem isChain_unique (h : Heap) :
    ∀ (xs ys : List Nat) (p : Option Nat), isChain h p xs = true → isChain h p ys = true →
      xs = ys := by
  intro xs
  induction xs with
  | nil =>
    intro ys p hx hy
    have hp := (isChain_nil h p).1 hx
    cases ys with
    | nil => rfl
    | cons b ys =>
      have := ((isChain_cons h p b ys).1 hy).1
      simp [hp] at this
  | cons a xs ih =>
    intro ys p hx hy
    obtain ⟨hp, node, hnode, hrest⟩ := (isChain_cons h p a xs).1 hx
    cases ys with
    | nil =>
      have := (isChain_nil h p).1 hy
      simp [hp] at this
    | cons b ys =>
      obtain ⟨hp2, node2, hnode2, hrest2⟩ := (isChain_cons h p b ys).1 hy
      have hab : a = b := by
        rw [hp] at hp2
        exact Option.some.inj hp2
      subst hab
      rw [hnode] at hnode2
      have hn : node = node2 := Option.some.inj hnode2
      subst hn
      rw [ih ys node.below hrest hrest2]

theorem isChain_nodup (h : Heap) :
    ∀ (cells : List Nat) (p : Option Nat), isChain h p cells = true → cells.Nodup := by
  intro cells
  induction cells with
  | nil => intro _ _; exact List.nodup_nil
  | cons a cells ih =>
    intro p hc
    obtain ⟨-, node, hnode, hrest⟩ := (isChain_cons h p a cells).1 hc
    refine List.nodup_cons.2 ⟨?_, ih node.below hrest⟩
    intro hmem
    obtain ⟨xs, ys, hxy⟩ := List.append_of_mem hmem
    rw [hxy] at hrest
    obtain ⟨node2, hnode2, hys⟩ := isChain_split h a ys xs node.below hrest
    rw [hnode] at hnode2
    have hn : node = node2 := Option.some.inj hnode2
    subst hn
    have := isChain_unique h _ _ _ hrest hys
    have hl := congrArg List.length this
    simp at hl
    omega

theorem isChain_relink (h : Heap) (b : Nat) (node : Stack) (q : Option Nat) (zs post : List Nat)
    (hz : isChain h q zs = true) (hbz : b ∉ zs) :
    ∀ (pre : List Nat) (p : Option Nat), b ∉ pre → isChain h p (pre ++ b :: post) = true →
      isChain (Function.update h b (some { node with below := q })) p (pre ++ b :: zs) = true := by
  intro pre
  induction pre with
  | nil =>
    intro p _ hc
    have hp := ((isChain_cons h p b post).1 hc).1
    refine (isChain_cons _ p b zs).2 ⟨hp, _, Function.update_same _ _ _, ?_⟩
    rw [isChain_update_of_not_mem h b _ zs q hbz]
    exact hz
  | cons a pre ih =>
    intro p hb hc
    have hab : a ≠ b := fun e => hb (by simp [e])
    have hb2 : b ∉ pre := fun e => hb (by simp [e])
    obtain ⟨hp, na, hna, hrest⟩ := (isChain_cons h p a _).1 hc
    refine (isChain_cons _ p a _).2 ⟨hp, na, ?_, ih na.below hb2 hrest⟩
    rw [Function.update_noteq hab]
    exact hna

theorem getD_set_eq {α : Type} (l : List α) (i j : Nat) (x d : α) :
    (l.set i x).getD j d = if i = j ∧ i < l.length then x else l.getD j d := by
  simp only [List.getD_eq_getElem?_getD, List.getElem?_set]
  by_cases hij : i = j
  · subst hij
    by_cases hi : i < l.length
    · simp [hi]
    · simp [hi, List.getElem?_eq_none (Nat.le_of_not_lt hi)]
  · simp [hij]

theorem readStack_ok (arr : List (Option Nat)) (i : Nat) (hi : i < arr.length) :
    readStack arr (i : Int) = .ok (arr.getD i none) := by
  simp [readStack, List.getD_eq_getElem?_getD, List.getElem?_eq_getElem hi]

theorem writeStack_ok (arr : List (Option Nat)) (i : Nat) (p : Option Nat) (hi : i < arr.length) :
    writeStack arr (i : Int) p = .ok (arr.set i p) := by
  simp [writeStack, hi]

theorem valueAt_update_below (h : Heap) (b : Nat) (node : Stack) (q : Option Nat)
    (hb : h b = some node) (a : Nat) :
    valueAt (Function.update h b (some { node with below := q })) a = valueAt h a := by
  by_cases hab : a = b
  · subst hab
    simp [valueAt, hb]
  · simp [valueAt, Function.update_noteq hab]

theorem batchedCells_getD (cells : List (List Nat)) (f t k i : Nat)
    (hf : f < cells.length) (ht : t < cells.length) :
    (batchedCells cells f t k).getD i [] =
      if i = t then (cells.getD f []).take k ++ cells.getD t []
      else if i = f then (cells.getD f []).drop k else cells.getD i [] := by
  unfold batchedCells
  rw [getD_set_eq, getD_set_eq]
  by_cases h1 : i = t
  · subst h1; simp [ht]
  · have h1b : ¬ t = i := fun e => h1 e.symm
    by_cases h2 : i = f
    · subst h2; simp [h1, h1b, hf]
    · have h2b : ¬ f = i := fun e => h2 e.symm
      simp [h1, h1b, h2, h2b]

/-- C2. In a forest of pairwise-disjoint, null-terminated stacks, for two
stacks `f ≠ t` and a count `1 ≤ k ≤ depth f` (within `int`),
`parseBatchedInstruction` returns; stack `t` then holds the top `k` crates of
`f` in their order followed by what `t` held, stack `f` holds what it held
without its top `k` crates, every other stack keeps its head and its contents,
and the result is again such a forest, over the same nodes. -/
theorem parseBatchedInstruction_moves_block (m : Forest) (cells : List (List Nat)) (f t k : Nat)
    (hwf : WellFormed m cells) (hf : f < cells.length) (ht : t < cells.length) (hft : f ≠ t)
    (hk1 : 1 ≤ k) (hk : k ≤ (cells.getD f []).length) (hint : k < 2147483648) :
    ∃ m2, parseBatchedInstruction ⟨k, f, t⟩ m = .ok m2 ∧
      WellFormed m2 (batchedCells cells f t k) ∧
      stackValues m2 (batchedCells cells f t k) t
        = (stackValues m cells f).take k ++ stackValues m cells t ∧
      stackValues m2 (batchedCells cells f t k) f = (stackValues m cells f).drop k ∧
      ∀ i, i ≠ f → i ≠ t →
        m2.stackArray.getD i none = m.stackArray.getD i none ∧
        stackValues m2 (batchedCells cells f t k) i = stackValues m cells i := by
  obtain ⟨hlen, hchain, hapart⟩ := hwf
  have hfa : f < m.stackArray.length := hlen ▸ hf
  have hta : t < m.stackArray.length := hlen ▸ ht
  have hcf := hchain f hf
  have hct := hchain t ht
  have hnd := isChain_nodup _ _ _ hcf
  -- the block boundary
  obtain ⟨n, rfl⟩ : ∃ n, k = n + 1 := ⟨k - 1, by omega⟩
  have hnlt : n < (cells.getD f []).length := by omega
  have hsplit : cells.getD f [] =
      (cells.getD f []).take n ++ (cells.getD f [])[n] :: (cells.getD f []).drop (n + 1) := by
    rw [← List.drop_eq_getElem_cons hnlt, List.take_append_drop]
  have htake : (cells.getD f []).take (n + 1) = (cells.getD f []).take n ++ [(cells.getD f [])[n]] := by
    rw [List.take_succ, List.getElem?_eq_getElem hnlt]; rfl
  generalize hb : (cells.getD f [])[n] = b at hsplit htake
  generalize hcfe : cells.getD f [] = cf at *
  generalize hcte : cells.getD t [] = ct at *
  obtain ⟨node, hnode, hpost⟩ := isChain_split m.heap b (cf.drop (n + 1)) (cf.take n) _ (hsplit ▸ hcf)
  have hbcf : b ∈ cf := hb ▸ List.getElem_mem hnlt
  have hnd2 : (cf.take n ++ b :: cf.drop (n + 1)).Nodup := hsplit ▸ hnd
  have hbpre : b ∉ cf.take n := fun e =>
    (List.nodup_append.1 hnd2).2.2 e (List.mem_cons_self _ _)
  have hbpost : b ∉ cf.drop (n + 1) :=
    (List.nodup_cons.1 (List.nodup_append.1 hnd2).2.1).1
  have hbother : ∀ i, i < cells.length → i ≠ f → b ∉ cells.getD i [] := fun i hi hif =>
    hapart f hf i hi (Ne.symm hif) b (hcfe ▸ hbcf)
  -- the loop stops at the k-th node
  have hloop : batchedLoop (n + 1) m.heap (m.stackArray.getD f none) none = .ok (some b) := by
    cases hcf2 : cf with
    | nil => simp [hcf2] at hnlt
    | cons a rest =>
      rw [hcf2] at hcf
      have hp : m.stackArray.getD f none = some a := ((isChain_cons _ _ _ _).1 hcf).1
      rw [hp] at hcf ⊢
      have hn : n ≤ rest.length := by
        have h3 := hnlt
        simp only [hcf2, List.length_cons] at h3
        omega
      have hw := batchedLoop_walk m.heap (some a) n a rest hcf hn
      simp only [batchedLoop]
      rw [hw, ← hcf2, List.getElem?_eq_getElem hnlt, hb]
  have hsz : toSizeT ((n + 1 : Nat) : Int) = n + 1 := by
    unfold toSizeT
    omega
  have hv : valueAt (Function.update m.heap b (some { node with below := m.stackArray.getD t none }))
      = valueAt m.heap := funext (fun a => valueAt_update_below _ _ _ _ hnode a)
  refine ⟨⟨Function.update m.heap b (some { node with below := m.stackArray.getD t none }),
    (m.stackArray.set f node.below).set t (m.stackArray.getD f none)⟩, ?_, ?_, ?_, ?_, ?_⟩
  · have hr2 : readStack (m.stackArray.set f node.below) (t : Int) = .ok (m.stackArray.getD t none) := by
      rw [readStack_ok _ t (by simpa using hta), getD_set_eq]
      simp [hft]
    simp only [parseBatchedInstruction, readStack_ok _ f hfa, hsz, hloop, deref, hnode,
      writeStack_ok _ f _ hfa, hr2, writeStack_ok _ t _ (by simpa using hta : t < (m.stackArray.set f node.below).length),
      bind, Except.bind, pure, Except.pure]
  · refine ⟨by simp [batchedCells, hlen], ?_, ?_⟩
    · intro i hi
      have hi2 : i < cells.length := by simpa [batchedCells] using hi
      rw [batchedCells_getD cells f t (n + 1) i hf ht]
      show isChain _ (((m.stackArray.set f node.below).set t (m.stackArray.getD f none)).getD i none) _ = true
      rw [getD_set_eq, getD_set_eq]
      by_cases h1 : i = t
      · subst h1
        simp only [hcfe, hcte, htake, true_and, List.length_set, hta, if_true, List.append_assoc,
          List.singleton_append]
        exact isChain_relink m.heap b node _ ct _ hct (hcte ▸ hbother i ht (Ne.symm hft)) _ _ hbpre
          (hsplit ▸ hcf)
      · have h1b : ¬ t = i := fun e => h1 e.symm
        by_cases h2 : i = f
        · subst h2
          simp only [h1, h1b, hcfe, false_and, if_false, true_and, hfa, if_true]
          rw [isChain_update_of_not_mem _ _ _ _ _ hbpost]
          exact hpost
        · have h2b : ¬ f = i := fun e => h2 e.symm
          simp only [h1, h1b, h2, h2b, false_and, if_false]
          rw [isChain_update_of_not_mem _ _ _ _ _ (hbother i hi2 h2)]
          exact hchain i hi2
    · intro i hi j hj hij a ha
      have hi2 : i < cells.length := by simpa [batchedCells] using hi
      have hj2 : j < cells.length := by simpa [batchedCells] using hj
      rw [batchedCells_getD cells f t (n + 1) i hf ht] at ha
      rw [batchedCells_getD cells f t (n + 1) j hf ht]
      have hsub : ∀ x, x ∈ (cells.getD f []).take (n + 1) → x ∈ cells.getD f [] :=
        fun x hx => List.mem_of_mem_take hx
      have hsub2 : ∀ x, x ∈ (cells.getD f []).drop (n + 1) → x ∈ cells.getD f [] :=
        fun x hx => List.mem_of_mem_drop hx
      have hcross : ∀ x, x ∈ (cells.getD f []).take (n + 1) → x ∉ (cells.getD f []).drop (n + 1) := by
        intro x hx1 hx2
        have hnd3 : ((cells.getD f []).take (n + 1) ++ (cells.getD f []).drop (n + 1)).Nodup := by
          rw [List.take_append_drop, hcfe]; exact hnd
        exact (List.nodup_append.1 hnd3).2.2 hx1 hx2
      by_cases hit : i = t
      · subst hit
        have hjt : ¬ j = i := fun e => hij e.symm
        simp only [if_true] at ha
        simp only [hjt, if_false]
        rcases List.mem_append.1 ha with ha1 | ha2
        · by_cases hjf : j = f
          · subst hjf; simpa using hcross a ha1
          · simpa [hjf] using hapart f hf j hj2 (Ne.symm hjf) a (hsub a ha1)
        · by_cases hjf : j = f
          · subst hjf
            simp only [if_true]
            exact fun e => hapart i hi2 j hj2 hij a ha2 (hsub2 a e)
          · simpa [hjf] using hapart i hi2 j hj2 hij a ha2
      · simp only [hit, if_false] at ha
        by_cases hif : i = f
        · subst hif
          simp only [if_true] at ha
          by_cases hjt : j = t
          · subst hjt
            simp only [if_true, List.mem_append, not_or]
            exact ⟨fun e => hcross a e ha, hapart i hi2 j hj2 hij a (hsub2 a ha)⟩
          · have hji : ¬ j = i := fun e => hij e.symm
            simpa [hjt, hji] using hapart i hi2 j hj2 hij a (hsub2 a ha)
        · simp only [hif, if_false] at ha
          by_cases hjt : j = t
          · subst hjt
            simp only [if_true, List.mem_append, not_or]
            exact ⟨fun e => hapart i hi2 f hf hif a ha (hsub a e), hapart i hi2 j hj2 hij a ha⟩
          · by_cases hjf : j = f
            · subst hjf
              simp only [hjt, if_false, if_true]
              exact fun e => hapart i hi2 j hj2 hij a ha (hsub2 a e)
            · simpa [hjt, hjf] using hapart i hi2 j hj2 hij a ha
  · simp only [stackValues, valuesAt, batchedCells_getD cells f t (n + 1) t hf ht, if_true,
      List.map_append, List.map_take, hv]
  · have hft2 : ¬ f = t := hft
    simp only [stackValues, valuesAt, batchedCells_getD cells f t (n + 1) f hf ht, hft2, if_false,
      if_true, List.map_drop, hv]
  · intro i hif hit
    refine ⟨?_, ?_⟩
    · show ((m.stackArray.set f node.below).set t (m.stackArray.getD f none)).getD i none = _
      rw [getD_set_eq, getD_set_eq]
      simp [Ne.symm hif, Ne.symm hit]
    · simp only [stackValues, valuesAt, batchedCells_getD cells f t (n + 1) i hf ht, hif, hit,
        if_false]
      exact List.map_congr_left (fun a _ => valueAt_update_below _ _ _ _ hnode a)

/-- C2, at the canonical forest: two crates from stack 1 to stack 0. -/
theorem parseBatchedInstruction_moves_block_witness :
    WellFormed exampleForest exampleCells ∧
    ∃ m2, parseBatchedInstruction ⟨((2 : Nat) : Int), ((1 : Nat) : Int), ((0 : Nat) : Int)⟩
        exampleForest = .ok m2 ∧
      WellFormed m2 (batchedCells exampleCells 1 0 2) ∧
      stackValues m2 (batchedCells exampleCells 1 0 2) 0
        = (stackValues exampleForest exampleCells 1).take 2
          ++ stackValues exampleForest exampleCells 0 ∧
      stackValues m2 (batchedCells exampleCells 1 0 2) 1
        = (stackValues exampleForest exampleCells 1).drop 2 ∧
      ∀ i, i ≠ 1 → i ≠ 0 →
        m2.stackArray.getD i none = exampleForest.stackArray.getD i none ∧
        stackValues m2 (batchedCells exampleCells 1 0 2) i
          = stackValues exampleForest exampleCells i :=
  ⟨by decide, parseBatchedInstruction_moves_block exampleForest exampleCells 1 0 2
    (by decide) (by decide) (by decide) (by decide) (by decide) (by decide) (by decide)⟩

/-- C1 fails on the code: on the canonical forest, moving one crate from stack 1
to stack 0 under the sequential policy leaves stack 1 headed by the crate `D`
it should have lost, now linked on top of the old stack 0; the claim gives
`[C, M]` for stack 1. With two crates to move the node `D` is linked to itself
and neither stack is a finite chain any more. -/
theorem parseSequentialInstruction_keeps_from_head :
    (parseSequentialInstruction ⟨1, 1, 0⟩ exampleForest).toOption.map (snapshot 8)
        = some [some ['D', 'N', 'Z'], some ['D', 'N', 'Z'], some ['P']] ∧
    (parseSequentialInstruction ⟨2, 1, 0⟩ exampleForest).toOption.map (snapshot 8)
        = some [none, none, some ['P']] := by
  decide

theorem decimal_append_singleton (ds : List Char) (d : Char) :
    decimal (ds ++ [d]) = 10 * decimal ds + (d.toNat - 48) := by
  simp [decimal, List.foldl_append]

theorem wrapInt_add_mul (x z : Int) : wrapInt (x + 4294967296 * z) = wrapInt x := by
  unfold wrapInt
  omega

theorem wrapInt_eq_add_mul (x : Int) : ∃ q : Int, wrapInt x = x + 4294967296 * q :=
  ⟨-((x + 2147483648) / 4294967296), by unfold wrapInt; omega⟩

theorem wrapInt_of_range (x : Int) (h0 : -2147483648 ≤ x) (h1 : x < 2147483648) : wrapInt x = x := by
  unfold wrapInt
  omega

theorem wrapInt_digit_step (C R k : Int) :
    wrapInt (wrapInt C + wrapInt (k * wrapInt R)) = wrapInt (C + k * R) := by
  obtain ⟨q1, h1⟩ := wrapInt_eq_add_mul R
  obtain ⟨q2, h2⟩ := wrapInt_eq_add_mul (k * wrapInt R)
  obtain ⟨q3, h3⟩ := wrapInt_eq_add_mul C
  rw [h3, h2, h1]
  have : C + 4294967296 * q3 + (k * (R + 4294967296 * q1) + 4294967296 * q2)
      = (C + k * R) + 4294967296 * (q3 + k * q1 + q2) := by ring
  rw [this, wrapInt_add_mul]

theorem wrapInt_radix_step (R : Int) : wrapInt (wrapInt R * 10) = wrapInt (R * 10) := by
  unfold wrapInt
  omega

theorem charAt_append_cons (A B : List Char) (c : Char) :
    charAt (A ++ c :: B) A.length = .ok c := by
  have h : (A ++ c :: B)[A.length]? = some c := by
    rw [List.getElem?_append_right (Nat.le_refl _)]
    simp
  simp only [charAt, h]

theorem readLoop_digit (input : List Char) (fuel p : Nat) (radix current : Int)
    (state : ReadLineState) (instruction : Instruction) (d : Char)
    (hd : charAt input p = .ok d) (h48 : 48 ≤ d.toNat) (h57 : d.toNat ≤ 57) :
    readLoop input (fuel + 1) (p + 1) radix current state instruction =
      readLoop input fuel p (wrapInt (radix * 10))
        (wrapInt (current + wrapInt (((d.toNat : Int) - 48) * radix))) state instruction := by
  have hne : d ≠ '\n' := by
    intro e
    rw [e] at h48
    exact absurd h48 (by decide)
  simp [readLoop, hd, hne, h48, h57, bind, Except.bind]

theorem readLoop_digits (ds : List Char) :
    (∀ d ∈ ds, 48 ≤ d.toNat ∧ d.toNat ≤ 57) →
    ∀ (A B : List Char) (fuel : Nat) (R C : Int) (state : ReadLineState)
      (instruction : Instruction),
      readLoop (A ++ ds ++ B) (fuel + ds.length) (A.length + ds.length) (wrapInt R) (wrapInt C)
          state instruction =
        readLoop (A ++ ds ++ B) fuel A.length (wrapInt (R * 10 ^ ds.length))
          (wrapInt (C + R * (decimal ds : Int))) state instruction := by
  induction ds using List.reverseRecOn with
  | nil =>
    intro _ A B fuel R C state instruction
    simp [decimal]
  | append_singleton ds d ih =>
    intro hds A B fuel R C state instruction
    have hd := hds d (by simp)
    have hds2 : ∀ x ∈ ds, 48 ≤ x.toNat ∧ x.toNat ≤ 57 := fun x hx => hds x (by simp [hx])
    have hin : A ++ (ds ++ [d]) ++ B = A ++ ds ++ d :: B := by simp
    have hch : charAt (A ++ (ds ++ [d]) ++ B) (A.length + ds.length) = .ok d := by
      have := charAt_append_cons (A ++ ds) B d
      simpa using this
    have hlen : (ds ++ [d]).length = ds.length + 1 := by simp
    rw [hlen, ← Nat.add_assoc, ← Nat.add_assoc,
      readLoop_digit _ _ _ _ _ _ _ d hch hd.1 hd.2, wrapInt_radix_step, wrapInt_digit_step, hin,
      ih hds2 A (d :: B) fuel (R * 10) (C + ((d.toNat : Int) - 48) * R) state instruction,
      decimal_append_singleton]
    have e1 : R * 10 * 10 ^ ds.length = R * 10 ^ (ds.length + 1) := by ring
    have e2 : C + ((d.toNat : Int) - 48) * R + R * 10 * (decimal ds : Int)
        = C + R * ((10 * decimal ds + (d.toNat - 48) : Nat) : Int) := by
      have : ((d.toNat - 48 : Nat) : Int) = (d.toNat : Int) - 48 := by omega
      push_cast
      rw [this]
      ring
    rw [e1, e2]

theorem readLoop_digits_le (ds A B : List Char) (hds : ∀ d ∈ ds, 48 ≤ d.toNat ∧ d.toNat ≤ 57)
    (fuel : Nat) (hfuel : ds.length ≤ fuel) (state : ReadLineState) (instruction : Instruction) :
    readLoop (A ++ ds ++ B) fuel (A.length + ds.length) 1 0 state instruction =
      readLoop (A ++ ds ++ B) (fuel - ds.length) A.length (wrapInt (10 ^ ds.length))
        (wrapInt (decimal ds : Int)) state instruction := by
  have h := readLoop_digits ds hds A B (fuel - ds.length) 1 0 state instruction
  rw [Nat.sub_add_cancel hfuel] at h
  simpa [wrapInt] using h

theorem readLoop_to (A B : List Char) (fuel : Nat) (radix current : Int)
    (instruction : Instruction) :
    readLoop (A ++ " to ".toList ++ B) (fuel + 1) (A.length + 4) radix current .TO instruction =
      readLoop (A ++ " to ".toList ++ B) fuel A.length 1 0 .FROM
        { instruction with to_ := wrapInt (current - 1) } := by
  have hch : charAt (A ++ " to ".toList ++ B) (A.length + 3) = .ok ' ' := by
    have := charAt_append_cons (A ++ " to".toList) B ' '
    simpa using this
  have h1 : A.length + 4 - 1 = A.length + 3 := rfl
  have h2 : A.length + 3 - 3 = A.length := rfl
  have h3 : ¬ (A.length + 3 < 3) := by omega
  simp only [readLoop, Nat.add_eq_zero, OfNat.ofNat_ne_zero, and_false, if_false, h1, hch, bind,
    Except.bind]
  simp [h3]

theorem readLoop_from (A B : List Char) (fuel : Nat) (radix current : Int)
    (instruction : Instruction) :
    readLoop (A ++ " from ".toList ++ B) (fuel + 1) (A.length + 6) radix current .FROM instruction =
      readLoop (A ++ " from ".toList ++ B) fuel A.length 1 0 .COUNT
        { instruction with from_ := wrapInt (current - 1) } := by
  have hch : charAt (A ++ " from ".toList ++ B) (A.length + 5) = .ok ' ' := by
    have := charAt_append_cons (A ++ " from".toList) B ' '
    simpa using this
  have h1 : A.length + 6 - 1 = A.length + 5 := rfl
  have h3 : ¬ (A.length + 5 < 5) := by omega
  simp only [readLoop, Nat.add_eq_zero, OfNat.ofNat_ne_zero, and_false, if_false, h1, hch, bind,
    Except.bind]
  simp [h3]

theorem readLoop_move (A B : List Char) (fuel : Nat) (radix current : Int)
    (instruction : Instruction) :
    readLoop (A ++ "move ".toList ++ B) (fuel + 1) (A.length + 5) radix current .COUNT instruction =
      readLoop (A ++ "move ".toList ++ B) fuel A.length 1 0 .COUNT
        { instruction with count := current } := by
  have hch : charAt (A ++ "move ".toList ++ B) (A.length + 4) = .ok ' ' := by
    have := charAt_append_cons (A ++ "move".toList) B ' '
    simpa using this
  have h1 : A.length + 5 - 1 = A.length + 4 := rfl
  have h3 : ¬ (A.length + 4 < 4) := by omega
  simp only [readLoop, Nat.add_eq_zero, OfNat.ofNat_ne_zero, and_false, if_false, h1, hch, bind,
    Except.bind]
  simp [h3]

theorem readLoop_line_break (pre B : List Char) (fuel : Nat) (radix current : Int)
    (state : ReadLineState) (instruction : Instruction) :
    readLoop (pre ++ '\n' :: B) (fuel + 1) (pre.length + 1) radix current state instruction =
      .ok instruction := by
  have hch := charAt_append_cons pre B '\n'
  simp [readLoop, hch, bind, Except.bind, pure, Except.pure]

/-- The budget `position + 1` that `readInstruction` starts with is never what
stops the scan. -/
theorem readLoop_fuel_suffices (input : List Char) :
    ∀ (fuel position : Nat) (radix current : Int) (state : ReadLineState)
      (instruction : Instruction), position < fuel →
      readLoop input fuel position radix current state instruction ≠ .error .fuel := by
  intro fuel
  induction fuel with
  | zero => intro position _ _ _ _ h; omega
  | succ fuel ih =>
    intro position radix current state instruction hlt
    unfold readLoop
    by_cases hp : position = 0
    · simp [hp]
    · simp only [hp, if_false, bind, Except.bind]
      cases hc : charAt input (position - 1) with
      | error e =>
        simp only [charAt] at hc
        split at hc
        · simp at hc
        · split at hc
          · simp at hc
          · injection hc with hc
            subst hc
            simp
      | ok value =>
        simp only [pure, Except.pure]
        by_cases hnl : value = '\n'
        · simp [hnl]
        · simp only [hnl, if_false]
          by_cases hd : 48 ≤ value.toNat ∧ value.toNat ≤ 57
          · simp only [hd, and_self, if_true]
            exact ih _ _ _ _ _ (by omega)
          · simp only [hd, if_false]
            cases state with
            | TO =>
              by_cases h3 : position - 1 < 3
              · simp [h3]
              · simp only [h3, if_false]
                exact ih _ _ _ _ _ (by omega)
            | FROM =>
              by_cases h3 : position - 1 < 5
              · simp [h3]
              · simp only [h3, if_false]
                exact ih _ _ _ _ _ (by omega)
            | COUNT =>
              by_cases h3 : position - 1 < 4
              · simp [h3]
              · simp only [h3, if_false]
                exact ih _ _ _ _ _ (by omega)

theorem isNumber_digits (ds : List Char) (h : isNumber ds = true) :
    ∀ d ∈ ds, 48 ≤ d.toNat ∧ d.toNat ≤ 57 := by
  intro d hd
  simp only [isNumber, Bool.and_eq_true, List.all_eq_true, decide_eq_true_eq] at h
  exact h.2 d hd

theorem isNumber_no_blank (ds : List Char) (h : isNumber ds = true) : ' ' ∉ ds := by
  intro hmem
  have := (isNumber_digits ds h ' ' hmem).1
  exact absurd this (by decide)

theorem forwardParse_directive (dc df dt : List Char)
    (hc : isNumber dc = true) (hf : isNumber df = true) (ht : isNumber dt = true) :
    forwardParse (directive dc df dt) =
      some ⟨decimal dc, (decimal df : Int) - 1, (decimal dt : Int) - 1⟩ := by
  have hi : directive dc df dt =
      [' '].intercalate ["move".toList, dc, "from".toList, df, "to".toList, dt] := by
    simp [directive, List.intercalate, List.intersperse]
  have hs : ([' '].intercalate ["move".toList, dc, "from".toList, df, "to".toList, dt]).splitOn ' '
      = ["move".toList, dc, "from".toList, df, "to".toList, dt] := List.splitOn_intercalate _ ' '
    (by
      intro l hl
      simp only [List.mem_cons, List.mem_singleton, List.not_mem_nil, or_false] at hl
      rcases hl with rfl | rfl | rfl | rfl | rfl | rfl
      · decide
      · exact isNumber_no_blank _ hc
      · decide
      · exact isNumber_no_blank _ hf
      · decide
      · exact isNumber_no_blank _ ht)
    (by simp)
  simp only [forwardParse, hi, hs, hc, hf, ht, and_self, if_true]

/-- C3. For a directive line `move c from f to t` whose three numbers are runs
of decimal digits (of any length, leading zeros included) with values within
`int`, that follows a line break, `readInstruction` called just past the end
of the line returns `count = c`, `from = f - 1`, `to = t - 1`, whatever its
unset record held and whatever follows the line; a forward tokenizing parse
of the line gives the same record. -/
theorem readInstruction_record (pre suf dc df dt : List Char) (init : Instruction)
    (hc : isNumber dc = true) (hf : isNumber df = true) (ht : isNumber dt = true)
    (hcr : decimal dc < 2147483648) (hfr : decimal df < 2147483648)
    (htr : decimal dt < 2147483648) :
    readInstruction (pre ++ '\n' :: directive dc df dt ++ suf)
        (pre.length + 1 + (directive dc df dt).length) init
      = .ok ⟨decimal dc, (decimal df : Int) - 1, (decimal dt : Int) - 1⟩ ∧
    forwardParse (directive dc df dt)
      = some ⟨decimal dc, (decimal df : Int) - 1, (decimal dt : Int) - 1⟩ := by
  refine ⟨?_, forwardParse_directive dc df dt hc hf ht⟩
  have hdc := isNumber_digits dc hc
  have hdf := isNumber_digits df hf
  have hdt := isNumber_digits dt ht
  -- the text, cut at each place the scan passes through
  have e1 : pre ++ '\n' :: directive dc df dt ++ suf =
      (pre ++ '\n' :: "move ".toList ++ dc ++ " from ".toList ++ df ++ " to ".toList) ++ dt ++ suf := by
    simp [directive]
  have e2 : (pre ++ '\n' :: "move ".toList ++ dc ++ " from ".toList ++ df ++ " to ".toList) ++ dt ++ suf =
      (pre ++ '\n' :: "move ".toList ++ dc ++ " from ".toList ++ df) ++ " to ".toList ++ (dt ++ suf) := by
    simp
  have e3 : (pre ++ '\n' :: "move ".toList ++ dc ++ " from ".toList ++ df) ++ " to ".toList ++ (dt ++ suf) =
      (pre ++ '\n' :: "move ".toList ++ dc ++ " from ".toList) ++ df ++ (" to ".toList ++ (dt ++ suf)) := by
    simp
  have e4 : (pre ++ '\n' :: "move ".toList ++ dc ++ " from ".toList) ++ df ++ (" to ".toList ++ (dt ++ suf)) =
      (pre ++ '\n' :: "move ".toList ++ dc) ++ " from ".toList ++ (df ++ (" to ".toList ++ (dt ++ suf))) := by
    simp
  have e5 : (pre ++ '\n' :: "move ".toList ++ dc) ++ " from ".toList ++ (df ++ (" to ".toList ++ (dt ++ suf))) =
      (pre ++ '\n' :: "move ".toList) ++ dc ++ (" from ".toList ++ (df ++ (" to ".toList ++ (dt ++ suf)))) := by
    simp
  have e6 : (pre ++ '\n' :: "move ".toList) ++ dc ++ (" from ".toList ++ (df ++ (" to ".toList ++ (dt ++ suf)))) =
      (pre ++ ['\n']) ++ "move ".toList ++ (dc ++ (" from ".toList ++ (df ++ (" to ".toList ++ (dt ++ suf))))) := by
    simp
  have e7 : (pre ++ ['\n']) ++ "move ".toList ++ (dc ++ (" from ".toList ++ (df ++ (" to ".toList ++ (dt ++ suf))))) =
      pre ++ '\n' :: ("move ".toList ++ (dc ++ (" from ".toList ++ (df ++ (" to ".toList ++ (dt ++ suf)))))) := by
    simp
  -- positions
  have p1 : pre.length + 1 + (directive dc df dt).length =
      (pre ++ '\n' :: "move ".toList ++ dc ++ " from ".toList ++ df ++ " to ".toList).length + dt.length := by
    simp [directive]; omega
  have p2 : (pre ++ '\n' :: "move ".toList ++ dc ++ " from ".toList ++ df ++ " to ".toList).length =
      (pre ++ '\n' :: "move ".toList ++ dc ++ " from ".toList ++ df).length + 4 := by
    simp
    try omega
  have p3 : (pre ++ '\n' :: "move ".toList ++ dc ++ " from ".toList ++ df).length =
      (pre ++ '\n' :: "move ".toList ++ dc ++ " from ".toList).length + df.length := by
    simp
    try omega
  have p4 : (pre ++ '\n' :: "move ".toList ++ dc ++ " from ".toList).length =
      (pre ++ '\n' :: "move ".toList ++ dc).length + 6 := by
    simp
    try omega
  have p5 : (pre ++ '\n' :: "move ".toList ++ dc).length =
      (pre ++ '\n' :: "move ".toList).length + dc.length := by
    simp
    try omega
  have p6 : (pre ++ '\n' :: "move ".toList).length = (pre ++ ['\n']).length + 5 := by
    simp
    try omega
  have p7 : (pre ++ ['\n']).length = pre.length + 1 := by simp
  unfold readInstruction
  rw [e1, p1, readLoop_digits_le dt _ suf hdt _ (by omega)]
  rw [e2, p2, show (pre ++ '\n' :: "move ".toList ++ dc ++ " from ".toList ++ df).length + 4 + dt.length + 1
        - dt.length = ((pre ++ '\n' :: "move ".toList ++ dc ++ " from ".toList ++ df).length + 4) + 1 by omega,
    readLoop_to]
  rw [e3, p3, readLoop_digits_le df _ _ hdf _ (by omega)]
  rw [e4, p4, show (pre ++ '\n' :: "move ".toList ++ dc).length + 6 + df.length + 4 - df.length
        = ((pre ++ '\n' :: "move ".toList ++ dc).length + 9) + 1 by omega,
    readLoop_from]
  rw [e5, p5, readLoop_digits_le dc _ _ hdc _ (by omega)]
  rw [e6, p6, show (pre ++ ['\n']).length + 5 + dc.length + 9 - dc.length
        = ((pre ++ ['\n']).length + 13) + 1 by omega,
    readLoop_move]
  rw [e7, p7, show pre.length + 1 + 13 = (pre.length + 13) + 1 by omega, readLoop_line_break]
  have w1 : wrapInt (decimal dc : Int) = decimal dc := wrapInt_of_range _ (by omega) (by omega)
  have w2 : wrapInt (wrapInt (decimal df : Int) - 1) = (decimal df : Int) - 1 := by
    rw [wrapInt_of_range (decimal df : Int) (by omega) (by omega)]
    exact wrapInt_of_range _ (by omega) (by omega)
  have w3 : wrapInt (wrapInt (decimal dt : Int) - 1) = (decimal dt : Int) - 1 := by
    rw [wrapInt_of_range (decimal dt : Int) (by omega) (by omega)]
    exact wrapInt_of_range _ (by omega) (by omega)
  rw [w1, w2, w3]

/-- C3, on the line `move 13 from 2 to 10` after the line `move 1 from 2 to 1`. -/
theorem readInstruction_record_witness :
    isNumber "13".toList = true ∧ isNumber "2".toList = true ∧ isNumber "10".toList = true ∧
    decimal "13".toList < 2147483648 ∧ decimal "2".toList < 2147483648 ∧
    decimal "10".toList < 2147483648 ∧
    (readInstruction
        ("move 1 from 2 to 1".toList ++ '\n' :: directive "13".toList "2".toList "10".toList ++ [])
        ("move 1 from 2 to 1".toList.length + 1
          + (directive "13".toList "2".toList "10".toList).length) ⟨7, 7, 7⟩
      = .ok ⟨decimal "13".toList, (decimal "2".toList : Int) - 1, (decimal "10".toList : Int) - 1⟩ ∧
    forwardParse (directive "13".toList "2".toList "10".toList)
      = some ⟨decimal "13".toList, (decimal "2".toList : Int) - 1,
          (decimal "10".toList : Int) - 1⟩) :=
  ⟨by decide, by decide, by decide, by decide, by decide, by decide,
    readInstruction_record "move 1 from 2 to 1".toList [] "13".toList "2".toList "10".toList
      ⟨7, 7, 7⟩ (by decide) (by decide) (by decide) (by decide) (by decide) (by decide)⟩

theorem diagramLoop_stops_at_line_break (input : List Char) (lineEnd : Nat) :
    ∀ (fuel lineLength : Nat) (s s2 : LoadState),
      diagramLoop input lineEnd fuel lineLength s = .ok s2 → charAt input s2.index = .ok '\n' := by
  intro fuel
  induction fuel with
  | zero =>
    intro lineLength s s2 h
    simp [diagramLoop] at h
  | succ fuel ih =>
    intro lineLength s s2 h
    simp only [diagramLoop, bind, Except.bind] at h
    cases hc : charAt input s.index with
    | error e => simp [hc] at h
    | ok c =>
      rw [hc] at h
      by_cases hnl : c = '\n'
      · simp only [hnl, if_true, pure, Except.pure] at h
        injection h with h
        rw [← h, hc, hnl]
      · simp only [hnl, if_false] at h
        cases hr : rowLoop input lineLength (input.length + 2) { s with column := 0 } with
        | error e => simp [hr] at h
        | ok s3 =>
          rw [hr] at h
          exact ih _ _ _ h

/-- C7 as amended. When `loadStacks` returns, the integer it returns is two more
than the offset of a line break, the one its row loop stopped at: `n - 2`
holds a line break. For a scan that stops at the blank separator line, `n` is
the offset of the second character of the first directive line. -/
theorem loadStacks_index_two_past_line_break (input : List Char) (junk : Nat → Option Nat)
    (n : Nat) (h : (loadStacks input junk).map (fun l => l.index) = .ok n) :
    2 ≤ n ∧ charAt input (n - 2) = .ok '\n' := by
  unfold loadStacks at h
  cases hh : lineHeader input with
  | error e => simp [hh, bind, Except.bind, Except.map] at h
  | ok p =>
    obtain ⟨lineEnd, numberOfColumns⟩ := p
    rw [hh] at h
    simp only [bind, Except.bind, pure, Except.pure] at h
    split at h
    · simp [Except.map] at h
    · rename_i s hs
      simp only [Except.map] at h
      injection h with h
      subst h
      exact ⟨by omega, by simpa using diagramLoop_stops_at_line_break _ _ _ _ _ _ hs⟩

/-- C7 as amended, on the one-column input: the blank line is at offset 12 and
the integer returned is 14. -/
theorem loadStacks_index_two_past_line_break_witness :
    (loadStacks oneColumnInput (fun _ => none)).map (fun l => l.index) = .ok 14 ∧
    (2 ≤ 14 ∧ charAt oneColumnInput (14 - 2) = .ok '\n') :=
  ⟨by decide, loadStacks_index_two_past_line_break oneColumnInput (fun _ => none) 14 (by decide)⟩

/-- C7 fails as stated: on the one-column input the diagram block (two rows,
label row, blank line) takes the offsets 0 to 12 and the first directive line
starts at offset 13, yet `loadStacks` returns 14. -/
theorem loadStacks_index_not_first_directive_char :
    oneColumnInput.take 13 = "[A]\n[B]\n 1 \n\n".toList ∧
    oneColumnInput.drop 13 = "move 1 from 1 to 1".toList ∧
    (loadStacks oneColumnInput (fun _ => none)).map (fun l => l.index) = .ok 14 := by
  decide

theorem printTops_eq (m : Forest) :
    ∀ (remaining i : Nat),
      (∀ j, i ≤ j → j < i + remaining →
        ∃ a node, m.stackArray[j]? = some (some a) ∧ m.heap a = some node) →
      printTops m remaining i = .ok ((List.range' i remaining).map (topValue m) ++ ['\n']) := by
  intro remaining
  induction remaining with
  | zero => intro i _; rfl
  | succ remaining ih =>
    intro i h
    obtain ⟨a, node, ha, hnode⟩ := h i (Nat.le_refl _) (by omega)
    have hrest := ih (i + 1) (fun j h1 h2 => h j (by omega) (by omega))
    have htop : topValue m i = node.value := by
      simp [topValue, List.getD_eq_getElem?_getD, ha, valueAt, hnode]
    simp [printTops, readStack, ha, deref, hnode, hrest, htop, bind, Except.bind, pure,
      Except.pure, List.range'_succ]

/-- C8. For a forest whose `N` stacks are non-empty (each head is the address
of a node), the printing loop of `partOne` and `partTwo` prints `N` characters
and then the line break; the `i`-th character is the value of the node at the
head of stack `i`. Nothing else is asked of the forest: the stacks may share
nodes, as they do after a sequential move. -/
theorem reportTops_prints_tops (m : Forest) (numberOfColumns : Nat)
    (hne : ∀ i, i < numberOfColumns →
      ∃ a node, m.stackArray[i]? = some (some a) ∧ m.heap a = some node) :
    ∃ tops, reportTops m numberOfColumns = .ok (tops ++ ['\n']) ∧
      tops.length = numberOfColumns ∧
      ∀ i a node, i < numberOfColumns → m.stackArray[i]? = some (some a) →
        m.heap a = some node → tops[i]? = some node.value := by
  refine ⟨(List.range' 0 numberOfColumns).map (topValue m), ?_, by simp, ?_⟩
  · unfold reportTops
    exact printTops_eq m numberOfColumns 0 (fun j _ hj => hne j (by omega))
  · intro i a node hi h1 h2
    simp [List.getElem?_map, List.getElem?_range', hi, topValue, List.getD_eq_getElem?_getD, h1,
      valueAt, h2]

/-- C8, on the forest a sequential move leaves, where the node of crate `D`
heads stacks 0 and 1: the line is `DDP`. -/
theorem reportTops_prints_tops_witness :
    (∀ i, i < 3 → ∃ a node, afterSequentialMove.stackArray[i]? = some (some a) ∧
      afterSequentialMove.heap a = some node) ∧
    afterSequentialMove.stackArray = [some 2, some 2, some 5] ∧
    reportTops afterSequentialMove 3 = .ok "DDP\n".toList ∧
    ∃ tops, reportTops afterSequentialMove 3 = .ok (tops ++ ['\n']) ∧
      tops.length = 3 ∧
      ∀ i a node, i < 3 → afterSequentialMove.stackArray[i]? = some (some a) →
        afterSequentialMove.heap a = some node → tops[i]? = some node.value :=
  ⟨fun i hi => by
      interval_cases i
      · exact ⟨2, ⟨'D', some 0⟩, rfl, rfl⟩
      · exact ⟨2, ⟨'D', some 0⟩, rfl, rfl⟩
      · exact ⟨5, ⟨'P', none⟩, rfl, rfl⟩,
    by decide, by decide,
    reportTops_prints_tops afterSequentialMove 3 (fun i hi => by
      interval_cases i
      · exact ⟨2, ⟨'D', some 0⟩, rfl, rfl⟩
      · exact ⟨2, ⟨'D', some 0⟩, rfl, rfl⟩
      · exact ⟨5, ⟨'P', none⟩, rfl, rfl⟩)⟩

set_option maxRecDepth 100000 in
/-- C4 fails on the code. After each row `lineLength` grows by `lineEnd + 1`,
one more than the distance between two rows, so from the second row on the
scan of a row runs into the row after it. On the canonical diagram the scan of
the second row takes a fourth group at offset 24, the `[Z]` of the third row,
and indexes `builders[3]` in an array of three cells, instead of producing the
stacks `[N,Z]`, `[D,C,M]`, `[P]`. On the six-row diagram no access leaves an
array and `loadStacks` returns, with the stacks `[E,G,I,K]` and `[B,D,F,H,J]`
where the columns read `[F,H,J]` and `[B,D,E,G,I,K]`. -/
theorem loadStacks_misplaces_crates (junk : Nat → Option Nat) :
    loadStacks canonicalInput junk = .error .arrayBounds ∧
    (loadStacks sixRowInput junk).map (fun l => (l.index, l.numberOfColumns, snapshot 20 l.forest))
      = .ok (58, 2, [some ['E', 'G', 'I', 'K'], some ['B', 'D', 'F', 'H', 'J']]) :=
  ⟨rfl, rfl⟩

/-- C6 fails on the code: on the two-column, three-row input, six bracketed
entries, `loadStacks` does not hand back two stacks holding six crates. The
scan of the second row takes a third group at offset 16, the `[E]` of the third
row, for a third column and indexes `builders[2]` in an array of two cells. -/
theorem loadStacks_threeRow_leaves_builders (junk : Nat → Option Nat) :
    loadStacks threeRowInput junk = .error .arrayBounds := by
  rfl

set_option maxRecDepth 100000 in
/-- C9 fails on the code: `partOne` on the canonical input stops in
`loadStacks` and prints nothing. Run on the forest the diagram describes, the
four records give the line `DDD`, not `CMZ`: `parseSequentialInstruction` never
moves `from` down, so every stack ends headed by the node `D`. -/
theorem partOne_canonical_not_CMZ :
    (∀ junk init, partOne canonicalInput junk init = .error .arrayBounds) ∧
    (parseSequentialInstruction ⟨1, 1, 0⟩ exampleForest
        >>= parseSequentialInstruction ⟨3, 0, 2⟩
        >>= parseSequentialInstruction ⟨2, 1, 0⟩
        >>= parseSequentialInstruction ⟨1, 0, 1⟩
        >>= fun m => reportTops m 3) = .ok "DDD\n".toList :=
  ⟨fun _ _ => rfl, by decide⟩

set_option maxRecDepth 100000 in
/-- C10 fails on the code: `partTwo` on the canonical input stops in
`loadStacks` and prints nothing. Run on the forest the diagram describes, the
four records do give the line `MCD`: the loader alone keeps `partTwo` from it. -/
theorem partTwo_canonical_not_MCD :
    (∀ junk init, partTwo canonicalInput junk init = .error .arrayBounds) ∧
    (parseBatchedInstruction ⟨1, 1, 0⟩ exampleForest
        >>= parseBatchedInstruction ⟨3, 0, 2⟩
        >>= parseBatchedInstruction ⟨2, 1, 0⟩
        >>= parseBatchedInstruction ⟨1, 0, 1⟩
        >>= fun m => reportTops m 3) = .ok "MCD\n".toList :=
  ⟨fun _ _ => rfl, by decide⟩

theorem toSizeT_natCast (k : Nat) (hk : k < 4294967296) : toSizeT (k : Int) = k := by
  unfold toSizeT
  omega

theorem batchedLoop_walk_full (h : Heap) (top : Option Nat) :
    ∀ (n a : Nat) (rest : List Nat), isChain h (some a) (a :: rest) = true →
      n ≤ rest.length + 1 → batchedLoop n h top (some a) = .ok ((a :: rest)[n]?) := by
  intro n
  induction n with
  | zero => intro a rest _ _; simp [batchedLoop]
  | succ n ih =>
    intro a rest hc hn
    obtain ⟨-, node, hnode, hrest⟩ := (isChain_cons h _ a _).1 hc
    cases rest with
    | nil =>
      have hb : node.below = none := (isChain_nil h _).1 hrest
      have hn0 : n = 0 := by simpa using hn
      subst hn0
      simp [batchedLoop, deref, hnode, hb, bind, Except.bind]
    | cons a2 rest2 =>
      have hb : node.below = some a2 := ((isChain_cons h _ a2 _).1 hrest).1
      have hn2 : n ≤ rest2.length + 1 := by simpa using hn
      have := ih a2 rest2 (hb ▸ hrest) hn2
      simp [batchedLoop, deref, hnode, hb, this, bind, Except.bind]

theorem batchedLoop_from_top (h : Heap) (top : Option Nat) (cells : List Nat)
    (hc : isChain h top cells = true) (n : Nat) (hn : n ≤ cells.length) :
    batchedLoop (n + 1) h top none = .ok (cells[n]?) := by
  cases cells with
  | nil =>
    have ht : top = none := (isChain_nil h _).1 hc
    have hn0 : n = 0 := by simpa using hn
    subst hn0
    subst ht
    simp [batchedLoop]
  | cons a rest =>
    have ht : top = some a := ((isChain_cons h _ a _).1 hc).1
    subst ht
    have := batchedLoop_walk_full h (some a) n a rest hc (by simpa using hn)
    simpa [batchedLoop] using this

/-- What a batched move does to the heap and to the array, for a count within
the depth of `f`: `b` is the address of the `k`-th node of stack `f`. The two
stacks may be the same one. -/
theorem batched_exec (m : Forest) (cf : List Nat) (f t k : Nat)
    (hf : f < m.stackArray.length) (ht : t < m.stackArray.length)
    (hc : isChain m.heap (m.stackArray.getD f none) cf = true)
    (hk1 : 1 ≤ k) (hk : k ≤ cf.length) (hint : k < 2147483648) :
    ∃ b node, cf[k - 1]? = some b ∧ m.heap b = some node ∧
      isChain m.heap node.below (cf.drop k) = true ∧
      parseBatchedInstruction ⟨k, f, t⟩ m = .ok
        ⟨Function.update m.heap b
            (some { node with below := (m.stackArray.set f node.below).getD t none }),
          (m.stackArray.set f node.below).set t (m.stackArray.getD f none)⟩ := by
  obtain ⟨n, rfl⟩ : ∃ n, k = n + 1 := ⟨k - 1, by omega⟩
  have hnlt : n < cf.length := by omega
  have hsplit : cf = cf.take n ++ cf[n] :: cf.drop (n + 1) := by
    rw [← List.drop_eq_getElem_cons hnlt, List.take_append_drop]
  obtain ⟨node, hnode, hpost⟩ :=
    isChain_split m.heap cf[n] (cf.drop (n + 1)) (cf.take n) _ (hsplit ▸ hc)
  have hloop : batchedLoop (n + 1) m.heap (m.stackArray.getD f none) none = .ok (some cf[n]) := by
    rw [batchedLoop_from_top m.heap _ cf hc n (by omega), List.getElem?_eq_getElem hnlt]
  have hsz : toSizeT ((n + 1 : Nat) : Int) = n + 1 := toSizeT_natCast _ (by omega)
  have hta : t < (m.stackArray.set f node.below).length := by simpa using ht
  refine ⟨cf[n], node, by simp [List.getElem?_eq_getElem hnlt], hnode, hpost, ?_⟩
  simp only [parseBatchedInstruction, readStack_ok _ f hf, hsz, hloop, deref, hnode,
    writeStack_ok _ f _ hf, readStack_ok _ t hta, writeStack_ok _ t _ hta,
    bind, Except.bind, pure, Except.pure]

theorem set_getD_self (arr : List (Option Nat)) (i : Nat) :
    arr.set i (arr.getD i none) = arr := by
  apply List.ext_getElem?
  intro j
  rw [List.getElem?_set]
  by_cases hij : i = j
  · subst hij
    by_cases hi : i < arr.length
    · simp [hi, List.getD_eq_getElem?_getD, List.getElem?_eq_getElem hi]
    · simp [hi, List.getElem?_eq_none (Nat.le_of_not_lt hi)]
  · simp [hij]

theorem update_below_self (h : Heap) (b : Nat) (node : Stack) (hb : h b = some node) :
    Function.update h b (some { node with below := node.below }) = h := by
  funext a
  by_cases hab : a = b
  · subst hab; simp [hb]
  · simp [Function.update_noteq hab]

/-- C15. In a forest of pairwise-disjoint, null-terminated stacks, a batched
move of `1 ≤ k ≤ depth i` crates (within `int`) from stack `i` to the same
stack `i` returns and hands back the very forest it was given: the same array
of heads and the same nodes, so every stack, stack `i` included, keeps its
contents in their order. -/
theorem parseBatchedInstruction_same_stack (m : Forest) (cells : List (List Nat)) (i k : Nat)
    (hwf : WellFormed m cells) (hi : i < cells.length)
    (hk1 : 1 ≤ k) (hk : k ≤ (cells.getD i []).length) (hint : k < 2147483648) :
    parseBatchedInstruction ⟨k, i, i⟩ m = .ok m := by
  obtain ⟨hlen, hchain, -⟩ := hwf
  have hia : i < m.stackArray.length := hlen ▸ hi
  obtain ⟨b, node, -, hnode, -, hrun⟩ :=
    batched_exec m (cells.getD i []) i i k hia hia (hchain i hi) hk1 hk hint
  rw [hrun]
  have h1 : (m.stackArray.set i node.below).getD i none = node.below := by
    rw [getD_set_eq]; simp [hia]
  have h2 : (m.stackArray.set i node.below).set i (m.stackArray.getD i none) = m.stackArray := by
    rw [List.set_set, set_getD_self]
  rw [h1, h2, update_below_self m.heap b node hnode]

/-- C15, on the canonical forest: two crates from stack 1 to stack 1. -/
theorem parseBatchedInstruction_same_stack_witness :
    WellFormed exampleForest exampleCells ∧
    parseBatchedInstruction ⟨((2 : Nat) : Int), ((1 : Nat) : Int), ((1 : Nat) : Int)⟩ exampleForest
      = .ok exampleForest :=
  ⟨by decide, parseBatchedInstruction_same_stack exampleForest exampleCells 1 2
    (by decide) (by decide) (by decide) (by decide) (by decide)⟩

/-- C13. For two valid stack indices, equal or not, `parseSequentialInstruction`
with count 0 returns and hands back the very forest it was given: the loop
body is not entered and both heads are written back unchanged. -/
theorem parseSequentialInstruction_count_zero (m : Forest) (f t : Nat)
    (hf : f < m.stackArray.length) (ht : t < m.stackArray.length) :
    parseSequentialInstruction ⟨0, f, t⟩ m = .ok m := by
  have hta : f < (m.stackArray.set t (m.stackArray.getD t none)).length := by simpa using hf
  have hz : toSizeT 0 = 0 := rfl
  simp only [parseSequentialInstruction, readStack_ok _ f hf, readStack_ok _ t ht, hz,
    sequentialLoop, writeStack_ok _ t _ ht, writeStack_ok _ f _ hta, bind, Except.bind, pure,
    Except.pure]
  rw [set_getD_self, set_getD_self]

/-- C13, on the canonical forest, from stack 1 to stack 0. -/
theorem parseSequentialInstruction_count_zero_witness :
    (1 < exampleForest.stackArray.length ∧ 0 < exampleForest.stackArray.length) ∧
    parseSequentialInstruction ⟨0, ((1 : Nat) : Int), ((0 : Nat) : Int)⟩ exampleForest
      = .ok exampleForest :=
  ⟨by decide, parseSequentialInstruction_count_zero exampleForest 1 0 (by decide) (by decide)⟩

theorem set_set_restore (arr : List (Option Nat)) (a b : Nat) (x : Option Nat) (hab : a ≠ b) :
    (((arr.set a x).set b (arr.getD a none)).set b (arr.getD b none)).set a (arr.getD a none)
      = arr := by
  rw [List.set_set, List.set_comm _ _ _ hab, List.set_set, set_getD_self, set_getD_self]

/-- C12. In a forest of pairwise-disjoint, null-terminated stacks, for two
stacks `a ≠ b` and a count `1 ≤ k ≤ depth a` (within `int`), the batched move
of `k` crates from `a` to `b` returns, and the batched move of `k` crates from
`b` to `a` applied to its result returns the very forest the first move was
given: the same array of heads and the same nodes, so every stack has its
original contents in their original order. -/
theorem parseBatchedInstruction_round_trip (m : Forest) (cells : List (List Nat)) (a b k : Nat)
    (hwf : WellFormed m cells) (ha : a < cells.length) (hb : b < cells.length) (hab : a ≠ b)
    (hk1 : 1 ≤ k) (hk : k ≤ (cells.getD a []).length) (hint : k < 2147483648) :
    ∃ m1, parseBatchedInstruction ⟨k, a, b⟩ m = .ok m1 ∧
      parseBatchedInstruction ⟨k, b, a⟩ m1 = .ok m := by
  obtain ⟨hlen, hchain, hapart⟩ := hwf
  have haa : a < m.stackArray.length := hlen ▸ ha
  have hba : b < m.stackArray.length := hlen ▸ hb
  have hca := hchain a ha
  have hcb := hchain b hb
  obtain ⟨x, node, hx, hnode, hpost, hrun⟩ :=
    batched_exec m (cells.getD a []) a b k haa hba hca hk1 hk hint
  have hnd := isChain_nodup _ _ _ hca
  obtain ⟨n, rfl⟩ : ∃ n, k = n + 1 := ⟨k - 1, by omega⟩
  have hnlt : n < (cells.getD a []).length := by omega
  have hxe : (cells.getD a [])[n] = x := by
    have h1 : (cells.getD a [])[n + 1 - 1]? = some (cells.getD a [])[n] := by
      simp [List.getElem?_eq_getElem hnlt]
    rw [h1] at hx
    exact Option.some.inj hx
  have hsplit : cells.getD a [] =
      (cells.getD a []).take n ++ x :: (cells.getD a []).drop (n + 1) := by
    rw [← hxe, ← List.drop_eq_getElem_cons hnlt, List.take_append_drop]
  have hnd2 : ((cells.getD a []).take n ++ x :: (cells.getD a []).drop (n + 1)).Nodup :=
    hsplit ▸ hnd
  have hxpre : x ∉ (cells.getD a []).take n := fun e =>
    (List.nodup_append.1 hnd2).2.2 e (List.mem_cons_self _ _)
  have hxb : x ∉ cells.getD b [] := by
    have hxa : x ∈ cells.getD a [] := hxe ▸ List.getElem_mem hnlt
    exact hapart a ha b hb hab x hxa
  have ht1 : (m.stackArray.set a node.below).getD b none = m.stackArray.getD b none := by
    rw [getD_set_eq]; simp [hab]
  rw [ht1] at hrun
  refine ⟨_, hrun, ?_⟩
  -- the forest after the first move
  have harr1 : ((m.stackArray.set a node.below).set b (m.stackArray.getD a none)).getD b none
      = m.stackArray.getD a none := by
    rw [getD_set_eq]; simp [hba]
  have hchain1 : isChain
      (Function.update m.heap x (some { node with below := m.stackArray.getD b none }))
      (m.stackArray.getD a none) ((cells.getD a []).take n ++ x :: cells.getD b []) = true :=
    isChain_relink m.heap x node _ (cells.getD b []) _ hcb hxb _ _ hxpre (hsplit ▸ hca)
  have hlen1 : n + 1 ≤ ((cells.getD a []).take n ++ x :: cells.getD b []).length := by
    simp only [List.length_append, List.length_take, List.length_cons]
    omega
  obtain ⟨y, node2, hy, hnode2, -, hrun2⟩ :=
    batched_exec
      ⟨Function.update m.heap x (some { node with below := m.stackArray.getD b none }),
        (m.stackArray.set a node.below).set b (m.stackArray.getD a none)⟩
      ((cells.getD a []).take n ++ x :: cells.getD b []) b a (n + 1)
      (by simpa using hba) (by simpa using haa) (by rw [harr1]; exact hchain1) hk1 hlen1 hint
  have hyx : y = x := by
    have h2 : ((cells.getD a []).take n ++ x :: cells.getD b [])[n + 1 - 1]? = some x := by
      have hl : ((cells.getD a []).take n).length = n := by
        simp only [List.length_take]
        omega
      have : n + 1 - 1 = ((cells.getD a []).take n).length := by omega
      rw [this, List.getElem?_append_right (Nat.le_refl _)]
      simp
    rw [h2] at hy
    exact (Option.some.inj hy).symm
  subst hyx
  have hn2 : node2 = { node with below := m.stackArray.getD b none } := by
    simp only [Function.update_same] at hnode2
    exact (Option.some.inj hnode2).symm
  subst hn2
  rw [hrun2]
  simp only at *
  have h3 : ((((m.stackArray.set a node.below).set b (m.stackArray.getD a none)).set b
      (m.stackArray.getD b none)).getD a none) = node.below := by
    rw [List.set_set, getD_set_eq, getD_set_eq]
    simp [Ne.symm hab, haa]
  rw [h3, harr1, set_set_restore _ _ _ _ hab, Function.update_idem]
  have h4 : Function.update m.heap y (some { value := node.value, below := node.below }) = m.heap :=
    update_below_self m.heap y node hnode
  rw [h4]

/-- C12, on the canonical forest: two crates from stack 1 to stack 0 and back. -/
theorem parseBatchedInstruction_round_trip_witness :
    WellFormed exampleForest exampleCells ∧
    ∃ m1, parseBatchedInstruction ⟨((2 : Nat) : Int), ((1 : Nat) : Int), ((0 : Nat) : Int)⟩
        exampleForest = .ok m1 ∧
      parseBatchedInstruction ⟨((2 : Nat) : Int), ((0 : Nat) : Int), ((1 : Nat) : Int)⟩ m1
        = .ok exampleForest :=
  ⟨by decide, parseBatchedInstruction_round_trip exampleForest exampleCells 1 0 2
    (by decide) (by decide) (by decide) (by decide) (by decide) (by decide) (by decide)⟩

theorem sequentialLoop_self (a : Nat) :
    ∀ (n : Nat) (h : Heap) (node : Stack), h a = some node →
      sequentialLoop (n + 1) h (some a) (some a) = .ok
        (Function.update h a (some { node with below := some a }), some a) := by
  intro n
  induction n with
  | zero =>
    intro h node hnode
    simp [sequentialLoop, deref, hnode, bind, Except.bind]
  | succ n ih =>
    intro h node hnode
    have hs : sequentialLoop (n + 1 + 1) h (some a) (some a) =
        sequentialLoop (n + 1) (Function.update h a (some { node with below := some a }))
          (some a) (some a) := by
      simp [sequentialLoop, deref, hnode, bind, Except.bind]
    rw [hs, ih _ _ (Function.update_same _ _ _), Function.update_idem]

/-- What the loop of the sequential move does in one or more turns on a
non-empty `from`: only the head node of `from` is written; it ends linked to
the old `to` after one turn and to itself after more, and it is the final
`to`. -/
theorem sequentialLoop_succ (h : Heap) (a : Nat) (node : Stack) (hnode : h a = some node)
    (n : Nat) (to_ : Option Nat) :
    sequentialLoop (n + 1) h to_ (some a) = .ok
      (Function.update h a (some { node with below := if n = 0 then to_ else some a }),
        some a) := by
  cases n with
  | zero => simp [sequentialLoop, deref, hnode, bind, Except.bind]
  | succ n =>
    have hs : sequentialLoop (n + 1 + 1) h to_ (some a) =
        sequentialLoop (n + 1) (Function.update h a (some { node with below := to_ }))
          (some a) (some a) := by
      simp [sequentialLoop, deref, hnode, bind, Except.bind]
    rw [hs, sequentialLoop_self a n _ _ (Function.update_same _ _ _), Function.update_idem]
    simp

/-- What a sequential move of one or more crates does to the heap and to the
array when `from` is not empty: `a` is the address of the head node of `from`.
The two stacks may be the same one. -/
theorem sequential_exec (m : Forest) (f t n a : Nat) (node : Stack)
    (hf : f < m.stackArray.length) (ht : t < m.stackArray.length)
    (hhead : m.stackArray.getD f none = some a) (hnode : m.heap a = some node)
    (hint : n + 1 < 2147483648) :
    parseSequentialInstruction ⟨((n + 1 : Nat) : Int), f, t⟩ m = .ok
      ⟨Function.update m.heap a
          (some { node with below := if n = 0 then m.stackArray.getD t none else some a }),
        (m.stackArray.set t (some a)).set f (some a)⟩ := by
  have hfa : f < (m.stackArray.set t (some a)).length := by simpa using hf
  have hsz : toSizeT ((n + 1 : Nat) : Int) = n + 1 := toSizeT_natCast _ (by omega)
  simp only [parseSequentialInstruction, readStack_ok _ f hf, readStack_ok _ t ht, hsz, hhead,
    sequentialLoop_succ m.heap a node hnode, writeStack_ok _ t _ ht, writeStack_ok _ f _ hfa,
    bind, Except.bind, pure, Except.pure]

/-- C16 as amended. In a forest of pairwise-disjoint, null-terminated stacks,
a sequential move of `1 ≤ k ≤ depth i` crates (within `int`) from stack `i` to
the same stack `i` returns and leaves every other stack with its head, its
nodes and its contents. Nothing is said of stack `i` itself. -/
theorem parseSequentialInstruction_same_stack_others (m : Forest) (cells : List (List Nat))
    (i k : Nat) (hwf : WellFormed m cells) (hi : i < cells.length)
    (hk1 : 1 ≤ k) (hk : k ≤ (cells.getD i []).length) (hint : k < 2147483648) :
    ∃ m2, parseSequentialInstruction ⟨k, i, i⟩ m = .ok m2 ∧
      ∀ j, j < cells.length → j ≠ i →
        m2.stackArray.getD j none = m.stackArray.getD j none ∧
        isChain m2.heap (m2.stackArray.getD j none) (cells.getD j []) = true ∧
        stackValues m2 cells j = stackValues m cells j := by
  obtain ⟨hlen, hchain, hapart⟩ := hwf
  have hia : i < m.stackArray.length := hlen ▸ hi
  obtain ⟨n, rfl⟩ : ∃ n, k = n + 1 := ⟨k - 1, by omega⟩
  have hci := hchain i hi
  cases hcells : cells.getD i [] with
  | nil =>
    rw [hcells] at hk
    simp at hk
  | cons a rest =>
    rw [hcells] at hci
    obtain ⟨hhead, node, hnode, -⟩ := (isChain_cons _ _ _ _).1 hci
    refine ⟨_, sequential_exec m i i n a node hia hia hhead hnode hint, ?_⟩
    intro j hj hji
    have haj : a ∉ cells.getD j [] :=
      hapart i hi j hj (Ne.symm hji) a (by rw [hcells]; exact List.mem_cons_self _ _)
    have hheadj : ((m.stackArray.set i (some a)).set i (some a)).getD j none
        = m.stackArray.getD j none := by
      rw [getD_set_eq, getD_set_eq]
      simp [Ne.symm hji]
    refine ⟨hheadj, ?_, ?_⟩
    · show isChain _ (((m.stackArray.set i (some a)).set i (some a)).getD j none) _ = true
      rw [hheadj, isChain_update_of_not_mem _ _ _ _ _ haj]
      exact hchain j hj
    · simp only [stackValues, valuesAt]
      exact List.map_congr_left (fun x _ => valueAt_update_below _ _ _ _ hnode x)

/-- C16 as amended, on the canonical forest: one crate from stack 1 to stack 1. -/
theorem parseSequentialInstruction_same_stack_others_witness :
    WellFormed exampleForest exampleCells ∧
    ∃ m2, parseSequentialInstruction ⟨((1 : Nat) : Int), ((1 : Nat) : Int), ((1 : Nat) : Int)⟩
        exampleForest = .ok m2 ∧
      ∀ j, j < exampleCells.length → j ≠ 1 →
        m2.stackArray.getD j none = exampleForest.stackArray.getD j none ∧
        isChain m2.heap (m2.stackArray.getD j none) (exampleCells.getD j []) = true ∧
        stackValues m2 exampleCells j = stackValues exampleForest exampleCells j :=
  ⟨by decide, parseSequentialInstruction_same_stack_others exampleForest exampleCells 1 1
    (by decide) (by decide) (by decide) (by decide) (by decide)⟩

/-- C16 fails as stated: on the canonical forest a sequential move of one crate
from stack 1 to stack 1 leaves the head node `D` of stack 1 linked to itself,
so stack 1 is no longer the stack `[D, C, M]`; the walk down from its head
never ends. -/
theorem parseSequentialInstruction_same_stack_breaks :
    (parseSequentialInstruction ⟨1, 1, 1⟩ exampleForest).toOption.map
        (fun m => (m.stackArray, m.heap 2, snapshot 8 m))
      = some ([some 0, some 2, some 5], some ⟨'D', some 2⟩,
          [some ['N', 'Z'], none, some ['P']]) := by
  decide

/-- C11 fails on the code: on the canonical forest, with count 1 from stack 1
to stack 0, the sequential move leaves stack 1 as `[D, N, Z]` where the
batched move leaves it as `[C, M]`; the two results differ. -/
theorem sequential_batched_differ_at_count_one :
    (parseSequentialInstruction ⟨1, 1, 0⟩ exampleForest).toOption.map (snapshot 8)
        = some [some ['D', 'N', 'Z'], some ['D', 'N', 'Z'], some ['P']] ∧
    (parseBatchedInstruction ⟨1, 1, 0⟩ exampleForest).toOption.map (snapshot 8)
        = some [some ['D', 'N', 'Z'], some ['C', 'M'], some ['P']] := by
  decide

/-- C18 fails on the code: after the sequential move of one crate from stack 1
to stack 0 of the canonical forest, the node at address 2 (crate `D`) heads
both stack 0 and stack 1, the crates `C` and `M` are on no stack, and the
values over all stacks are `D N Z D N Z P` where the loaded diagram holds
`N Z D C M P`. -/
theorem sequential_move_shares_a_crate :
    (parseSequentialInstruction ⟨1, 1, 0⟩ exampleForest).toOption.map
        (fun m => (m.stackArray, ((snapshot 8 m).map (fun o => o.getD [])).flatten))
      = some ([some 2, some 2, some 5], "DNZDNZP".toList) ∧
    ((snapshot 8 exampleForest).map (fun o => o.getD [])).flatten = "NZDCMP".toList := by
  decide

/-- C14 as amended. For every forest and every valid index `from`, whatever
`to` is, `parseBatchedInstruction` with count 0 does not complete: the loop
body is not entered, `bottom` is still `NULL`, and `bottom->below` is read
through it before any stack or node is written. -/
theorem parseBatchedInstruction_count_zero (m : Forest) (f : Nat) (t : Int)
    (hf : f < m.stackArray.length) :
    parseBatchedInstruction ⟨0, f, t⟩ m = .error .nullDeref := by
  have hz : toSizeT 0 = 0 := rfl
  simp only [parseBatchedInstruction, readStack_ok _ f hf, hz, batchedLoop, deref, bind,
    Except.bind]

/-- C14 as amended, on the canonical forest, from stack 1 to stack 0. -/
theorem parseBatchedInstruction_count_zero_witness :
    1 < exampleForest.stackArray.length ∧
    parseBatchedInstruction ⟨0, ((1 : Nat) : Int), 0⟩ exampleForest = .error .nullDeref :=
  ⟨by decide, parseBatchedInstruction_count_zero exampleForest 1 0 (by decide)⟩

/-- C14 fails as stated: on the canonical forest the batched move with count 0
from stack 1 to stack 0 does not complete. -/
theorem parseBatchedInstruction_count_zero_fails :
    (parseBatchedInstruction ⟨0, 1, 0⟩ exampleForest).map (snapshot 8) = .error .nullDeref := by
  decide

theorem batchedLoop_add (h : Heap) (top : Option Nat) (n : Nat) :
    ∀ (j : Nat) (bottom : Option Nat),
      batchedLoop (n + j) h top bottom =
        (batchedLoop j h top bottom >>= fun b => batchedLoop n h top b) := by
  intro j
  induction j with
  | zero => intro bottom; simp [batchedLoop, bind, Except.bind]
  | succ j ih =>
    intro bottom
    rw [← Nat.add_assoc]
    cases bottom with
    | none =>
      simp only [batchedLoop]
      exact ih top
    | some a =>
      simp only [batchedLoop, deref]
      cases h a with
      | none => simp [bind, Except.bind]
      | some node =>
        simp only [bind, Except.bind]
        exact ih node.below

theorem batchedLoop_cycle (h : Heap) (top : Option Nat) (cells : List Nat)
    (hc : isChain h top cells = true) :
    batchedLoop (cells.length + 1) h top none = .ok none := by
  rw [batchedLoop_from_top h top cells hc cells.length (Nat.le_refl _)]
  simp

/-- Running off the bottom, the walk of the batched move starts again from the
top: on a stack of depth `d` a count `c` ends where the count `c mod (d + 1)`
ends. -/
theorem batchedLoop_mod (h : Heap) (top : Option Nat) (cells : List Nat)
    (hc : isChain h top cells = true) :
    ∀ c : Nat, batchedLoop c h top none = batchedLoop (c % (cells.length + 1)) h top none := by
  intro c
  induction c using Nat.strong_induction_on with
  | _ c ih =>
    by_cases hlt : c < cells.length + 1
    · rw [Nat.mod_eq_of_lt hlt]
    · have hge : cells.length + 1 ≤ c := Nat.le_of_not_lt hlt
      have hsplit : c = (c - (cells.length + 1)) + (cells.length + 1) := by omega
      have hmod : c % (cells.length + 1) = (c - (cells.length + 1)) % (cells.length + 1) :=
        Nat.mod_eq_sub_mod hge
      rw [hmod, ← ih (c - (cells.length + 1)) (by omega)]
      conv => lhs; rw [hsplit]
      rw [batchedLoop_add, batchedLoop_cycle h top cells hc]
      rfl

/-- C17 as amended. The executor has no underflow check. In a forest of
pairwise-disjoint, null-terminated stacks, under the batched policy a count `c`
(within `int`) on a stack `from` of depth `d` acts as the count
`c mod (d + 1)` does: when that is 0, as for `c = d + 1` and for every count on
an empty `from`, `bottom->below` is read through `NULL` before any stack or
node is written; otherwise the call is the move of `c mod (d + 1)` crates.
Under the sequential policy a count of 1 or more on an empty `from` reads
`from->below` through `NULL` before any stack or node is written. -/
theorem executor_count_beyond_depth (m : Forest) (cells : List (List Nat)) (f c : Nat) (t : Int)
    (hwf : WellFormed m cells) (hf : f < cells.length) (hint : c < 2147483648) :
    parseBatchedInstruction ⟨c, f, t⟩ m =
      parseBatchedInstruction ⟨((c % ((cells.getD f []).length + 1) : Nat) : Int), f, t⟩ m ∧
    (c % ((cells.getD f []).length + 1) = 0 →
      parseBatchedInstruction ⟨c, f, t⟩ m = .error .nullDeref) ∧
    (∀ t2 : Nat, t2 < cells.length → cells.getD f [] = [] → 1 ≤ c →
      parseSequentialInstruction ⟨c, f, t2⟩ m = .error .nullDeref) := by
  obtain ⟨hlen, hchain, -⟩ := hwf
  have hfa : f < m.stackArray.length := hlen ▸ hf
  have hcf := hchain f hf
  have hmodlt : c % ((cells.getD f []).length + 1) < 2147483648 :=
    Nat.lt_of_le_of_lt (Nat.mod_le _ _) hint
  have hsz : toSizeT (c : Int) = c := toSizeT_natCast _ (by omega)
  have hsz2 : toSizeT ((c % ((cells.getD f []).length + 1) : Nat) : Int)
      = c % ((cells.getD f []).length + 1) := toSizeT_natCast _ (by omega)
  have heq : parseBatchedInstruction ⟨c, f, t⟩ m =
      parseBatchedInstruction ⟨((c % ((cells.getD f []).length + 1) : Nat) : Int), f, t⟩ m := by
    simp only [parseBatchedInstruction, hsz, hsz2, readStack_ok _ f hfa, bind, Except.bind]
    rw [batchedLoop_mod m.heap _ _ hcf c]
  refine ⟨heq, ?_, ?_⟩
  · intro h0
    rw [heq, h0]
    have hz : toSizeT ((0 : Nat) : Int) = 0 := rfl
    simp only [parseBatchedInstruction, readStack_ok _ f hfa, hz, batchedLoop, deref, bind,
      Except.bind]
  · intro t2 ht2 hempty hc1
    have hta : t2 < m.stackArray.length := hlen ▸ ht2
    rw [hempty] at hcf
    have hhead : m.stackArray.getD f none = none := (isChain_nil _ _).1 hcf
    obtain ⟨n, rfl⟩ : ∃ n, c = n + 1 := ⟨c - 1, by omega⟩
    simp only [parseSequentialInstruction, readStack_ok _ f hfa, readStack_ok _ t2 hta, hsz,
      hhead, sequentialLoop, deref, bind, Except.bind]

/-- C17 as amended, on the forest with an empty middle stack: count 1 on the
empty stack 1. -/
theorem executor_count_beyond_depth_witness :
    WellFormed gapForest gapCells ∧
    (parseBatchedInstruction ⟨((1 : Nat) : Int), ((1 : Nat) : Int), 0⟩ gapForest =
      parseBatchedInstruction
        ⟨((1 % ((gapCells.getD 1 []).length + 1) : Nat) : Int), ((1 : Nat) : Int), 0⟩ gapForest ∧
    (1 % ((gapCells.getD 1 []).length + 1) = 0 →
      parseBatchedInstruction ⟨((1 : Nat) : Int), ((1 : Nat) : Int), 0⟩ gapForest
        = .error .nullDeref) ∧
    (∀ t2 : Nat, t2 < gapCells.length → gapCells.getD 1 [] = [] → 1 ≤ 1 →
      parseSequentialInstruction ⟨((1 : Nat) : Int), ((1 : Nat) : Int), t2⟩ gapForest
        = .error .nullDeref)) :=
  ⟨by decide, executor_count_beyond_depth gapForest gapCells 1 1 0
    (by decide) (by decide) (by decide)⟩

/-- C17 fails as stated: on the canonical forest stack 0 holds two crates, yet
the batched move of four crates from stack 0 to stack 2 completes, having
moved the one crate `N`, with no failure raised; and the sequential move of
three crates from stack 0 to stack 2 completes too, leaving the head node `N`
linked to itself at the head of both stacks. -/
theorem executor_accepts_underflow :
    (parseBatchedInstruction ⟨4, 0, 2⟩ exampleForest).map (snapshot 8)
        = .ok [some ['Z'], some ['D', 'C', 'M'], some ['N', 'P']] ∧
    (parseSequentialInstruction ⟨3, 0, 2⟩ exampleForest).map
        (fun m => (m.stackArray, m.heap 0))
      = .ok ([some 0, some 2, some 0], some ⟨'N', some 0⟩) := by
  decide

theorem isSeparator_spec (s : Char) (h : isSeparator s = true) :
    s ≠ '\n' ∧ ¬ (48 ≤ s.toNat ∧ s.toNat ≤ 57) := by
  simp only [isSeparator, Bool.and_eq_true, decide_eq_true_eq, Bool.not_eq_true',
    decide_eq_false_iff_not] at h
  exact h

theorem charAt_skip (A w B : List Char) (s : Char) (k : Nat) (hw : w.length = k) :
    charAt (A ++ w ++ s :: B) (A.length + k) = .ok s := by
  have := charAt_append_cons (A ++ w) B s
  simpa [hw] using this

theorem readLoop_skip_to (A w B : List Char) (s : Char) (hw : w.length = 3)
    (hs : isSeparator s = true) (fuel : Nat) (radix current : Int) (instruction : Instruction) :
    readLoop (A ++ w ++ s :: B) (fuel + 1) (A.length + 4) radix current .TO instruction =
      readLoop (A ++ w ++ s :: B) fuel A.length 1 0 .FROM
        { instruction with to_ := wrapInt (current - 1) } := by
  obtain ⟨hs1, hs2⟩ := isSeparator_spec s hs
  have hch := charAt_skip A w B s 3 hw
  have h1 : A.length + 4 - 1 = A.length + 3 := rfl
  have h3 : ¬ (A.length + 3 < 3) := by omega
  simp only [readLoop, Nat.add_eq_zero, OfNat.ofNat_ne_zero, and_false, if_false, h1, hch, bind,
    Except.bind]
  simp [h3, hs1, hs2]

theorem readLoop_skip_from (A w B : List Char) (s : Char) (hw : w.length = 5)
    (hs : isSeparator s = true) (fuel : Nat) (radix current : Int) (instruction : Instruction) :
    readLoop (A ++ w ++ s :: B) (fuel + 1) (A.length + 6) radix current .FROM instruction =
      readLoop (A ++ w ++ s :: B) fuel A.length 1 0 .COUNT
        { instruction with from_ := wrapInt (current - 1) } := by
  obtain ⟨hs1, hs2⟩ := isSeparator_spec s hs
  have hch := charAt_skip A w B s 5 hw
  have h1 : A.length + 6 - 1 = A.length + 5 := rfl
  have h3 : ¬ (A.length + 5 < 5) := by omega
  simp only [readLoop, Nat.add_eq_zero, OfNat.ofNat_ne_zero, and_false, if_false, h1, hch, bind,
    Except.bind]
  simp [h3, hs1, hs2]

theorem readLoop_skip_count (A w B : List Char) (s : Char) (hw : w.length = 4)
    (hs : isSeparator s = true) (fuel : Nat) (radix current : Int) (instruction : Instruction) :
    readLoop (A ++ w ++ s :: B) (fuel + 1) (A.length + 5) radix current .COUNT instruction =
      readLoop (A ++ w ++ s :: B) fuel A.length 1 0 .COUNT
        { instruction with count := current } := by
  obtain ⟨hs1, hs2⟩ := isSeparator_spec s hs
  have hch := charAt_skip A w B s 4 hw
  have h1 : A.length + 5 - 1 = A.length + 4 := rfl
  have h3 : ¬ (A.length + 4 < 4) := by omega
  simp only [readLoop, Nat.add_eq_zero, OfNat.ofNat_ne_zero, and_false, if_false, h1, hch, bind,
    Except.bind]
  simp [h3, hs1, hs2]

/-- C20 as amended. `readInstruction` makes no grammar check and reports no
failure for a malformed line. Called just past a line that follows a line
break and is made of four characters, a separator, a run of digits, five
characters, a separator, a run of digits, three characters, a separator and a
run of digits (a separator being any character that is neither a digit nor a
line break, a run being possibly empty with its value within `int`), it
returns the count, `from - 1` and `to - 1` read from the three runs, whatever
the other characters are: a misspelt keyword or a missing number is accepted.
Called just past an empty line it returns its unset record. -/
theorem readInstruction_no_grammar_check (pre suf w1 dc w2 df w3 dt : List Char)
    (s1 s2 s3 : Char) (init : Instruction)
    (hw1 : w1.length = 4) (hw2 : w2.length = 5) (hw3 : w3.length = 3)
    (hs1 : isSeparator s1 = true) (hs2 : isSeparator s2 = true) (hs3 : isSeparator s3 = true)
    (hdc : ∀ d ∈ dc, 48 ≤ d.toNat ∧ d.toNat ≤ 57) (hdf : ∀ d ∈ df, 48 ≤ d.toNat ∧ d.toNat ≤ 57)
    (hdt : ∀ d ∈ dt, 48 ≤ d.toNat ∧ d.toNat ≤ 57)
    (hcr : decimal dc < 2147483648) (hfr : decimal df < 2147483648)
    (htr : decimal dt < 2147483648) :
    readInstruction (pre ++ '\n' :: shapedLine w1 s1 dc w2 s2 df w3 s3 dt ++ suf)
        (pre.length + 1 + (shapedLine w1 s1 dc w2 s2 df w3 s3 dt).length) init
      = .ok ⟨decimal dc, (decimal df : Int) - 1, (decimal dt : Int) - 1⟩ ∧
    readInstruction (pre ++ '\n' :: suf) (pre.length + 1) init = .ok init := by
  refine ⟨?_, readLoop_line_break pre suf _ _ _ _ _⟩
  have e1 : pre ++ '\n' :: shapedLine w1 s1 dc w2 s2 df w3 s3 dt ++ suf =
      (pre ++ '\n' :: w1 ++ s1 :: dc ++ w2 ++ s2 :: df ++ w3 ++ [s3]) ++ dt ++ suf := by
    simp [shapedLine]
  have e2 : (pre ++ '\n' :: w1 ++ s1 :: dc ++ w2 ++ s2 :: df ++ w3 ++ [s3]) ++ dt ++ suf =
      (pre ++ '\n' :: w1 ++ s1 :: dc ++ w2 ++ s2 :: df) ++ w3 ++ s3 :: (dt ++ suf) := by
    simp
  have e3 : (pre ++ '\n' :: w1 ++ s1 :: dc ++ w2 ++ s2 :: df) ++ w3 ++ s3 :: (dt ++ suf) =
      (pre ++ '\n' :: w1 ++ s1 :: dc ++ w2 ++ [s2]) ++ df ++ (w3 ++ s3 :: (dt ++ suf)) := by
    simp
  have e4 : (pre ++ '\n' :: w1 ++ s1 :: dc ++ w2 ++ [s2]) ++ df ++ (w3 ++ s3 :: (dt ++ suf)) =
      (pre ++ '\n' :: w1 ++ s1 :: dc) ++ w2 ++ s2 :: (df ++ (w3 ++ s3 :: (dt ++ suf))) := by
    simp
  have e5 : (pre ++ '\n' :: w1 ++ s1 :: dc) ++ w2 ++ s2 :: (df ++ (w3 ++ s3 :: (dt ++ suf))) =
      (pre ++ '\n' :: w1 ++ [s1]) ++ dc ++ (w2 ++ s2 :: (df ++ (w3 ++ s3 :: (dt ++ suf)))) := by
    simp
  have e6 : (pre ++ '\n' :: w1 ++ [s1]) ++ dc ++ (w2 ++ s2 :: (df ++ (w3 ++ s3 :: (dt ++ suf)))) =
      (pre ++ ['\n']) ++ w1 ++
        s1 :: (dc ++ (w2 ++ s2 :: (df ++ (w3 ++ s3 :: (dt ++ suf))))) := by
    simp
  have e7 : (pre ++ ['\n']) ++ w1 ++
        s1 :: (dc ++ (w2 ++ s2 :: (df ++ (w3 ++ s3 :: (dt ++ suf))))) =
      pre ++ '\n' :: (w1 ++ s1 :: (dc ++ (w2 ++ s2 :: (df ++ (w3 ++ s3 :: (dt ++ suf)))))) := by
    simp
  have p1 : pre.length + 1 + (shapedLine w1 s1 dc w2 s2 df w3 s3 dt).length =
      (pre ++ '\n' :: w1 ++ s1 :: dc ++ w2 ++ s2 :: df ++ w3 ++ [s3]).length + dt.length := by
    simp [shapedLine]
    omega
  have p2 : (pre ++ '\n' :: w1 ++ s1 :: dc ++ w2 ++ s2 :: df ++ w3 ++ [s3]).length =
      (pre ++ '\n' :: w1 ++ s1 :: dc ++ w2 ++ s2 :: df).length + 4 := by
    simp [hw3]
    try omega
  have p3 : (pre ++ '\n' :: w1 ++ s1 :: dc ++ w2 ++ s2 :: df).length =
      (pre ++ '\n' :: w1 ++ s1 :: dc ++ w2 ++ [s2]).length + df.length := by
    simp
    try omega
  have p4 : (pre ++ '\n' :: w1 ++ s1 :: dc ++ w2 ++ [s2]).length =
      (pre ++ '\n' :: w1 ++ s1 :: dc).length + 6 := by
    simp [hw2]
    try omega
  have p5 : (pre ++ '\n' :: w1 ++ s1 :: dc).length =
      (pre ++ '\n' :: w1 ++ [s1]).length + dc.length := by
    simp
    try omega
  have p6 : (pre ++ '\n' :: w1 ++ [s1]).length = (pre ++ ['\n']).length + 5 := by
    simp [hw1]
  have p7 : (pre ++ ['\n']).length = pre.length + 1 := by simp
  unfold readInstruction
  rw [e1, p1, readLoop_digits_le dt _ suf hdt _ (by omega)]
  rw [e2, p2, show (pre ++ '\n' :: w1 ++ s1 :: dc ++ w2 ++ s2 :: df).length + 4 + dt.length + 1
        - dt.length = ((pre ++ '\n' :: w1 ++ s1 :: dc ++ w2 ++ s2 :: df).length + 4) + 1 by omega,
    readLoop_skip_to _ w3 _ s3 hw3 hs3]
  rw [e3, p3, readLoop_digits_le df _ _ hdf _ (by omega)]
  rw [e4, p4, show (pre ++ '\n' :: w1 ++ s1 :: dc).length + 6 + df.length + 4 - df.length
        = ((pre ++ '\n' :: w1 ++ s1 :: dc).length + 9) + 1 by omega,
    readLoop_skip_from _ w2 _ s2 hw2 hs2]
  rw [e5, p5, readLoop_digits_le dc _ _ hdc _ (by omega)]
  rw [e6, p6, show (pre ++ ['\n']).length + 5 + dc.length + 9 - dc.length
        = ((pre ++ ['\n']).length + 13) + 1 by omega,
    readLoop_skip_count _ w1 _ s1 hw1 hs1]
  rw [e7, p7, show pre.length + 1 + 13 = (pre.length + 13) + 1 by omega, readLoop_line_break]
  have v1 : wrapInt (decimal dc : Int) = decimal dc := wrapInt_of_range _ (by omega) (by omega)
  have v2 : wrapInt (wrapInt (decimal df : Int) - 1) = (decimal df : Int) - 1 := by
    rw [wrapInt_of_range (decimal df : Int) (by omega) (by omega)]
    exact wrapInt_of_range _ (by omega) (by omega)
  have v3 : wrapInt (wrapInt (decimal dt : Int) - 1) = (decimal dt : Int) - 1 := by
    rw [wrapInt_of_range (decimal dt : Int) (by omega) (by omega)]
    exact wrapInt_of_range _ (by omega) (by omega)
  rw [v1, v2, v3]

/-- C20 as amended, on the line `mvoe 3 fram  to 12` (two keywords misspelt,
the second number missing) after a line break. -/
theorem readInstruction_no_grammar_check_witness :
    ("mvoe".toList.length = 4 ∧ " fram".toList.length = 5 ∧ " to".toList.length = 3) ∧
    (isSeparator ' ' = true) ∧
    ((∀ d ∈ "3".toList, 48 ≤ d.toNat ∧ d.toNat ≤ 57) ∧
      (∀ d ∈ "".toList, 48 ≤ d.toNat ∧ d.toNat ≤ 57) ∧
      (∀ d ∈ "12".toList, 48 ≤ d.toNat ∧ d.toNat ≤ 57)) ∧
    (decimal "3".toList < 2147483648 ∧ decimal "".toList < 2147483648 ∧
      decimal "12".toList < 2147483648) ∧
    (readInstruction
        ([] ++ '\n' ::
          shapedLine "mvoe".toList ' ' "3".toList " fram".toList ' ' "".toList " to".toList ' '
            "12".toList ++ [])
        (([] : List Char).length + 1 +
          (shapedLine "mvoe".toList ' ' "3".toList " fram".toList ' ' "".toList " to".toList ' '
            "12".toList).length) ⟨7, 7, 7⟩
      = .ok ⟨decimal "3".toList, (decimal "".toList : Int) - 1, (decimal "12".toList : Int) - 1⟩ ∧
    readInstruction ([] ++ '\n' :: []) (([] : List Char).length + 1) ⟨7, 7, 7⟩ = .ok ⟨7, 7, 7⟩) :=
  ⟨by decide, by decide, by decide, by decide,
    readInstruction_no_grammar_check [] [] "mvoe".toList "3".toList " fram".toList "".toList
      " to".toList "12".toList ' ' ' ' ' ' ⟨7, 7, 7⟩ (by decide) (by decide) (by decide)
      (by decide) (by decide) (by decide) (by decide) (by decide) (by decide) (by decide)
      (by decide) (by decide)⟩

/-- C20 fails as stated: the line `move 1 fram 2 to 1`, with a misspelt
keyword, yields the record of `move 1 from 2 to 1`, and the empty line after
`move 1 from 2 to 1` yields the unset record; neither is rejected. -/
theorem readInstruction_accepts_malformed :
    readInstruction "\nmove 1 fram 2 to 1".toList 19 ⟨7, 7, 7⟩ = .ok ⟨1, 1, 0⟩ ∧
    readInstruction "move 1 from 2 to 1\n\n".toList 19 ⟨7, 7, 7⟩ = .ok ⟨7, 7, 7⟩ := by
  decide

set_option maxRecDepth 4000 in
/-- C19 fails on the code: on the three-row diagram followed by two directive
lines neither driver applies an instruction; both stop in `loadStacks`, which
leaves the `builders` array on the second row. Where `loadStacks` does return,
as on the six-row diagram, `partTwo` applies the record of the first line and
then the record of the second to the forest that was loaded, and prints its
tops. -/
theorem drivers_apply_nothing_after_loader_fault :
    (∀ junk init, partOne threeRowTwoMoves junk init = .error .arrayBounds) ∧
    (∀ junk init, partTwo threeRowTwoMoves junk init = .error .arrayBounds) ∧
    partTwo sixRowTwoMoves (fun _ => none) ⟨7, 7, 7⟩ =
      (loadStacks sixRowTwoMoves (fun _ => none) >>= fun l =>
        parseBatchedInstruction ⟨1, 0, 1⟩ l.forest >>= parseBatchedInstruction ⟨2, 1, 0⟩
          >>= fun m => reportTops m 2) :=
  ⟨fun _ _ => rfl, fun _ _ => rfl, by decide⟩

theorem sameSkeleton_length : ∀ (a b : List Char), sameSkeleton a b = true → a.length = b.length
  | [], [], _ => rfl
  | [], _ :: _, h => by simp [sameSkeleton] at h
  | _ :: _, [], h => by simp [sameSkeleton] at h
  | x :: xs, y :: ys, h => by
    simp only [sameSkeleton, Bool.and_eq_true] at h
    simp [sameSkeleton_length xs ys h.2]

theorem sameSkeleton_indexOf : ∀ (a b : List Char), sameSkeleton a b = true →
    a.indexOf '\n' = b.indexOf '\n'
  | [], [], _ => rfl
  | [], _ :: _, h => by simp [sameSkeleton] at h
  | _ :: _, [], h => by simp [sameSkeleton] at h
  | x :: xs, y :: ys, h => by
    simp only [sameSkeleton, Bool.and_eq_true] at h
    have hnl : (x = '\n') ↔ (y = '\n') := by simpa using h.1.1.2
    have ih := sameSkeleton_indexOf xs ys h.2
    by_cases hx : x = '\n'
    · have hy := hnl.1 hx
      simp [List.indexOf_cons, hx, hy]
    · have hy : ¬ y = '\n' := fun e => hx (hnl.2 e)
      simp [List.indexOf_cons, hx, hy, ih]

theorem sameSkeleton_getElem? : ∀ (a b : List Char), sameSkeleton a b = true →
    ∀ (i : Nat) (x : Char), a[i]? = some x →
      ∃ y, b[i]? = some y ∧ (x = '[' ↔ y = '[') ∧ (x = '\n' ↔ y = '\n') ∧
        (x = '[' → a[i + 1]? = b[i + 1]?)
  | [], _, _, i, x, hx => by simp at hx
  | _ :: _, [], h, _, _, _ => by simp [sameSkeleton] at h
  | x0 :: xs, y0 :: ys, h, i, x, hx => by
    simp only [sameSkeleton, Bool.and_eq_true] at h
    cases i with
    | zero =>
      simp only [List.getElem?_cons_zero, Option.some.injEq] at hx
      subst hx
      refine ⟨y0, by simp, by simpa using h.1.1.1, by simpa using h.1.1.2, ?_⟩
      intro hb
      have h3 := h.1.2
      simp only [hb, if_true, beq_iff_eq] at h3
      simpa [List.head?_eq_getElem?] using h3
    | succ i =>
      simp only [List.getElem?_cons_succ] at hx
      obtain ⟨y, hy, r1, r2, r3⟩ := sameSkeleton_getElem? xs ys h.2 i x hx
      exact ⟨y, by simpa using hy, r1, r2, by simpa using r3⟩

theorem charAt_skeleton (a b : List Char) (h : sameSkeleton a b = true) (i : Nat) :
    (∃ e, charAt a i = .error e ∧ charAt b i = .error e) ∨
    (∃ x y, charAt a i = .ok x ∧ charAt b i = .ok y ∧ (x = '[' ↔ y = '[') ∧
      (x = '\n' ↔ y = '\n') ∧ (x = '[' → charAt a (i + 1) = charAt b (i + 1))) := by
  have hlen := sameSkeleton_length a b h
  cases hx : a[i]? with
  | some x =>
    obtain ⟨y, hy, r1, r2, r3⟩ := sameSkeleton_getElem? a b h i x hx
    refine Or.inr ⟨x, y, by simp [charAt, hx], by simp [charAt, hy], r1, r2, ?_⟩
    intro hb
    have := r3 hb
    simp only [charAt, this, hlen]
  | none =>
    have hi : a.length ≤ i := by
      by_contra hlt
      rw [List.getElem?_eq_getElem (Nat.lt_of_not_le hlt)] at hx
      exact absurd hx (by simp)
    have hy : b[i]? = none := List.getElem?_eq_none (hlen ▸ hi)
    by_cases hil : i = a.length
    · refine Or.inr ⟨Char.ofNat 0, Char.ofNat 0, by simp [charAt, hx, hil],
        by simp [charAt, hy, hil, hlen], by decide, by decide, ?_⟩
      intro hb
      exact absurd hb (by decide)
    · refine Or.inl ⟨.textBounds, by simp [charAt, hx, hil], ?_⟩
      have hil2 : ¬ i = b.length := hlen ▸ hil
      simp [charAt, hy, hil2]

theorem rowLoop_skeleton (a b : List Char) (h : sameSkeleton a b = true) (lineLength : Nat) :
    ∀ (fuel : Nat) (s : LoadState), rowLoop a lineLength fuel s = rowLoop b lineLength fuel s := by
  intro fuel
  induction fuel with
  | zero => intro s; rfl
  | succ fuel ih =>
    intro s
    simp only [rowLoop]
    by_cases hlt : s.index < lineLength
    · simp only [hlt, if_true]
      rcases charAt_skeleton a b h s.index with ⟨e, ha, hb⟩ | ⟨x, y, ha, hb, r1, _, r3⟩
      · simp [ha, hb, bind, Except.bind]
      · simp only [ha, hb, bind, Except.bind]
        by_cases hx : x = '['
        · have hy : y = '[' := r1.1 hx
          simp only [hx, hy, if_true, ← r3 hx]
          rw [hx] at ha
          cases charAt a (s.index + 1) with
          | error e => rfl
          | ok value =>
            simp only
            split
            · rfl
            · simp only [ih]
            · cases deref s.heap (some _) with
              | error e => rfl
              | ok p => simp only [ih]
        · have hy : ¬ y = '[' := fun e => hx (r1.2 e)
          simp only [hx, hy, if_false, ih]
    · simp only [hlt, if_false]

theorem diagramLoop_skeleton (a b : List Char) (h : sameSkeleton a b = true) (lineEnd : Nat) :
    ∀ (fuel lineLength : Nat) (s : LoadState),
      diagramLoop a lineEnd fuel lineLength s = diagramLoop b lineEnd fuel lineLength s := by
  intro fuel
  induction fuel with
  | zero => intro _ s; rfl
  | succ fuel ih =>
    intro lineLength s
    simp only [diagramLoop, bind, Except.bind]
    rcases charAt_skeleton a b h s.index with ⟨e, ha, hb⟩ | ⟨x, y, ha, hb, _, r2, _⟩
    · simp [ha, hb]
    · simp only [ha, hb]
      by_cases hx : x = '\n'
      · have hy : y = '\n' := r2.1 hx
        simp only [hx, hy, if_true]
      · have hy : ¬ y = '\n' := fun e => hx (r2.2 e)
        simp only [hx, hy, if_false, rowLoop_skeleton a b h, sameSkeleton_length a b h]
        cases rowLoop b lineLength (b.length + 2) { s with column := 0 } with
        | error e => rfl
        | ok s2 => exact ih _ _

/-- C21 as amended. `loadStacks` makes no check of the diagram and has no
failure for a malformed one. It looks only at which characters are `[`, which
are line breaks, and which character follows a `[`: two texts that agree in
these respects get the same outcome, whatever their other characters are. A
diagram with stray characters where spaces or closing brackets are expected is
loaded exactly as the diagram without them. -/
theorem loadStacks_sees_only_skeleton (a b : List Char) (junk : Nat → Option Nat)
    (h : sameSkeleton a b = true) : loadStacks a junk = loadStacks b junk := by
  have hlen := sameSkeleton_length a b h
  have hidx := sameSkeleton_indexOf a b h
  have hhead : lineHeader a = lineHeader b := by
    simp only [lineHeader, hidx, hlen]
  simp only [loadStacks, hhead, hlen, diagramLoop_skeleton a b h]

/-- C21 as amended, on the one-column diagram with `}` for `]` and the same
diagram spelt right. -/
theorem loadStacks_sees_only_skeleton_witness :
    sameSkeleton strayBraceInput oneColumnInput = true ∧
    loadStacks strayBraceInput (fun _ => none) = loadStacks oneColumnInput (fun _ => none) :=
  ⟨by decide, loadStacks_sees_only_skeleton strayBraceInput oneColumnInput (fun _ => none)
    (by decide)⟩

/-- C21 fails as stated: the one-column diagram whose first row is `[A}`, with
`}` where the closing bracket is expected, is not refused; `loadStacks`
returns the stack `[A, B]`. -/
theorem loadStacks_accepts_stray_brace :
    (loadStacks strayBraceInput (fun _ => none)).map
        (fun l => (l.index, l.numberOfColumns, snapshot 8 l.forest))
      = .ok (14, 1, [some ['A', 'B']]) := by
  decide

/-- C29 fails on the code: after the sequential move of two crates from stack 1
to stack 0 of the canonical forest, the node of crate `D` at address 2 has
itself below it and heads both stacks, so neither stack is a null-terminated
chain and the walk of `freeStacks` reads the node again after releasing it.
After the batched move of the same instruction, and after the sequential move
with count 0, `freeStacks` releases all six nodes. -/
theorem sequential_move_makes_a_cycle :
    (parseSequentialInstruction ⟨2, 1, 0⟩ exampleForest).toOption.map
        (fun m => (m.stackArray, m.heap 2)) = some ([some 2, some 2, some 5], some ⟨'D', some 2⟩) ∧
    (parseSequentialInstruction ⟨2, 1, 0⟩ exampleForest >>= fun m => freeStacks m 3 8).map
        (fun h => (List.range 6).map (fun a => (h a).isSome)) = .error .wildDeref ∧
    (parseBatchedInstruction ⟨2, 1, 0⟩ exampleForest >>= fun m => freeStacks m 3 8).map
        (fun h => (List.range 6).map (fun a => (h a).isSome))
      = .ok [false, false, false, false, false, false] ∧
    (parseSequentialInstruction ⟨0, 1, 0⟩ exampleForest >>= fun m => freeStacks m 3 8).map
        (fun h => (List.range 6).map (fun a => (h a).isSome))
      = .ok [false, false, false, false, false, false] := by
  decide

set_option maxRecDepth 20000 in
/-- C28 fails on the code: `loadStacks` writes a cell of the `stacks` array
only when it meets a crate of that column; the array comes unset from `malloc`
and only `builders` is cleared. On the one-column diagram without a crate the
head handed back is whatever the unset cell held, `junk 0`, not `NULL`; and
after the first row of the canonical diagram, `    [D]    `, the cells of
columns 1 and 3 still hold what they held. -/
theorem loadStacks_leaves_empty_column_unset (junk : Nat → Option Nat) :
    (loadStacks emptyColumnInput junk).map (fun l => (l.numberOfColumns, l.forest.stackArray))
      = .ok (1, [junk 0]) ∧
    (rowLoop canonicalInput 12 14
        ⟨0, 0, fun _ => none, 0, [junk 0, junk 1, junk 2], [none, none, none]⟩).map
        (fun s => (s.index, s.stackArray)) = .ok (12, [junk 0, some 0, junk 2]) :=
  ⟨rfl, rfl⟩

theorem rowLoop_succ (input : List Char) (lineLength fuel : Nat) (s : LoadState) :
    rowLoop input lineLength (fuel + 1) s =
      if s.index < lineLength then rowStep input s >>= fun s2 => rowLoop input lineLength fuel s2
      else .ok s := by
  conv_lhs => unfold rowLoop
  unfold rowStep
  by_cases hlt : s.index < lineLength
  · simp only [hlt, if_true, bind, Except.bind]
    cases charAt input s.index with
    | error e => rfl
    | ok c =>
      simp only []
      by_cases hb : c = '['
      · simp only [hb, if_true]
        cases charAt input (s.index + 1) with
        | error e => rfl
        | ok value =>
          simp only []
          cases s.builders[s.column]? with
          | none => rfl
          | some b =>
            cases b with
            | none =>
              simp only []
              by_cases hcol : s.column < s.stackArray.length
              · simp only [hcol, if_true]
              · simp only [hcol, if_false]
            | some b =>
              simp only []
              cases deref s.heap (some b) with
              | error e => rfl
              | ok p => rfl
      · simp only [hb, if_false]
  · simp only [hlt, if_false]

theorem charAt_append_left (t r : List Char) (i : Nat) (h : i < t.length) :
    charAt (t ++ r) i = charAt t i := by
  simp only [charAt, List.getElem?_append_left h]
  rw [List.getElem?_eq_getElem h]

theorem charAt_line_break_lt (t : List Char) (i : Nat) (h : charAt t i = .ok '\n') :
    i < t.length := by
  by_contra hge
  have hnone : t[i]? = none := List.getElem?_eq_none (by omega)
  simp only [charAt, hnone] at h
  split at h
  · injection h with h
    exact absurd h (by decide)
  · exact absurd h (by simp)

theorem rowStep_index (input : List Char) (s s2 : LoadState) (h : rowStep input s = .ok s2) :
    s2.index = s.index + 4 := by
  unfold rowStep at h
  simp only [bind, Except.bind] at h
  cases hc : charAt input s.index with
  | error e => simp [hc] at h
  | ok c =>
    rw [hc] at h
    simp only [] at h
    by_cases hb : c = '['
    · simp only [hb, if_true] at h
      cases hv : charAt input (s.index + 1) with
      | error e => simp [hv] at h
      | ok value =>
        rw [hv] at h
        simp only [] at h
        cases hbl : s.builders[s.column]? with
        | none => simp [hbl] at h
        | some b =>
          rw [hbl] at h
          cases b with
          | none =>
            simp only [] at h
            by_cases hcol : s.column < s.stackArray.length
            · simp only [hcol, if_true] at h
              injection h with h
              rw [← h]
            · simp [hcol] at h
          | some b =>
            simp only [] at h
            cases hd : deref s.heap (some b) with
            | error e => simp [hd] at h
            | ok p =>
              rw [hd] at h
              simp only [] at h
              injection h with h
              rw [← h]
    · simp only [hb, if_false] at h
      injection h with h
      rw [← h]

theorem rowStep_append (t r : List Char) (s : LoadState) (h : s.index + 1 < t.length) :
    rowStep (t ++ r) s = rowStep t s := by
  unfold rowStep
  rw [charAt_append_left t r s.index (by omega), charAt_append_left t r (s.index + 1) h]

theorem rowLoop_index_mono (input : List Char) (lineLength : Nat) :
    ∀ (fuel : Nat) (s s2 : LoadState), rowLoop input lineLength fuel s = .ok s2 →
      s.index ≤ s2.index := by
  intro fuel
  induction fuel with
  | zero =>
    intro s s2 h
    simp [rowLoop] at h
  | succ fuel ih =>
    intro s s2 h
    rw [rowLoop_succ] at h
    by_cases hlt : s.index < lineLength
    · simp only [hlt, if_true, bind, Except.bind] at h
      cases hs : rowStep input s with
      | error e => simp [hs] at h
      | ok s1 =>
        rw [hs] at h
        have h1 := rowStep_index input s s1 hs
        have h2 := ih s1 s2 h
        omega
    · simp only [hlt, if_false] at h
      injection h with h
      rw [h]

theorem rowLoop_append (t r : List Char) (lineLength : Nat) :
    ∀ (fuel fuel2 : Nat) (s s2 : LoadState), fuel ≤ fuel2 →
      rowLoop t lineLength fuel s = .ok s2 → s2.index ≤ t.length →
      rowLoop (t ++ r) lineLength fuel2 s = .ok s2 := by
  intro fuel
  induction fuel with
  | zero =>
    intro fuel2 s s2 _ h
    simp [rowLoop] at h
  | succ fuel ih =>
    intro fuel2 s s2 hle h hidx
    obtain ⟨fuel3, rfl⟩ : ∃ k, fuel2 = k + 1 := ⟨fuel2 - 1, by omega⟩
    rw [rowLoop_succ] at h ⊢
    by_cases hlt : s.index < lineLength
    · simp only [hlt, if_true, bind, Except.bind] at h ⊢
      cases hs : rowStep t s with
      | error e => simp [hs] at h
      | ok s1 =>
        rw [hs] at h
        have h1 := rowStep_index t s s1 hs
        have h2 := rowLoop_index_mono t lineLength fuel s1 s2 h
        rw [rowStep_append t r s (by omega), hs]
        exact ih fuel3 s1 s2 (by omega) h hidx
    · simp only [hlt, if_false] at h ⊢
      exact h

theorem diagramLoop_index_mono (input : List Char) (lineEnd : Nat) :
    ∀ (fuel lineLength : Nat) (s s2 : LoadState),
      diagramLoop input lineEnd fuel lineLength s = .ok s2 → s.index ≤ s2.index := by
  intro fuel
  induction fuel with
  | zero =>
    intro lineLength s s2 h
    simp [diagramLoop] at h
  | succ fuel ih =>
    intro lineLength s s2 h
    simp only [diagramLoop, bind, Except.bind] at h
    cases hc : charAt input s.index with
    | error e => simp [hc] at h
    | ok c =>
      rw [hc] at h
      simp only [] at h
      by_cases hnl : c = '\n'
      · simp only [hnl, if_true, pure, Except.pure] at h
        injection h with h
        rw [h]
      · simp only [hnl, if_false] at h
        cases hr : rowLoop input lineLength (input.length + 2) { s with column := 0 } with
        | error e => simp [hr] at h
        | ok s1 =>
          rw [hr] at h
          have h1 := rowLoop_index_mono input lineLength _ _ s1 hr
          have h2 := ih _ s1 s2 h
          exact le_trans h1 h2

theorem diagramLoop_append (t r : List Char) (lineEnd : Nat) :
    ∀ (fuel fuel2 lineLength : Nat) (s s2 : LoadState), fuel ≤ fuel2 →
      diagramLoop t lineEnd fuel lineLength s = .ok s2 →
      diagramLoop (t ++ r) lineEnd fuel2 lineLength s = .ok s2 := by
  intro fuel
  induction fuel with
  | zero =>
    intro fuel2 lineLength s s2 _ h
    simp [diagramLoop] at h
  | succ fuel ih =>
    intro fuel2 lineLength s s2 hle h
    obtain ⟨fuel3, rfl⟩ : ∃ k, fuel2 = k + 1 := ⟨fuel2 - 1, by omega⟩
    have hstop := charAt_line_break_lt t s2.index
      (diagramLoop_stops_at_line_break t lineEnd (fuel + 1) lineLength s s2 h)
    have hmono := diagramLoop_index_mono t lineEnd (fuel + 1) lineLength s s2 h
    simp only [diagramLoop, bind, Except.bind] at h ⊢
    rw [charAt_append_left t r s.index (by omega)]
    cases hc : charAt t s.index with
    | error e => simp [hc] at h
    | ok c =>
      rw [hc] at h
      simp only [] at h ⊢
      by_cases hnl : c = '\n'
      · simp only [hnl, if_true, pure, Except.pure] at h ⊢
        exact h
      · simp only [hnl, if_false] at h ⊢
        cases hr : rowLoop t lineLength (t.length + 2) { s with column := 0 } with
        | error e => simp [hr] at h
        | ok s1 =>
          rw [hr] at h
          simp only [] at h
          have h2 := diagramLoop_index_mono t lineEnd fuel _ s1 s2 h
          rw [rowLoop_append t r lineLength (t.length + 2) ((t ++ r).length + 2)
            { s with column := 0 } s1 (by simp) hr (by omega)]
          exact ih fuel3 _ s1 s2 (by omega) h

theorem loadStacks_append (t r : List Char) (junk : Nat → Option Nat) (loaded : Loaded)
    (h : loadStacks t junk = .ok loaded) : loadStacks (t ++ r) junk = .ok loaded := by
  unfold loadStacks at h ⊢
  by_cases hlt : t.indexOf '\n' < t.length
  · have hmem : '\n' ∈ t := List.indexOf_lt_length.1 hlt
    have hidx : (t ++ r).indexOf '\n' = t.indexOf '\n' := List.indexOf_append_of_mem hmem
    have hlt2 : t.indexOf '\n' < (t ++ r).length := by
      rw [List.length_append]
      omega
    simp only [lineHeader, hidx, hlt, hlt2, if_true, bind, Except.bind, pure, Except.pure] at h ⊢
    cases hd : diagramLoop t (t.indexOf '\n' + 1) (t.length + 2) (t.indexOf '\n' + 1)
        { index := 0, column := 0, heap := fun _ => none, next := 0,
          stackArray := (List.range ((t.indexOf '\n' + 1) >>> 2)).map junk,
          builders := List.replicate ((t.indexOf '\n' + 1) >>> 2) none } with
    | error e => simp [hd] at h
    | ok s =>
      rw [hd] at h
      rw [diagramLoop_append t r _ (t.length + 2) ((t ++ r).length + 2) _ _ s (by simp) hd]
      exact h
  · simp [lineHeader, hlt, bind, Except.bind] at h

theorem readLoop_append (t r : List Char) :
    ∀ (fuel position : Nat) (radix current : Int) (state : ReadLineState)
      (instruction : Instruction), position ≤ t.length →
      readLoop (t ++ r) fuel position radix current state instruction =
        readLoop t fuel position radix current state instruction := by
  intro fuel
  induction fuel with
  | zero =>
    intro position radix current state instruction _
    rfl
  | succ fuel ih =>
    intro position radix current state instruction hp
    unfold readLoop
    by_cases h0 : position = 0
    · simp only [h0, if_true]
    · simp only [h0, if_false, bind, Except.bind]
      rw [charAt_append_left t r (position - 1) (by omega)]
      cases charAt t (position - 1) with
      | error e => rfl
      | ok value =>
        simp only []
        by_cases hnl : value = '\n'
        · simp only [hnl, if_true]
        · simp only [hnl, if_false]
          by_cases hd : 48 ≤ value.toNat ∧ value.toNat ≤ 57
          · simp only [hd, and_self, if_true]
            exact ih _ _ _ _ _ (by omega)
          · simp only [hd, if_false]
            cases state with
            | TO =>
              simp only []
              by_cases h3 : position - 1 < 3
              · simp only [h3, if_true]
              · simp only [h3, if_false]
                exact ih _ _ _ _ _ (by omega)
            | FROM =>
              simp only []
              by_cases h3 : position - 1 < 5
              · simp only [h3, if_true]
              · simp only [h3, if_false]
                exact ih _ _ _ _ _ (by omega)
            | COUNT =>
              simp only []
              by_cases h3 : position - 1 < 4
              · simp only [h3, if_true]
              · simp only [h3, if_false]
                exact ih _ _ _ _ _ (by omega)

theorem readInstruction_append (t r : List Char) (position : Nat) (init : Instruction)
    (h : position ≤ t.length) :
    readInstruction (t ++ r) position init = readInstruction t position init := by
  unfold readInstruction
  exact readLoop_append t r _ _ _ _ _ _ h

theorem strchr_append_line_break (t : List Char) (start : Nat) (h : start ≤ t.length) :
    strchr (t ++ ['\n']) start '\n' =
      .ok (some (match strchr t start '\n' with
        | .ok (some e) => e
        | _ => t.length)) ∧
    (strchr t start '\n' = .ok none ∨
      ∃ e, strchr t start '\n' = .ok (some e) ∧ start ≤ e ∧ e < t.length) := by
  have hdrop : (t ++ ['\n']).drop start = t.drop start ++ ['\n'] :=
    List.drop_append_of_le_length h
  have hlen : (t.drop start).length = t.length - start := List.length_drop _ _
  have e1 : strchr t start '\n' =
      if (t.drop start).indexOf '\n' < (t.drop start).length
      then .ok (some (start + (t.drop start).indexOf '\n')) else .ok none := by
    simp only [strchr, if_neg (not_lt.2 h)]
  have e2 : strchr (t ++ ['\n']) start '\n' =
      if (t.drop start ++ ['\n']).indexOf '\n' < (t.drop start ++ ['\n']).length
      then .ok (some (start + (t.drop start ++ ['\n']).indexOf '\n')) else .ok none := by
    have h2 : ¬ (t ++ ['\n']).length < start := by
      rw [List.length_append]
      omega
    simp only [strchr, if_neg h2, hdrop]
  rw [e1, e2]
  by_cases hmem : '\n' ∈ t.drop start
  · have hidx := List.indexOf_lt_length.2 hmem
    rw [List.indexOf_append_of_mem hmem, if_pos hidx,
      if_pos (by rw [List.length_append]; omega)]
    exact ⟨rfl, Or.inr ⟨_, rfl, by omega, by omega⟩⟩
  · have hidx : ¬ (t.drop start).indexOf '\n' < (t.drop start).length := by
      rw [List.indexOf_lt_length]
      exact hmem
    rw [List.indexOf_append_of_not_mem hmem, if_neg hidx,
      if_pos (by simp)]
    refine ⟨?_, Or.inl rfl⟩
    simp only [List.indexOf_cons_self, Nat.add_zero]
    congr 2
    omega

theorem strchr_past_line_break (t : List Char) :
    strchr (t ++ ['\n']) (t.length + 1) '\n' = .ok none := by
  unfold strchr
  simp

theorem instructionLoop_append (policy : Instruction → Forest → Except Fault Forest)
    (t : List Char) (init : Instruction) :
    ∀ (fuel start : Nat) (m : Forest), start ≤ t.length → t.length + 1 - start ≤ fuel →
      instructionLoop policy (t ++ ['\n']) init (fuel + 1) start m =
        (instructionLoop policy t init fuel start m >>= fun m2 =>
          readInstruction t t.length init >>= fun instruction => policy instruction m2) := by
  intro fuel
  induction fuel with
  | zero =>
    intro start m h1 h2
    omega
  | succ fuel ih =>
    intro start m h1 h2
    obtain ⟨hext, hcase⟩ := strchr_append_line_break t start h1
    conv_lhs => unfold instructionLoop
    conv_rhs => unfold instructionLoop
    simp only [bind, Except.bind, hext]
    rcases hcase with hnone | ⟨e, hsome, he1, he2⟩
    · rw [hnone]
      simp only [pure, Except.pure]
      rw [readInstruction_append t ['\n'] t.length init (le_refl _)]
      cases readInstruction t t.length init with
      | error err => rfl
      | ok instruction =>
        simp only []
        cases policy instruction m with
        | error err => rfl
        | ok m2 =>
          simp only []
          unfold instructionLoop
          simp only [bind, Except.bind, strchr_past_line_break, pure, Except.pure]
    · rw [hsome]
      simp only []
      rw [readInstruction_append t ['\n'] e init (by omega)]
      cases readInstruction t e init with
      | error err => rfl
      | ok instruction =>
        simp only []
        cases policy instruction m with
        | error err => rfl
        | ok m2 =>
          simp only []
          exact ih (e + 1) m2 (by omega) (by omega)

/-- C27 as amended. Take a text on which `loadStacks` returns an offset within
the text. On the text with one line break appended, the last call
`readInstruction(input + strlen(input))` meets that line break at once and
returns its unset record, and each driver does what it does on the text itself
(the same loaded forest, the same instructions in the same order, the record
of the last line included) and then applies the unset record as one more
instruction before it prints the tops. -/
theorem drivers_apply_unset_record_after_final_line_break (t : List Char)
    (junk : Nat → Option Nat) (init : Instruction) (h : loadsWithin t junk = true) :
    readInstruction (t ++ ['\n']) (t ++ ['\n']).length init = .ok init ∧
    partOne t junk init =
      (loadStacks t junk >>= fun loaded =>
        instructionLoop parseSequentialInstruction t init (t.length + 1)
            loaded.index loaded.forest >>= fun m =>
        readInstruction t t.length init >>= fun instruction =>
        parseSequentialInstruction instruction m >>= fun m =>
        reportTops m loaded.numberOfColumns) ∧
    partOne (t ++ ['\n']) junk init =
      (loadStacks t junk >>= fun loaded =>
        instructionLoop parseSequentialInstruction t init (t.length + 1)
            loaded.index loaded.forest >>= fun m =>
        readInstruction t t.length init >>= fun instruction =>
        parseSequentialInstruction instruction m >>= fun m =>
        parseSequentialInstruction init m >>= fun m =>
        reportTops m loaded.numberOfColumns) ∧
    partTwo t junk init =
      (loadStacks t junk >>= fun loaded =>
        instructionLoop parseBatchedInstruction t init (t.length + 1)
            loaded.index loaded.forest >>= fun m =>
        readInstruction t t.length init >>= fun instruction =>
        parseBatchedInstruction instruction m >>= fun m =>
        reportTops m loaded.numberOfColumns) ∧
    partTwo (t ++ ['\n']) junk init =
      (loadStacks t junk >>= fun loaded =>
        instructionLoop parseBatchedInstruction t init (t.length + 1)
            loaded.index loaded.forest >>= fun m =>
        readInstruction t t.length init >>= fun instruction =>
        parseBatchedInstruction instruction m >>= fun m =>
        parseBatchedInstruction init m >>= fun m =>
        reportTops m loaded.numberOfColumns) := by
  have hread : readInstruction (t ++ ['\n']) (t ++ ['\n']).length init = .ok init := by
    have := readLoop_line_break t [] (t.length + 1) 1 0 .TO init
    simpa [readInstruction] using this
  have hlen : (t ++ ['\n']).length + 1 = (t.length + 1) + 1 := by simp
  cases hl : loadStacks t junk with
  | error e => simp [loadsWithin, hl] at h
  | ok loaded =>
    have hidx : loaded.index ≤ t.length := by
      simpa [loadsWithin, hl] using h
    have hext := loadStacks_append t ['\n'] junk loaded hl
    have hloop : ∀ policy : Instruction → Forest → Except Fault Forest,
        instructionLoop policy (t ++ ['\n']) init ((t ++ ['\n']).length + 1) loaded.index
            loaded.forest =
          (instructionLoop policy t init (t.length + 1) loaded.index loaded.forest >>= fun m2 =>
            readInstruction t t.length init >>= fun instruction => policy instruction m2) := by
      intro policy
      rw [hlen]
      exact instructionLoop_append policy t init (t.length + 1) loaded.index loaded.forest hidx
        (by omega)
    refine ⟨hread, ?_, ?_, ?_, ?_⟩
    · simp only [partOne, hl, bind, Except.bind]
    · simp only [partOne, hext, hloop, hread, bind, Except.bind]
      cases instructionLoop parseSequentialInstruction t init (t.length + 1) loaded.index
          loaded.forest with
      | error e => rfl
      | ok m =>
        simp only []
        cases readInstruction t t.length init with
        | error e => rfl
        | ok instruction => rfl
    · simp only [partTwo, hl, bind, Except.bind]
    · simp only [partTwo, hext, hloop, hread, bind, Except.bind]
      cases instructionLoop parseBatchedInstruction t init (t.length + 1) loaded.index
          loaded.forest with
      | error e => rfl
      | ok m =>
        simp only []
        cases readInstruction t t.length init with
        | error e => rfl
        | ok instruction => rfl

set_option maxRecDepth 20000 in
/-- C27 as amended, on the six-row input with the unset record `{1, 1, 0}`. -/
theorem drivers_apply_unset_record_after_final_line_break_witness :
    loadsWithin sixRowInput (fun _ => none) = true ∧
    (readInstruction (sixRowInput ++ ['\n']) (sixRowInput ++ ['\n']).length ⟨1, 1, 0⟩
        = .ok ⟨1, 1, 0⟩ ∧
    partOne sixRowInput (fun _ => none) ⟨1, 1, 0⟩ =
      (loadStacks sixRowInput (fun _ => none) >>= fun loaded =>
        instructionLoop parseSequentialInstruction sixRowInput ⟨1, 1, 0⟩ (sixRowInput.length + 1)
            loaded.index loaded.forest >>= fun m =>
        readInstruction sixRowInput sixRowInput.length ⟨1, 1, 0⟩ >>= fun instruction =>
        parseSequentialInstruction instruction m >>= fun m =>
        reportTops m loaded.numberOfColumns) ∧
    partOne (sixRowInput ++ ['\n']) (fun _ => none) ⟨1, 1, 0⟩ =
      (loadStacks sixRowInput (fun _ => none) >>= fun loaded =>
        instructionLoop parseSequentialInstruction sixRowInput ⟨1, 1, 0⟩ (sixRowInput.length + 1)
            loaded.index loaded.forest >>= fun m =>
        readInstruction sixRowInput sixRowInput.length ⟨1, 1, 0⟩ >>= fun instruction =>
        parseSequentialInstruction instruction m >>= fun m =>
        parseSequentialInstruction ⟨1, 1, 0⟩ m >>= fun m =>
        reportTops m loaded.numberOfColumns) ∧
    partTwo sixRowInput (fun _ => none) ⟨1, 1, 0⟩ =
      (loadStacks sixRowInput (fun _ => none) >>= fun loaded =>
        instructionLoop parseBatchedInstruction sixRowInput ⟨1, 1, 0⟩ (sixRowInput.length + 1)
            loaded.index loaded.forest >>= fun m =>
        readInstruction sixRowInput sixRowInput.length ⟨1, 1, 0⟩ >>= fun instruction =>
        parseBatchedInstruction instruction m >>= fun m =>
        reportTops m loaded.numberOfColumns) ∧
    partTwo (sixRowInput ++ ['\n']) (fun _ => none) ⟨1, 1, 0⟩ =
      (loadStacks sixRowInput (fun _ => none) >>= fun loaded =>
        instructionLoop parseBatchedInstruction sixRowInput ⟨1, 1, 0⟩ (sixRowInput.length + 1)
            loaded.index loaded.forest >>= fun m =>
        readInstruction sixRowInput sixRowInput.length ⟨1, 1, 0⟩ >>= fun instruction =>
        parseBatchedInstruction instruction m >>= fun m =>
        parseBatchedInstruction ⟨1, 1, 0⟩ m >>= fun m =>
        reportTops m loaded.numberOfColumns)) :=
  ⟨by decide, drivers_apply_unset_record_after_final_line_break sixRowInput (fun _ => none)
    ⟨1, 1, 0⟩ (by decide)⟩

set_option maxRecDepth 8000 in
/-- C27 fails as stated: on the six-row input, whose single directive line is
`move 1 from 1 to 2`, `partTwo` prints `GE` and `partOne` prints `EE`. With a
line break appended the outcome follows the unset record: with
`{7, 7, 7}` both drivers index the array of stacks out of bounds, with
`{0, 0, 0}` `partTwo` reads through `NULL`, and with `{1, 1, 0}` `partTwo`
prints `EB`. -/
theorem trailing_line_break_changes_outcome :
    partTwo sixRowInput (fun _ => none) ⟨7, 7, 7⟩ = .ok "GE\n".toList ∧
    partOne sixRowInput (fun _ => none) ⟨7, 7, 7⟩ = .ok "EE\n".toList ∧
    partTwo (sixRowInput ++ ['\n']) (fun _ => none) ⟨7, 7, 7⟩ = .error .arrayBounds ∧
    partOne (sixRowInput ++ ['\n']) (fun _ => none) ⟨7, 7, 7⟩ = .error .arrayBounds ∧
    partTwo (sixRowInput ++ ['\n']) (fun _ => none) ⟨0, 0, 0⟩ = .error .nullDeref ∧
    partTwo (sixRowInput ++ ['\n']) (fun _ => none) ⟨1, 1, 0⟩ = .ok "EB\n".toList :=
  ⟨by decide, by decide, by decide, by decide, by decide, by decide⟩

end Day5

/-! ## Theorems of day 4 range overlap -/

namespace Day4

/-- C26. For two closed ranges given low end first, `calculatePartialOverlap`
is true exactly when some integer lies in both; and it is true exactly when
the start of one range lies in the other, so testing the two start points is
enough. -/
theorem calculatePartialOverlap_iff_share (firstLower firstUpper secondLower secondUpper : Int)
    (h1 : firstLower ≤ firstUpper) (h2 : secondLower ≤ secondUpper) :
    (calculatePartialOverlap firstLower firstUpper secondLower secondUpper = true ↔
      ∃ x : Int, (firstLower ≤ x ∧ x ≤ firstUpper) ∧ (secondLower ≤ x ∧ x ≤ secondUpper)) ∧
    (calculatePartialOverlap firstLower firstUpper secondLower secondUpper = true ↔
      (secondLower ≤ firstLower ∧ firstLower ≤ secondUpper) ∨
        (firstLower ≤ secondLower ∧ secondLower ≤ firstUpper)) := by
  have hstart : calculatePartialOverlap firstLower firstUpper secondLower secondUpper = true ↔
      (secondLower ≤ firstLower ∧ firstLower ≤ secondUpper) ∨
        (firstLower ≤ secondLower ∧ secondLower ≤ firstUpper) := by
    simp [calculatePartialOverlap]
  refine ⟨?_, hstart⟩
  rw [hstart]
  constructor
  · rintro (⟨ha, hb⟩ | ⟨ha, hb⟩)
    · exact ⟨firstLower, ⟨le_refl _, h1⟩, ha, hb⟩
    · exact ⟨secondLower, ⟨ha, hb⟩, le_refl _, h2⟩
  · rintro ⟨x, ⟨ha, hb⟩, hc, hd⟩
    by_cases hle : secondLower ≤ firstLower
    · exact Or.inl ⟨hle, le_trans ha hd⟩
    · exact Or.inr ⟨le_of_lt (lt_of_not_le hle), le_trans hc hb⟩

/-- C26, on the ranges 2-4 and 3-5. -/
theorem calculatePartialOverlap_iff_share_witness :
    ((2 : Int) ≤ 4 ∧ (3 : Int) ≤ 5) ∧
    ((calculatePartialOverlap 2 4 3 5 = true ↔
      ∃ x : Int, (2 ≤ x ∧ x ≤ 4) ∧ (3 ≤ x ∧ x ≤ 5)) ∧
    (calculatePartialOverlap 2 4 3 5 = true ↔
      ((3 : Int) ≤ 2 ∧ (2 : Int) ≤ 5) ∨ ((2 : Int) ≤ 3 ∧ (3 : Int) ≤ 4))) :=
  ⟨by decide, calculatePartialOverlap_iff_share 2 4 3 5 (by decide) (by decide)⟩

end Day4

/-! ## Theorems of day 1 calorie counting -/

namespace Day1

open Day5 (wrapInt toSizeT decimal isNumber)

theorem toNat_emod_wrapInt (n : Nat) (hn : n < 4294967296) :
    (wrapInt (n : Int) % 4294967296).toNat = n := by
  unfold wrapInt
  omega

theorem wrapInt_toNat_emod (x : Int) (hx : InInt x) :
    wrapInt (((x % 4294967296).toNat : Nat) : Int) = x := by
  unfold InInt at hx
  unfold wrapInt
  omega

theorem toNat_emod_lt (x : Int) : (x % 4294967296).toNat < 2 ^ 32 := by
  omega

theorem xorInt_swap_cell (v m : Int) (hv : InInt v) : xorInt m (xorInt v m) = v := by
  have h1 := toNat_emod_lt v
  have h2 := toNat_emod_lt m
  have hlt : (v % 4294967296).toNat ^^^ (m % 4294967296).toNat < 2 ^ 32 :=
    Nat.xor_lt_two_pow h1 h2
  unfold xorInt
  rw [toNat_emod_wrapInt _ (by simpa using hlt)]
  have : (m % 4294967296).toNat ^^^ ((v % 4294967296).toNat ^^^ (m % 4294967296).toNat)
      = (v % 4294967296).toNat := by
    rw [Nat.xor_comm (v % 4294967296).toNat, ← Nat.xor_assoc, Nat.xor_self, Nat.zero_xor]
  rw [this]
  exact wrapInt_toNat_emod v hv

theorem xorInt_swap_value (v m : Int) (hm : InInt m) : xorInt (xorInt v m) v = m := by
  have h1 := toNat_emod_lt v
  have h2 := toNat_emod_lt m
  have hlt : (v % 4294967296).toNat ^^^ (m % 4294967296).toNat < 2 ^ 32 :=
    Nat.xor_lt_two_pow h1 h2
  unfold xorInt
  rw [toNat_emod_wrapInt _ (by simpa using hlt)]
  have : ((v % 4294967296).toNat ^^^ (m % 4294967296).toNat) ^^^ (v % 4294967296).toNat
      = (m % 4294967296).toNat := by
    rw [Nat.xor_comm (v % 4294967296).toNat, Nat.xor_assoc, Nat.xor_self, Nat.xor_zero]
  rw [this]
  exact wrapInt_toNat_emod m hm

theorem checkMax_cases (v a b c : Int) (hv : InInt v) (ha : InInt a) (hb : InInt b)
    (_hc : InInt c) :
    checkMax v [a, b, c] =
      if c > v then [a, b, c] else if b > v then [a, b, v] else if a > v then [a, v, b]
      else [v, a, b] := by
  by_cases h1 : c > v
  · simp [checkMax, checkMaxFind, checkMaxShift, TOP_SIZE, h1]
  · by_cases h2 : b > v
    · simp [checkMax, checkMaxFind, checkMaxShift, TOP_SIZE, h1, h2, xorInt_swap_cell v c hv]
    · by_cases h3 : a > v
      · simp [checkMax, checkMaxFind, checkMaxShift, TOP_SIZE, h1, h2, h3,
          xorInt_swap_cell v b hv, xorInt_swap_value v b hb, xorInt_swap_cell b c hb]
      · simp [checkMax, checkMaxFind, checkMaxShift, TOP_SIZE, h1, h2, h3,
          xorInt_swap_cell v a hv, xorInt_swap_value v a ha, xorInt_swap_cell a b ha,
          xorInt_swap_value a b hb, xorInt_swap_cell b c hb]

theorem orderedInsert_three (v a b c : Int) (hab : a ≥ b) (hbc : b ≥ c) :
    (List.orderedInsert (fun x y : Int => x ≥ y) v [a, b, c]).take 3 =
      if c > v then [a, b, c] else if b > v then [a, b, v] else if a > v then [a, v, b]
      else [v, a, b] := by
  by_cases h1 : c > v
  · have e1 : ¬ v ≥ c := by omega
    have e2 : ¬ v ≥ b := by omega
    have e3 : ¬ v ≥ a := by omega
    simp [List.orderedInsert, h1, e1, e2, e3]
  · by_cases h2 : b > v
    · have e2 : ¬ v ≥ b := by omega
      have e3 : ¬ v ≥ a := by omega
      have e1 : c ≤ v := by omega
      simp [List.orderedInsert, h1, h2, e1, e2, e3]
    · by_cases h3 : a > v
      · have e3 : ¬ v ≥ a := by omega
        have e2 : v ≥ b := by omega
        simp [List.orderedInsert, h1, h2, h3, e2, e3]
      · have e3 : v ≥ a := by omega
        simp [List.orderedInsert, h1, h2, h3, e3]

theorem insertionSort_sorted_three (a b c : Int) (hab : a ≥ b) (hbc : b ≥ c) :
    List.insertionSort (fun x y : Int => x ≥ y) [a, b, c] = [a, b, c] := by
  simp [List.insertionSort, List.orderedInsert, hab, hbc]

/-- C23. For an array of three `int`s in non-increasing order and an `int`
value, `checkMax` leaves the array in non-increasing order, holding the three
largest of the four numbers: it is the first three entries of the four numbers
sorted from largest to smallest. -/
theorem checkMax_keeps_top_three (value a b c : Int) (hab : a ≥ b) (hbc : b ≥ c)
    (hv : InInt value) (ha : InInt a) (hb : InInt b) (hc : InInt c) :
    (checkMax value [a, b, c]).Sorted (fun x y : Int => x ≥ y) ∧
    checkMax value [a, b, c] =
      ((value :: [a, b, c]).insertionSort (fun x y : Int => x ≥ y)).take 3 := by
  have heq : checkMax value [a, b, c] =
      ((value :: [a, b, c]).insertionSort (fun x y : Int => x ≥ y)).take 3 := by
    rw [List.insertionSort, insertionSort_sorted_three a b c hab hbc,
      orderedInsert_three value a b c hab hbc, checkMax_cases value a b c hv ha hb hc]
  refine ⟨?_, heq⟩
  rw [checkMax_cases value a b c hv ha hb hc]
  by_cases h1 : c > value
  · simp [h1, hab, hbc]
    omega
  · by_cases h2 : b > value
    · simp [h1, h2, hab]
      omega
    · by_cases h3 : a > value
      · simp [h1, h2, h3]
        omega
      · simp [h1, h2, h3, hab]
        omega

/-- C23, on the array 10, 5, 3 and the value 7. -/
theorem checkMax_keeps_top_three_witness :
    ((10 : Int) ≥ 5 ∧ (5 : Int) ≥ 3 ∧ InInt 7 ∧ InInt 10 ∧ InInt 5 ∧ InInt 3) ∧
    ((checkMax 7 [10, 5, 3]).Sorted (fun x y : Int => x ≥ y) ∧
      checkMax 7 [10, 5, 3] =
        (((7 : Int) :: [10, 5, 3]).insertionSort (fun x y : Int => x ≥ y)).take 3) :=
  ⟨by decide, checkMax_keeps_top_three 7 10 5 3 (by decide) (by decide) (by decide) (by decide)
    (by decide) (by decide)⟩

theorem partOneLoop_eq_foldr (input : List Char) :
    ∀ (n : Nat), n ≤ input.length → ∀ (radix : Int) (state : ParserState) (localMax current : Int),
      partOneLoop input n radix state localMax current =
        (((input.take n).foldr (step (fun c l : Int => max l c))
            ⟨radix, state, localMax, current⟩).localMax,
          ((input.take n).foldr (step (fun c l : Int => max l c))
            ⟨radix, state, localMax, current⟩).current) := by
  intro n
  induction n with
  | zero =>
    intro _ radix state localMax current
    simp [partOneLoop]
  | succ n ih =>
    intro hn radix state localMax current
    have hlt : n < input.length := hn
    have htake : input.take (n + 1) = input.take n ++ [input.getD n (Char.ofNat 0)] := by
      rw [List.take_succ, List.getD_eq_getElem?_getD, List.getElem?_eq_getElem hlt]
      rfl
    rw [htake, List.foldr_append]
    simp only [List.foldr_cons, List.foldr_nil]
    unfold partOneLoop
    by_cases h1 : input.getD n (Char.ofNat 0) = '\n'
    · by_cases h2 : state = .END_OF_LINE
      · simp only [h1, h2, if_true, step]
        exact ih (Nat.le_of_lt hlt) _ _ _ _
      · simp only [h1, h2, if_true, if_false, step]
        exact ih (Nat.le_of_lt hlt) _ _ _ _
    · simp only [h1, if_false, step]
      exact ih (Nat.le_of_lt hlt) _ _ _ _

theorem partTwoLoop_eq_foldr (input : List Char) :
    ∀ (n : Nat), n ≤ input.length → ∀ (radix : Int) (state : ParserState) (localMax : List Int)
      (current : Int),
      partTwoLoop input n radix state localMax current =
        (((input.take n).foldr (step checkMax) ⟨radix, state, localMax, current⟩).localMax,
          ((input.take n).foldr (step checkMax) ⟨radix, state, localMax, current⟩).current) := by
  intro n
  induction n with
  | zero =>
    intro _ radix state localMax current
    simp [partTwoLoop]
  | succ n ih =>
    intro hn radix state localMax current
    have hlt : n < input.length := hn
    have htake : input.take (n + 1) = input.take n ++ [input.getD n (Char.ofNat 0)] := by
      rw [List.take_succ, List.getD_eq_getElem?_getD, List.getElem?_eq_getElem hlt]
      rfl
    rw [htake, List.foldr_append]
    simp only [List.foldr_cons, List.foldr_nil]
    unfold partTwoLoop
    by_cases h1 : input.getD n (Char.ofNat 0) = '\n'
    · by_cases h2 : state = .END_OF_LINE
      · simp only [h1, h2, if_true, step]
        exact ih (Nat.le_of_lt hlt) _ _ _ _
      · simp only [h1, h2, if_true, if_false, step]
        exact ih (Nat.le_of_lt hlt) _ _ _ _
    · simp only [h1, if_false, step]
      exact ih (Nat.le_of_lt hlt) _ _ _ _

theorem step_newline {α : Type} (next : Int → α → α) (s : Scan α) :
    step next '\n' s =
      if s.state = .END_OF_LINE then ⟨s.radix, .NEXT, next s.current s.localMax, 0⟩
      else ⟨1, .END_OF_LINE, s.localMax, s.current⟩ := by
  by_cases h : s.state = .END_OF_LINE
  · simp [step, h]
  · simp [step, h]

theorem step_digit {α : Type} (next : Int → α → α) (d : Char) (h48 : 48 ≤ d.toNat)
    (s : Scan α) :
    step next d s =
      ⟨wrapInt (s.radix * 10), .READING, s.localMax,
        wrapInt (s.current + wrapInt (((d.toNat : Int) - 48) * s.radix))⟩ := by
  have hne : d ≠ '\n' := by
    intro e
    rw [e] at h48
    exact absurd h48 (by decide)
  simp [step, hne]

theorem foldr_step_digits {α : Type} (next : Int → α → α) (ds : List Char) :
    (∀ d ∈ ds, 48 ≤ d.toNat ∧ d.toNat ≤ 57) →
    ∀ (R C : Int) (state : ParserState) (localMax : α),
      ds.foldr (step next) ⟨wrapInt R, state, localMax, wrapInt C⟩ =
        ⟨wrapInt (R * 10 ^ ds.length), if ds = [] then state else .READING, localMax,
          wrapInt (C + R * (decimal ds : Int))⟩ := by
  induction ds using List.reverseRecOn with
  | nil =>
    intro _ R C state localMax
    simp [decimal]
  | append_singleton ds d ih =>
    intro hds R C state localMax
    have hd := hds d (by simp)
    have hds2 : ∀ x ∈ ds, 48 ≤ x.toNat ∧ x.toNat ≤ 57 := fun x hx => hds x (by simp [hx])
    rw [List.foldr_append]
    simp only [List.foldr_cons, List.foldr_nil]
    rw [step_digit next d hd.1, Day5.wrapInt_radix_step, Day5.wrapInt_digit_step,
      ih hds2 (R * 10) (C + ((d.toNat : Int) - 48) * R) .READING localMax,
      Day5.decimal_append_singleton]
    have e1 : R * 10 * 10 ^ ds.length = R * 10 ^ (ds ++ [d]).length := by
      simp
      ring
    have e2 : C + ((d.toNat : Int) - 48) * R + R * 10 * (decimal ds : Int)
        = C + R * ((10 * decimal ds + (d.toNat - 48) : Nat) : Int) := by
      have : ((d.toNat - 48 : Nat) : Int) = (d.toNat : Int) - 48 := by omega
      push_cast
      rw [this]
      ring
    rw [e1, e2]
    simp

theorem wrapInt_add_wrapInt (a b : Int) : wrapInt (wrapInt a + b) = wrapInt (a + b) := by
  unfold wrapInt
  omega

theorem foldr_step_number {α : Type} (next : Int → α → α) (n : List Char)
    (hn : isNumber n = true) (s : Scan α) (hr : s.radix = 1) :
    (n.foldr (step next) s).state = .READING ∧
    (n.foldr (step next) s).localMax = s.localMax ∧
    (n.foldr (step next) s).current = wrapInt (s.current + (decimal n : Int)) := by
  have hds := Day5.isNumber_digits n hn
  rcases List.eq_nil_or_concat n with h0 | ⟨ds, d, rfl⟩
  · rw [h0] at hn
    simp [isNumber] at hn
  · rw [List.concat_eq_append] at hn hds ⊢
    have hd := hds d (by simp)
    have hds2 : ∀ x ∈ ds, 48 ≤ x.toNat ∧ x.toNat ≤ 57 := fun x hx => hds x (by simp [hx])
    have hk : wrapInt (((d.toNat : Int) - 48) * 1) = (d.toNat : Int) - 48 := by
      rw [mul_one]
      exact Day5.wrapInt_of_range _ (by omega) (by omega)
    rw [List.foldr_append]
    simp only [List.foldr_cons, List.foldr_nil]
    rw [step_digit next d hd.1, hr, hk,
      foldr_step_digits next ds hds2 (1 * 10) (s.current + ((d.toNat : Int) - 48)) .READING
        s.localMax,
      Day5.decimal_append_singleton]
    refine ⟨by simp, rfl, ?_⟩
    have : ((d.toNat - 48 : Nat) : Int) = (d.toNat : Int) - 48 := by omega
    show wrapInt _ = wrapInt _
    congr 1
    push_cast
    rw [this]
    ring

theorem intercalate_cons_cons {β : Type} (sep x y : List β) (l : List (List β)) :
    List.intercalate sep (x :: y :: l) = x ++ sep ++ List.intercalate sep (y :: l) := by
  simp [List.intercalate, List.intersperse]

theorem foldr_step_group {α : Type} (next : Int → α → α) (g : List (List Char)) :
    g ≠ [] → (∀ n ∈ g, isNumber n = true) → ∀ (s : Scan α), s.radix = 1 →
      ((List.intercalate ['\n'] g).foldr (step next) s).state = .READING ∧
      ((List.intercalate ['\n'] g).foldr (step next) s).localMax = s.localMax ∧
      ((List.intercalate ['\n'] g).foldr (step next) s).current =
        wrapInt (s.current + (groupSum g : Int)) := by
  induction g with
  | nil =>
    intro h
    exact absurd rfl h
  | cons n rest ih =>
    intro _ hg s hr
    cases rest with
    | nil =>
      have h := foldr_step_number next n (hg n (by simp)) s hr
      simpa [List.intercalate, groupSum] using h
    | cons m rest =>
      obtain ⟨h1, h2, h3⟩ := ih (by simp) (fun x hx => hg x (by simp [hx])) s hr
      rw [intercalate_cons_cons, List.append_assoc, List.foldr_append]
      simp only [List.singleton_append, List.foldr_cons]
      rw [step_newline, if_neg (by rw [h1]; decide)]
      obtain ⟨k1, k2, k3⟩ := foldr_step_number next n (hg n (by simp))
        ⟨1, .END_OF_LINE, ((List.intercalate ['\n'] (m :: rest)).foldr (step next) s).localMax,
          ((List.intercalate ['\n'] (m :: rest)).foldr (step next) s).current⟩ rfl
      refine ⟨k1, k2.trans h2, ?_⟩
      rw [k3]
      simp only []
      rw [h3, wrapInt_add_wrapInt]
      congr 1
      simp only [groupSum, List.map_cons, List.sum_cons]
      push_cast
      ring

theorem foldr_step_groups {α : Type} (next : Int → α → α) (rest : List (List (List Char))) :
    ∀ (g : List (List Char)), WellFormedGroups (g :: rest) →
    ∀ (s : Scan α), s.radix = 1 → s.current = 0 →
      ((calorieText (g :: rest)).foldr (step next) s).current = wrapInt (groupSum g : Int) ∧
      ((calorieText (g :: rest)).foldr (step next) s).localMax =
        (rest.map (fun x => wrapInt (groupSum x : Int))).foldr next s.localMax ∧
      ((calorieText (g :: rest)).foldr (step next) s).state = .READING := by
  induction rest with
  | nil =>
    intro g hw s hr hc
    obtain ⟨h1, h2, h3⟩ := foldr_step_group next g (hw g (by simp)).1 (hw g (by simp)).2 s hr
    have e : calorieText [g] = List.intercalate ['\n'] g := by
      simp [calorieText, List.intercalate]
    rw [e]
    refine ⟨?_, by simpa using h2, h1⟩
    rw [h3, hc, zero_add]
  | cons g2 rest ih =>
    intro g hw s hr hc
    obtain ⟨h1, h2, h3⟩ := ih g2 (fun x hx => hw x (by simp [hx])) s hr hc
    have e : calorieText (g :: g2 :: rest) =
        List.intercalate ['\n'] g ++ ['\n', '\n'] ++ calorieText (g2 :: rest) := by
      simp only [calorieText, List.map_cons]
      rw [intercalate_cons_cons]
    rw [e, List.append_assoc, List.foldr_append]
    simp only [List.cons_append, List.nil_append, List.foldr_cons]
    rw [step_newline next ((calorieText (g2 :: rest)).foldr (step next) s),
      if_neg (by rw [h3]; decide), step_newline, if_pos rfl]
    obtain ⟨k1, k2, k3⟩ := foldr_step_group next g (hw g (by simp)).1 (hw g (by simp)).2
      ⟨1, .NEXT, next ((calorieText (g2 :: rest)).foldr (step next) s).current
        ((calorieText (g2 :: rest)).foldr (step next) s).localMax, 0⟩ rfl
    refine ⟨?_, ?_, k1⟩
    · rw [k3]
      simp
    · rw [k2]
      simp only [List.map_cons, List.foldr_cons]
      rw [h1, h2]

theorem loop_start (L : Nat) (h : L ≤ 2147483648) :
    (wrapInt ((toSizeT ((L : Int) - 1) : Nat) : Int) + 1).toNat = L := by
  unfold wrapInt toSizeT
  omega

theorem foldr_max_cast (l : List Nat) :
    (l.map (fun x : Nat => (x : Int))).foldr (fun c m : Int => max m c) 0 = ((l.foldr max 0 : Nat) : Int) := by
  induction l with
  | nil => rfl
  | cons x l ih =>
    simp only [List.map_cons, List.foldr_cons, ih]
    rw [max_comm]
    push_cast
    rfl

theorem foldr_max_mem (l : List Nat) (h : l ≠ []) : l.foldr max 0 ∈ l := by
  induction l with
  | nil => exact absurd rfl h
  | cons x l ih =>
    simp only [List.foldr_cons]
    by_cases hl : l = []
    · subst hl
      simp
    · rcases le_total x (l.foldr max 0) with h1 | h1
      · rw [max_eq_right h1]
        exact List.mem_cons_of_mem _ (ih hl)
      · rw [max_eq_left h1]
        exact List.mem_cons_self _ _

theorem le_foldr_max (l : List Nat) : ∀ x ∈ l, x ≤ l.foldr max 0 := by
  induction l with
  | nil =>
    intro x hx
    simp at hx
  | cons y l ih =>
    intro x hx
    simp only [List.foldr_cons]
    rcases List.mem_cons.1 hx with rfl | hx
    · exact le_max_left _ _
    · exact le_trans (ih x hx) (le_max_right _ _)

theorem partOne_eq_foldr_max (groups : List (List (List Char))) (hne : groups ≠ [])
    (hw : WellFormedGroups groups)
    (hsum : ∀ g ∈ groups, groupSum g < 2147483648)
    (hlen : (calorieText groups).length ≤ 2147483648) :
    partOne (calorieText groups) = (((groups.map groupSum).foldr max 0 : Nat) : Int) := by
  obtain ⟨g, rest, rfl⟩ := List.exists_cons_of_ne_nil hne
  have hwrap : ∀ x ∈ g :: rest, wrapInt (groupSum x : Int) = (groupSum x : Int) := by
    intro x hx
    have := hsum x hx
    exact Day5.wrapInt_of_range _ (by omega) (by omega)
  obtain ⟨h1, h2, _⟩ := foldr_step_groups (fun c l : Int => max l c) rest g hw
    ⟨1, .IDLE, 0, 0⟩ rfl rfl
  unfold partOne
  simp only []
  rw [loop_start _ hlen, partOneLoop_eq_foldr _ _ (le_refl _), List.take_length, h1, h2,
    hwrap g (by simp)]
  have e : rest.map (fun x => wrapInt (groupSum x : Int)) =
      (rest.map groupSum).map (fun x : Nat => (x : Int)) := by
    rw [List.map_map]
    apply List.map_congr_left
    intro x hx
    exact hwrap x (by simp [hx])
  rw [e, foldr_max_cast]
  simp only [List.map_cons, List.foldr_cons]
  rw [max_comm]
  push_cast
  rfl

/-- C22. For a text made of one or more groups of decimal numbers, one number
per line, one blank line between two groups and no line break at the end, with
every group sum below 2^31 and the text short enough for its last offset to be
an `int`, `partOne` returns the largest group sum: the value is the sum of one
of the groups and no group has a larger sum. -/
theorem partOne_returns_largest_group_sum (groups : List (List (List Char)))
    (hne : groups ≠ []) (hw : WellFormedGroups groups)
    (hsum : ∀ g ∈ groups, groupSum g < 2147483648)
    (hlen : (calorieText groups).length ≤ 2147483648) :
    partOne (calorieText groups) = (((groups.map groupSum).foldr max 0 : Nat) : Int) ∧
    (∃ g ∈ groups, partOne (calorieText groups) = (groupSum g : Int)) ∧
    ∀ g ∈ groups, (groupSum g : Int) ≤ partOne (calorieText groups) := by
  have h := partOne_eq_foldr_max groups hne hw hsum hlen
  refine ⟨h, ?_, ?_⟩
  · have hm := foldr_max_mem (groups.map groupSum) (by simpa using hne)
    obtain ⟨g, hg, e⟩ := List.mem_map.1 hm
    exact ⟨g, hg, by rw [h, e]⟩
  · intro g hg
    rw [h]
    exact_mod_cast le_foldr_max (groups.map groupSum) (groupSum g) (List.mem_map_of_mem _ hg)

/-- C22, on the text of three groups `10 20`, `45` and `7 8 9`: the value is 45. -/
theorem partOne_returns_largest_group_sum_witness :
    (exampleGroups ≠ [] ∧ WellFormedGroups exampleGroups ∧
      (∀ g ∈ exampleGroups, groupSum g < 2147483648) ∧
      (calorieText exampleGroups).length ≤ 2147483648) ∧
    (partOne (calorieText exampleGroups) = (((exampleGroups.map groupSum).foldr max 0 : Nat) : Int) ∧
      (∃ g ∈ exampleGroups, partOne (calorieText exampleGroups) = (groupSum g : Int)) ∧
      ∀ g ∈ exampleGroups, (groupSum g : Int) ≤ partOne (calorieText exampleGroups)) :=
  ⟨by decide, partOne_returns_largest_group_sum exampleGroups (by decide) (by decide) (by decide)
    (by decide)⟩

theorem take_orderedInsert_take (v : Int) (l : List Int) :
    ∀ n : Nat, (List.orderedInsert (fun x y : Int => x ≥ y) v l).take n =
      (List.orderedInsert (fun x y : Int => x ≥ y) v (l.take n)).take n := by
  induction l with
  | nil =>
    intro n
    simp
  | cons x l ih =>
    intro n
    cases n with
    | zero => simp
    | succ m =>
      by_cases h : v ≥ x
      · simp only [List.take_succ_cons, List.orderedInsert, h, if_true]
        cases m with
        | zero => simp
        | succ k =>
          simp only [List.take_succ_cons, List.take_take]
          simp
      · simp only [List.take_succ_cons, List.orderedInsert, h, if_false]
        rw [ih m]

theorem foldr_checkMax_eq_topThree (ts : List Int) (h : ∀ t ∈ ts, InInt t) :
    ts.foldr checkMax [0, 0, 0] = topThree ts := by
  induction ts with
  | nil =>
    simp [topThree, insertionSort_sorted_three]
  | cons t ts ih =>
    have ih2 := ih (fun x hx => h x (by simp [hx]))
    have hsorted : (List.insertionSort (fun x y : Int => x ≥ y) (ts ++ [0, 0, 0])).Sorted
        (fun x y : Int => x ≥ y) := List.sorted_insertionSort _ _
    have hlen : (List.insertionSort (fun x y : Int => x ≥ y) (ts ++ [0, 0, 0])).length
        = ts.length + 3 := by
      rw [List.length_insertionSort]
      simp
    have hmem : ∀ x ∈ List.insertionSort (fun x y : Int => x ≥ y) (ts ++ [0, 0, 0]), InInt x := by
      intro x hx
      have hx2 := (List.perm_insertionSort (fun x y : Int => x ≥ y) (ts ++ [0, 0, 0])).mem_iff.1 hx
      rcases List.mem_append.1 hx2 with hx3 | hx3
      · exact h x (by simp [hx3])
      · have : x = 0 := by simpa using hx3
        rw [this]
        decide
    simp only [List.foldr_cons]
    rw [ih2]
    unfold topThree
    rw [List.cons_append, List.insertionSort]
    generalize List.insertionSort (fun x y : Int => x ≥ y) (ts ++ [0, 0, 0]) = S at hsorted hlen hmem
    match S, hlen with
    | a :: b :: c :: S2, _ =>
      have hab : a ≥ b := by
        have := List.rel_of_sorted_cons hsorted b (by simp)
        exact this
      have hbc : b ≥ c := by
        have := List.rel_of_sorted_cons hsorted.of_cons c (by simp)
        exact this
      rw [take_orderedInsert_take t (a :: b :: c :: S2) 3]
      simp only [List.take_succ_cons, List.take_zero]
      rw [checkMax_cases t a b c (h t (by simp)) (hmem a (by simp)) (hmem b (by simp))
        (hmem c (by simp))]
      exact (orderedInsert_three t a b c hab hbc).symm

theorem topThree_shape (ts : List Int) (h : ∀ t ∈ ts, 0 ≤ t) :
    ∃ x y z : Int, topThree ts = [x, y, z] ∧ 0 ≤ x ∧ 0 ≤ y ∧ 0 ≤ z := by
  have hlen : (List.insertionSort (fun x y : Int => x ≥ y) (ts ++ [0, 0, 0])).length
      = ts.length + 3 := by
    rw [List.length_insertionSort]
    simp
  have hmem : ∀ x ∈ List.insertionSort (fun x y : Int => x ≥ y) (ts ++ [0, 0, 0]), 0 ≤ x := by
    intro x hx
    have hx2 := (List.perm_insertionSort (fun x y : Int => x ≥ y) (ts ++ [0, 0, 0])).mem_iff.1 hx
    rcases List.mem_append.1 hx2 with hx3 | hx3
    · exact h x hx3
    · have : x = 0 := by simpa using hx3
      rw [this]
  unfold topThree
  generalize List.insertionSort (fun x y : Int => x ≥ y) (ts ++ [0, 0, 0]) = S at hlen hmem
  match S, hlen with
  | a :: b :: c :: S2, _ =>
    exact ⟨a, b, c, by simp, hmem a (by simp), hmem b (by simp), hmem c (by simp)⟩

/-- C24. For a text made of one or more groups of decimal numbers, one number
per line, one blank line between two groups and no line break at the end, with
every group sum and the sum of the three largest below 2^31 and the text short
enough for its last offset to be an `int`, `partTwo` returns the sum of the
three largest group sums, a missing group counting as 0. -/
theorem partTwo_returns_sum_of_top_three (groups : List (List (List Char)))
    (hne : groups ≠ []) (hw : WellFormedGroups groups)
    (hsum : ∀ g ∈ groups, groupSum g < 2147483648)
    (htop : (topThree (groups.map (fun g => (groupSum g : Int)))).sum < 2147483648)
    (hlen : (calorieText groups).length ≤ 2147483648) :
    partTwo (calorieText groups) = (topThree (groups.map (fun g => (groupSum g : Int)))).sum := by
  obtain ⟨g, rest, rfl⟩ := List.exists_cons_of_ne_nil hne
  have hwrap : ∀ x ∈ g :: rest, wrapInt (groupSum x : Int) = (groupSum x : Int) := by
    intro x hx
    have := hsum x hx
    exact Day5.wrapInt_of_range _ (by omega) (by omega)
  obtain ⟨h1, h2, _⟩ := foldr_step_groups checkMax rest g hw
    ⟨1, .IDLE, List.replicate TOP_SIZE 0, 0⟩ rfl rfl
  have e : (g :: rest).map (fun x => wrapInt (groupSum x : Int)) =
      (g :: rest).map (fun x => (groupSum x : Int)) := by
    apply List.map_congr_left
    intro x hx
    exact hwrap x hx
  have hin : ∀ t ∈ (g :: rest).map (fun x => (groupSum x : Int)), InInt t := by
    intro t ht
    obtain ⟨x, hx, rfl⟩ := List.mem_map.1 ht
    have := hsum x hx
    unfold InInt
    omega
  have hpos : ∀ t ∈ (g :: rest).map (fun x => (groupSum x : Int)), 0 ≤ t := by
    intro t ht
    obtain ⟨x, hx, rfl⟩ := List.mem_map.1 ht
    omega
  have harr : checkMax (wrapInt (groupSum g : Int))
      ((rest.map (fun x => wrapInt (groupSum x : Int))).foldr checkMax (List.replicate TOP_SIZE 0))
      = topThree ((g :: rest).map (fun x => (groupSum x : Int))) := by
    rw [← foldr_checkMax_eq_topThree _ hin, ← e]
    rfl
  unfold partTwo
  simp only []
  rw [loop_start _ hlen, partTwoLoop_eq_foldr _ _ (le_refl _), List.take_length, h1, h2, harr]
  obtain ⟨x, y, z, hs, hx, hy, hz⟩ := topThree_shape _ hpos
  rw [hs] at htop ⊢
  simp only [List.sum_cons, List.sum_nil] at htop ⊢
  have hr : List.range TOP_SIZE = [0, 1, 2] := by decide
  rw [hr]
  simp only [List.foldl_cons, List.foldl_nil, List.getD_cons_zero, List.getD_cons_succ, zero_add]
  unfold wrapInt
  omega

/-- C24, on the text of three groups `10 20`, `45` and `7 8 9`, and on the
text of its first group alone. -/
theorem partTwo_returns_sum_of_top_three_witness :
    (exampleGroups ≠ [] ∧ WellFormedGroups exampleGroups ∧
      (∀ g ∈ exampleGroups, groupSum g < 2147483648) ∧
      (topThree (exampleGroups.map (fun g => (groupSum g : Int)))).sum < 2147483648 ∧
      (calorieText exampleGroups).length ≤ 2147483648) ∧
    partTwo (calorieText exampleGroups) =
      (topThree (exampleGroups.map (fun g => (groupSum g : Int)))).sum :=
  ⟨by decide, partTwo_returns_sum_of_top_three exampleGroups (by decide) (by decide) (by decide)
    (by decide) (by decide)⟩

end Day1

/-! ## Theorems of day 3 rucksacks -/

namespace Day3

open Day5 (Fault charAt strchr wrapInt)

/-- C30. On three lines of letters with no line break after the last,
`calculateGroupBadge` leaves in `*start` the offset one past the terminator,
and the search `partTwo` starts there is outside the text; the same happens
after the second group of six lines. With a line break after the last line the
search starts at the terminator and `partTwo` returns. -/
theorem partTwo_searches_past_terminator :
    threeLines.length = 11 ∧
    calculateGroupBadge threeLines 0 = .ok (1, 12) ∧
    strchr threeLines 12 '\n' = .error .textBounds ∧
    partTwo threeLines = .error .textBounds ∧
    partTwo sixLines = .error .textBounds ∧
    partTwo (threeLines ++ ['\n']) = .ok 1 ∧
    partTwo (sixLines ++ ['\n']) = .ok 53 := by
  decide

theorem calculateBitsLoop_run (s : List Char) :
    ∀ (pre suf : List Char) (result : CharacterBits),
      calculateBitsLoop (pre ++ s ++ suf) s.length pre.length result =
        .ok ⟨bitsOf upperShift s result.upper, bitsOf lowerShift s result.lower⟩ := by
  induction s with
  | nil =>
    intro pre suf result
    simp [calculateBitsLoop, bitsOf]
  | cons c t ih =>
    intro pre suf result
    have hch : charAt (pre ++ c :: t ++ suf) pre.length = .ok c := by
      have := Day5.charAt_append_cons pre (t ++ suf) c
      simpa using this
    have hin : pre ++ c :: t ++ suf = (pre ++ [c]) ++ t ++ suf := by simp
    have h := ih (pre ++ [c]) suf
      ⟨(result.upper ||| (1 <<< upperShift c)) % 4294967296,
        (result.lower ||| (1 <<< lowerShift c)) % 4294967296⟩
    simp only [List.length_append, List.length_singleton] at h
    simp only [calculateBitsLoop, List.length_cons, hch, bind, Except.bind]
    rw [hin, h]
    simp [bitsOf]

theorem upperShift_le (c : Char) : upperShift c ≤ 26 := by
  unfold upperShift
  split_ifs <;> omega

theorem lowerShift_le (c : Char) : lowerShift c ≤ 26 := by
  unfold lowerShift
  split_ifs <;> omega

theorem bitsOf_testBit (shift : Char → Nat) (hshift : ∀ c, shift c ≤ 26) (s : List Char) :
    ∀ (b : Nat), b < 4294967296 →
      bitsOf shift s b < 4294967296 ∧
      ∀ k, (bitsOf shift s b).testBit k = (b.testBit k || s.any (fun c => shift c == k)) := by
  induction s with
  | nil =>
    intro b hb
    simp [bitsOf, hb]
  | cons c t ih =>
    intro b hb
    have h2 : (1 <<< shift c) < 2 ^ 32 := by
      rw [Nat.one_shiftLeft]
      exact Nat.pow_lt_pow_right (by norm_num) (by have := hshift c; omega)
    have hlt : b ||| (1 <<< shift c) < 2 ^ 32 := Nat.or_lt_two_pow (by simpa using hb) h2
    have hmod : (b ||| (1 <<< shift c)) % 4294967296 = b ||| (1 <<< shift c) :=
      Nat.mod_eq_of_lt (by simpa using hlt)
    have e : bitsOf shift (c :: t) b = bitsOf shift t (b ||| (1 <<< shift c)) := by
      simp only [bitsOf, List.foldl_cons, hmod]
    obtain ⟨k1, k2⟩ := ih (b ||| (1 <<< shift c)) (by simpa using hlt)
    rw [e]
    refine ⟨k1, ?_⟩
    intro k
    rw [k2 k, Nat.testBit_or, Nat.one_shiftLeft, Nat.testBit_two_pow]
    simp only [List.any_cons, Bool.or_assoc]
    congr 2

theorem sumBitPositionsLoop_eq (fuel : Nat) :
    ∀ (duplicates : Nat) (base result : Int), duplicates < 2 ^ fuel →
      sumBitPositionsLoop fuel duplicates base result =
        result + ((List.range fuel).map
          (fun j => if duplicates.testBit j then base + (j : Int) else 0)).sum := by
  induction fuel with
  | zero =>
    intro duplicates base result _
    simp [sumBitPositionsLoop]
  | succ fuel ih =>
    intro duplicates base result hd
    unfold sumBitPositionsLoop
    by_cases h0 : duplicates > 0
    · have hd2 : duplicates >>> 1 < 2 ^ fuel := by
        rw [Nat.shiftRight_eq_div_pow]
        rw [pow_succ] at hd
        omega
      rw [if_pos h0, ih _ _ _ hd2, List.sum_range_succ']
      have e1 : ∀ j, (duplicates >>> 1).testBit j = duplicates.testBit (j + 1) := by
        intro j
        rw [Nat.testBit_shiftRight, Nat.add_comm]
      have e2 : (((duplicates &&& 1 : Nat)) : Int) * base =
          if duplicates.testBit 0 then base + ((0 : Nat) : Int) else 0 := by
        rw [Nat.and_one_is_mod, Nat.testBit_zero]
        rcases Nat.mod_two_eq_zero_or_one duplicates with h | h
        · simp [h]
        · simp [h]
      rw [e2]
      simp only [e1, Nat.succ_eq_add_one]
      have e3 : ∀ j : Nat, base + 1 + (j : Int) = base + ((j + 1 : Nat) : Int) := by
        intro j
        push_cast
        ring
      simp only [e3]
      ring
    · have hz : duplicates = 0 := by omega
      subst hz
      simp

theorem calculateBits_run (pre s suf : List Char) (start end_ : Nat) (hs : start = pre.length)
    (he : end_ = start + s.length) :
    calculateBits (pre ++ s ++ suf) start end_ =
      .ok ⟨bitsOf upperShift s 0, bitsOf lowerShift s 0⟩ := by
  subst hs he
  unfold calculateBits
  rw [Nat.add_sub_cancel_left]
  exact calculateBitsLoop_run s pre suf ⟨0, 0⟩

theorem sumBitPositions_common (shift : Char → Nat) (hshift : ∀ c, shift c ≤ 26)
    (first second : List Char) (base : Int) :
    sumBitPositions ((bitsOf shift first 0 &&& bitsOf shift second 0) >>> 1) base =
      ((List.range 26).map (fun j =>
        if first.any (fun c => shift c == j + 1) && second.any (fun c => shift c == j + 1)
        then base + (j : Int) else 0)).sum := by
  obtain ⟨a1, a2⟩ := bitsOf_testBit shift hshift first 0 (by norm_num)
  obtain ⟨b1, b2⟩ := bitsOf_testBit shift hshift second 0 (by norm_num)
  have hand : bitsOf shift first 0 &&& bitsOf shift second 0 < 2 ^ 32 :=
    Nat.and_lt_two_pow _ (by simpa using b1)
  have hx : (bitsOf shift first 0 &&& bitsOf shift second 0) >>> 1 < 2 ^ 32 := by
    rw [Nat.shiftRight_eq_div_pow]
    omega
  have hbit : ∀ j, ((bitsOf shift first 0 &&& bitsOf shift second 0) >>> 1).testBit j =
      (first.any (fun c => shift c == j + 1) && second.any (fun c => shift c == j + 1)) := by
    intro j
    rw [Nat.testBit_shiftRight, Nat.testBit_and, a2, b2, Nat.add_comm]
    simp
  have hhigh : ∀ (l : List Char) (j : Nat), 26 ≤ j → l.any (fun c => shift c == j + 1) = false := by
    intro l j hj
    rw [List.any_eq_false]
    intro c _
    have := hshift c
    simp only [beq_iff_eq]
    omega
  unfold sumBitPositions
  rw [Nat.mod_eq_of_lt (by simpa using hx), sumBitPositionsLoop_eq 32 _ _ _ hx, zero_add]
  simp only [hbit]
  rw [List.sum_range_succ, List.sum_range_succ, List.sum_range_succ, List.sum_range_succ,
    List.sum_range_succ, List.sum_range_succ]
  simp [hhigh]

theorem lowerShift_eq_iff (c : Char) (j : Nat) (hj : j < 26) :
    lowerShift c = j + 1 ↔ c = Char.ofNat (97 + j) := by
  have hcode : ∀ k < 26, (Char.ofNat (97 + k)).toNat = 97 + k := by decide
  constructor
  · intro h
    have hc : c.toNat = 97 + j := by
      unfold lowerShift at h
      split_ifs at h <;> omega
    rw [← hc, Char.ofNat_toNat]
  · intro h
    have hc : c.toNat = 97 + j := by rw [h, hcode j hj]
    unfold lowerShift
    rw [if_pos (by omega)]
    omega

theorem upperShift_eq_iff (c : Char) (j : Nat) (hj : j < 26) :
    upperShift c = j + 1 ↔ c = Char.ofNat (65 + j) := by
  have hcode : ∀ k < 26, (Char.ofNat (65 + k)).toNat = 65 + k := by decide
  constructor
  · intro h
    have hc : c.toNat = 65 + j := by
      unfold upperShift at h
      split_ifs at h <;> omega
    rw [← hc, Char.ofNat_toNat]
  · intro h
    have hc : c.toNat = 65 + j := by rw [h, hcode j hj]
    unfold upperShift
    rw [if_pos (by omega)]
    omega

theorem any_shift_eq_mem (shift : Char → Nat) (code : Nat → Char) (j : Nat)
    (h : ∀ c, shift c = j + 1 ↔ c = code j) (l : List Char) :
    l.any (fun c => shift c == j + 1) = decide (code j ∈ l) := by
  induction l with
  | nil => simp
  | cons x l ih =>
    simp only [List.any_cons, ih, List.mem_cons, Bool.decide_or]
    congr 1
    by_cases hx : x = code j
    · have := (h x).2 hx
      rw [hx] at this
      simp [hx, this]
    · have : shift x ≠ j + 1 := fun e => hx ((h x).1 e)
      have hx2 : ¬ code j = x := fun e => hx e.symm
      simp [hx2, this]

theorem sum_filter_codes (code : Nat → Char) (p : Char → Bool) (f : Nat → Int) (l : List Nat)
    (h : ∀ j ∈ l, priority (code j) = f j) :
    (((l.map code).filter p).map priority).sum =
      (l.map (fun j => if p (code j) then f j else 0)).sum := by
  induction l with
  | nil => simp
  | cons x l ih =>
    have ih2 := ih (fun j hj => h j (by simp [hj]))
    by_cases hp : p (code x) = true
    · simp only [List.map_cons, List.filter_cons, hp, if_true, List.sum_cons, ih2,
        h x (by simp)]
    · have hp2 : p (code x) = false := by simpa using hp
      simp [List.filter_cons, hp2, ih2]

theorem sum_range_common (shift : Char → Nat) (code : Nat → Char) (base : Int)
    (first second : List Char)
    (h : ∀ j < 26, ∀ c, shift c = j + 1 ↔ c = code j)
    (hp : ∀ j < 26, priority (code j) = base + (j : Int)) :
    ((List.range 26).map (fun j =>
        if first.any (fun c => shift c == j + 1) && second.any (fun c => shift c == j + 1)
        then base + (j : Int) else 0)).sum =
      ((((List.range 26).map code).filter
        (fun c => decide (c ∈ first) && decide (c ∈ second))).map priority).sum := by
  rw [sum_filter_codes code _ (fun j => base + (j : Int)) (List.range 26)
    (fun j hj => hp j (List.mem_range.1 hj))]
  apply congrArg
  apply List.map_congr_left
  intro j hj
  have hj2 := List.mem_range.1 hj
  rw [any_shift_eq_mem shift code j (h j hj2) first, any_shift_eq_mem shift code j (h j hj2) second]

theorem calculateRucksuckDuplicates_eq (pre s suf : List Char) :
    calculateRucksuckDuplicates (pre ++ s ++ suf) pre.length (pre.length + s.length) =
      .ok (commonValue s) := by
  have hsplit : s = firstHalf s ++ secondHalf s := (List.take_append_drop _ _).symm
  have hlen1 : (firstHalf s).length = s.length / 2 := by
    simp only [firstHalf, List.length_take]
    omega
  have hlen2 : (secondHalf s).length = s.length - s.length / 2 := by
    simp [secondHalf]
  have hmid : ((pre.length + s.length - pre.length) >>> 1) + pre.length
      = pre.length + s.length / 2 := by
    rw [Nat.add_sub_cancel_left, Nat.shiftRight_eq_div_pow]
    omega
  have hfirst := calculateBits_run pre (firstHalf s) (secondHalf s ++ suf) pre.length
    (pre.length + s.length / 2) rfl (by rw [hlen1])
  have hsecond := calculateBits_run (pre ++ firstHalf s) (secondHalf s) suf
    (pre.length + s.length / 2) (pre.length + s.length) (by simp [hlen1])
    (by rw [hlen2]; omega)
  have hin1 : pre ++ firstHalf s ++ (secondHalf s ++ suf) = pre ++ s ++ suf := by
    conv_rhs => rw [hsplit]
    simp
  have hin2 : pre ++ firstHalf s ++ secondHalf s ++ suf = pre ++ s ++ suf := by
    conv_rhs => rw [hsplit]
    simp
  rw [hin1] at hfirst
  rw [hin2] at hsecond
  have hlowerLetters : lowerLetters = (List.range 26).map (fun j => Char.ofNat (97 + j)) := by
    decide
  have hupperLetters : upperLetters = (List.range 26).map (fun j => Char.ofNat (65 + j)) := by
    decide
  have hpl : ∀ j < 26, priority (Char.ofNat (97 + j)) = 1 + (j : Int) := by decide
  have hpu : ∀ j < 26, priority (Char.ofNat (65 + j)) = 27 + (j : Int) := by decide
  unfold calculateRucksuckDuplicates
  simp only [hmid, hfirst, hsecond, bind, Except.bind, pure, Except.pure]
  rw [sumBitPositions_common lowerShift lowerShift_le, sumBitPositions_common upperShift upperShift_le,
    sum_range_common lowerShift (fun j => Char.ofNat (97 + j)) 1 _ _
      (fun j hj c => lowerShift_eq_iff c j hj) hpl,
    sum_range_common upperShift (fun j => Char.ofNat (65 + j)) 27 _ _
      (fun j hj c => upperShift_eq_iff c j hj) hpu,
    ← hlowerLetters, ← hupperLetters]
  simp [commonValue, letters]

/-- C25. For every string placed anywhere in a text, `calculateRucksuckDuplicates`
on its two ends returns the sum of the values of the letters that occur both
in its first `floor(n/2)` characters and in the rest, each letter counted once,
with `a` to `z` valued 1 to 26 and `A` to `Z` valued 27 to 52; when one letter
alone is common to the two halves the result is the value of that letter. -/
theorem calculateRucksuckDuplicates_sums_common_letters (pre s suf : List Char) :
    calculateRucksuckDuplicates (pre ++ s ++ suf) pre.length (pre.length + s.length) =
      .ok (commonValue s) ∧
    ∀ c ∈ letters, c ∈ firstHalf s → c ∈ secondHalf s →
      (∀ x ∈ letters, x ∈ firstHalf s → x ∈ secondHalf s → x = c) →
      calculateRucksuckDuplicates (pre ++ s ++ suf) pre.length (pre.length + s.length) =
        .ok (priority c) := by
  have h := calculateRucksuckDuplicates_eq pre s suf
  refine ⟨h, ?_⟩
  intro c hc h1 h2 hall
  rw [h]
  have hnodup : letters.Nodup := by decide
  have hfilter : letters.filter (fun x => decide (x ∈ firstHalf s) && decide (x ∈ secondHalf s))
      = letters.filter (fun x => decide (x = c)) := by
    apply List.filter_congr
    intro x hx
    by_cases hxc : x = c
    · subst hxc
      simp [h1, h2]
    · have : ¬ (x ∈ firstHalf s ∧ x ∈ secondHalf s) := fun hb => hxc (hall x hx hb.1 hb.2)
      simp only [hxc, decide_False]
      rw [← Bool.decide_and]
      simp [this]
  unfold commonValue
  rw [hfilter, List.filter_eq, List.count_eq_one_of_mem hnodup hc]
  simp

/-- C25, on a rucksack of 24 letters whose halves share the letter `p` only:
the result is 16. -/
theorem calculateRucksuckDuplicates_sums_common_letters_witness :
    calculateRucksuckDuplicates exampleRucksack 0 24 = .ok (commonValue exampleRucksack) ∧
    calculateRucksuckDuplicates exampleRucksack 0 24 = .ok 16 :=
  ⟨(calculateRucksuckDuplicates_sums_common_letters [] exampleRucksack []).1,
    (calculateRucksuckDuplicates_sums_common_letters [] exampleRucksack []).2 'p' (by decide)
      (by decide) (by decide) (by decide)⟩

end Day3
